import Mathlib

/-!
# Bistritz zero counting (`zerocount/bistritz.c`)

A shallow embedding of the routines of `bistritz.c` and of the FLINT primitives
they call, followed by theorems about them.

Conventions of the embedding.

* A FLINT `fmpz` is an `Int` (arbitrary precision, as in FLINT).
* A FLINT `fmpq` is a pair `num / den` of integers; the code reads and writes the
  two fields separately, so the pair is kept and `fmpq_canonicalise` is a function.
* A FLINT `fmpq_poly` is a list of integer numerators `coeffs` (ascending degree)
  with one shared denominator `den`; `length` is the length of the list.
* `slong` indices and counters are `Int`; they are bounded by the length of the
  input, far below `2^63`, so no wrap-around is modelled.
* In-place array updates `coeffs[i] = v` are `wr`, array reads `coeffs[i]` are `rd`.
  A read outside the array is undefined in C; `rd` gives `0` there and `wr` does
  nothing there.
* Output parameters become components of the returned value.
-/

namespace Bistritz

/-! ## Data model -/

/-- FLINT `fmpq`: numerator and denominator. -/
structure fmpq where
  num : Int
  den : Int
deriving DecidableEq, Repr

/-- FLINT `fmpq_poly`: integer numerators by ascending degree and a shared denominator. -/
structure fmpq_poly where
  coeffs : List Int
  den : Int
deriving DecidableEq, Repr

/-- The rational number denoted by an `fmpq`. -/
def fmpq.toRat (q : fmpq) : ℚ := (q.num : ℚ) / (q.den : ℚ)

/-- Array read `a[i]` for a signed index. -/
def rd (a : List Int) (i : Int) : Int :=
  if 0 ≤ i then a.getD i.toNat 0 else 0

/-- Array write `a[i] = v` for a signed index. -/
def wr (a : List Int) (i : Int) (v : Int) : List Int :=
  if 0 ≤ i then a.set i.toNat v else a

/-- The loop `for (slong i = hi; i >= lo; i--) body(i)`, with `n` iterations left. -/
def for_down_go {σ : Type} (body : Int → σ → σ) : Nat → Int → σ → σ
  | 0, _, s => s
  | n + 1, i, s => for_down_go body n (i - 1) (body i s)

/-- The loop `for (slong i = hi; i >= lo; i--) body(i)`. -/
def for_down {σ : Type} (hi lo : Int) (body : Int → σ → σ) (s : σ) : σ :=
  for_down_go body (hi - lo + 1).toNat hi s

/-- The loop `for (slong i = lo; i < hi; i++) body(i)`, with `n` iterations left. -/
def for_up_go {σ : Type} (body : Int → σ → σ) : Nat → Int → σ → σ
  | 0, _, s => s
  | n + 1, i, s => for_up_go body n (i + 1) (body i s)

/-- The loop `for (slong i = lo; i < hi; i++) body(i)`. -/
def for_up {σ : Type} (lo hi : Int) (body : Int → σ → σ) (s : σ) : σ :=
  for_up_go body (hi - lo).toNat lo s

/-! ## FLINT primitives -/

/-- FLINT `fmpq_zero`. -/
def fmpq_zero : fmpq := ⟨0, 1⟩

/-- FLINT `fmpq_canonicalise`: lowest terms with a positive denominator. -/
def fmpq_canonicalise (q : fmpq) : fmpq :=
  if q.den = 1 then q
  else if q.num = 0 then ⟨0, 1⟩
  else
    let u : Int := (Int.gcd q.num q.den : Int)
    let n := q.num / u
    let d := q.den / u
    if d < 0 then ⟨-n, -d⟩ else ⟨n, d⟩

/-- FLINT `fmpq_set_fmpz_frac`: the canonical form of `p / q`. -/
def fmpq_set_fmpz_frac (p q : Int) : fmpq := fmpq_canonicalise ⟨p, q⟩

/-- FLINT `fmpq_mul`. -/
def fmpq_mul (a b : fmpq) : fmpq := fmpq_canonicalise ⟨a.num * b.num, a.den * b.den⟩

/-- FLINT `fmpq_mul_2exp`: multiplication by `2^e`. -/
def fmpq_mul_2exp (a : fmpq) (e : Nat) : fmpq := fmpq_canonicalise ⟨a.num * 2 ^ e, a.den⟩

/-- FLINT `fmpq_sub`. -/
def fmpq_sub (a b : fmpq) : fmpq :=
  fmpq_canonicalise ⟨a.num * b.den - b.num * a.den, a.den * b.den⟩

/-- FLINT `fmpq_neg`. -/
def fmpq_neg (a : fmpq) : fmpq := ⟨-a.num, a.den⟩

/-- FLINT `fmpq_sgn`: the sign of the numerator (the denominator is positive). -/
def fmpq_sgn (a : fmpq) : Int := Int.sign a.num

/-- FLINT `_fmpq_poly_normalise`: drops the zero coefficients at the top. -/
def normalise : List Int → List Int
  | [] => []
  | c :: cs =>
    match normalise cs with
    | [] => if c = 0 then [] else [c]
    | d :: ds => c :: d :: ds

/-- FLINT `_fmpz_vec_content`: the non-negative gcd of the entries. -/
def content (cs : List Int) : Nat := cs.foldr (fun c g => Int.gcd c (g : Int)) 0

/-- FLINT `fmpq_poly_zero`. -/
def fmpq_poly_zero : fmpq_poly := ⟨[], 1⟩

/-- FLINT `fmpq_poly_canonicalise`: normalises the length, removes the common factor
of the numerators and the denominator, makes the denominator positive. -/
def fmpq_poly_canonicalise (p : fmpq_poly) : fmpq_poly :=
  let cs := normalise p.coeffs
  if p.den = 1 then ⟨cs, 1⟩
  else if p.den = -1 then ⟨cs.map (fun c => -c), 1⟩
  else if cs = [] then ⟨[], 1⟩
  else
    let g0 : Int := (Int.gcd (content cs : Int) p.den : Int)
    let g : Int := if p.den < 0 then -g0 else g0
    ⟨cs.map (fun c => c / g), p.den / g⟩

/-- FLINT `fmpq_poly_length`. -/
def fmpq_poly_length (p : fmpq_poly) : Int := p.coeffs.length

/-- FLINT `fmpq_poly_degree`: `length - 1`, so `-1` for the zero polynomial. -/
def fmpq_poly_degree (p : fmpq_poly) : Int := (p.coeffs.length : Int) - 1

/-- FLINT `fmpq_poly_is_zero`. -/
def fmpq_poly_is_zero (p : fmpq_poly) : Bool := p.coeffs.length == 0

/-- FLINT `fmpq_poly_shift_right`: divides by `x^n`, discarding the remainder. -/
def fmpq_poly_shift_right (p : fmpq_poly) (n : Nat) : fmpq_poly :=
  if n = 0 then p
  else if p.coeffs.length ≤ n then fmpq_poly_zero
  else fmpq_poly_canonicalise ⟨p.coeffs.drop n, p.den⟩

/-- FLINT `fmpq_poly_reverse`: the polynomial seen as of length `n` (truncated or
padded with zeros), reversed, in canonical form. -/
def fmpq_poly_reverse (p : fmpq_poly) (n : Nat) : fmpq_poly :=
  if min n p.coeffs.length = 0 then fmpq_poly_zero
  else
    let cs := p.coeffs.take n
    fmpq_poly_canonicalise ⟨(cs ++ List.replicate (n - cs.length) 0).reverse, p.den⟩

/-- Numerators of `a * db + s * b * da` coefficient by coefficient; the shorter list
is padded with zeros. -/
def lincomb (da db s : Int) : List Int → List Int → List Int
  | [], bs => bs.map (fun b => s * b * da)
  | a :: as, [] => (a * db) :: lincomb da db s as []
  | a :: as, b :: bs => (a * db + s * b * da) :: lincomb da db s as bs

/-- FLINT `fmpq_poly_add`: the sum in canonical form. -/
def fmpq_poly_add (p q : fmpq_poly) : fmpq_poly :=
  fmpq_poly_canonicalise ⟨lincomb p.den q.den 1 p.coeffs q.coeffs, p.den * q.den⟩

/-- FLINT `fmpq_poly_sub`: the difference in canonical form. -/
def fmpq_poly_sub (p q : fmpq_poly) : fmpq_poly :=
  fmpq_poly_canonicalise ⟨lincomb p.den q.den (-1) p.coeffs q.coeffs, p.den * q.den⟩

/-- FLINT `fmpq_poly_neg`. -/
def fmpq_poly_neg (p : fmpq_poly) : fmpq_poly := ⟨p.coeffs.map (fun c => -c), p.den⟩

/-- Numerators of the derivative: `k * c_k` for `k = 1, 2, ...`, from the list of
`c_k` starting at index `k`. -/
def derivative_from : Nat → List Int → List Int
  | _, [] => []
  | k, c :: cs => ((k : Int) * c) :: derivative_from (k + 1) cs

/-- FLINT `fmpq_poly_derivative`: the formal derivative in canonical form. -/
def fmpq_poly_derivative (p : fmpq_poly) : fmpq_poly :=
  fmpq_poly_canonicalise ⟨derivative_from 1 p.coeffs.tail, p.den⟩

/-! ## The routines of `bistritz.c` -/

/-- The loop of `get_lambda` from index `i` on: the index of the first non-zero
numerator, `none` when the loop runs to the end. -/
def first_nonzero : List Int → Int → Option Int
  | [], _ => none
  | c :: cs, i => if c ≠ 0 then some i else first_nonzero cs (i + 1)

/-- `get_lambda`: index of the lowest non-zero term, `0` if there is none. -/
def get_lambda (poly : fmpq_poly) : Int := (first_nonzero poly.coeffs 0).getD 0

/-- `get_coeff_numref`: the numerator of the `n`-th coefficient, or `const_null`
if `n` is out of range. -/
def get_coeff_numref (poly : fmpq_poly) (const_null : Int) (n : Int) : Int :=
  if 0 ≤ n ∧ n < fmpq_poly_length poly then rd poly.coeffs n else const_null

/-- `get_coeff`: the `n`-th coefficient as a canonical rational, `0` out of range. -/
def get_coeff (poly : fmpq_poly) (n : Int) : fmpq :=
  if 0 ≤ n ∧ n < fmpq_poly_length poly then
    fmpq_canonicalise (fmpq_set_fmpz_frac (rd poly.coeffs n) poly.den)
  else fmpq_zero

/-- `get_delta`: the recursion coefficient `T_prev[0] / T_curr[lambda]`. -/
def get_delta (T_prev T_curr : fmpq_poly) : fmpq :=
  if fmpq_poly_length T_prev > 0 ∧ fmpq_poly_length T_curr > 0 then
    let delta := get_coeff T_curr (get_lambda T_curr)
    let delta : fmpq := ⟨delta.den, delta.num⟩
    let delta : fmpq := ⟨delta.num * rd T_prev.coeffs 0, delta.den⟩
    let delta : fmpq := ⟨delta.num, delta.den * T_prev.den⟩
    fmpq_canonicalise delta
  else fmpq_zero

/-- `div_x_minus_1_asym`: quotient of an antisymmetric polynomial by `x - 1`. -/
def div_x_minus_1_asym (poly : fmpq_poly) : fmpq_poly :=
  let res := poly
  let deg := fmpq_poly_degree res
  let start := get_lambda res
  let length := fmpq_poly_length res - start
  let mid := Int.tdiv length 2 + start
  let c := for_down (deg - 1) mid (fun i c => wr c i (rd c i + rd c (i + 1))) res.coeffs
  let c := for_up 1 (Int.tdiv length 2) (fun i c => wr c (start + i) (rd c (deg + 1 - i))) c
  let c := if start ≥ 1 then wr c start 0 else c
  let res := fmpq_poly_shift_right ⟨c, res.den⟩ 1
  fmpq_poly_canonicalise res

/-- The loop `while (fmpz_is_zero(poly->coeffs+start)) start++` over the numerators
from index `start` on. Running past the end of the array is undefined in C; the
model stops there. -/
def skip_zeros : List Int → Int → Int
  | [], start => start
  | c :: cs, start => if c = 0 then skip_zeros cs (start + 1) else start

/-- `eval_at_1_sym`: value at `x = 1` of a formally symmetric polynomial. -/
def eval_at_1_sym (poly : fmpq_poly) : fmpq :=
  let val := fmpq_zero
  if fmpq_poly_length poly > 0 then
    let start := skip_zeros poly.coeffs 0
    let length := fmpq_poly_length poly - start
    let mid := start + Int.tdiv length 2
    let num := for_up start mid (fun i v => v + rd poly.coeffs i) val.num
    let num := num * 2 ^ 1
    let num := if Int.tmod length 2 ≠ 0 then num + rd poly.coeffs mid else num
    fmpq_canonicalise ⟨num, poly.den⟩
  else val

/-- The `do ... while (cont)` loop of `clear_x_minus_1` on the working copy `P`,
with `fuel` passes allowed; `none` when the passes are used up. -/
def clear_loop : Nat → Int → fmpq_poly → fmpq_poly → Option (Int × fmpq_poly)
  | 0, _, _, _ => none
  | fuel + 1, count, P, poly =>
    let c := for_down (fmpq_poly_degree P - 1) 0 (fun i c => wr c i (rd c i + rd c (i + 1))) P.coeffs
    if rd c 0 = 0 then
      let P := fmpq_poly_shift_right ⟨c, P.den⟩ 1
      let P := fmpq_poly_canonicalise P
      clear_loop fuel (count + 1) P P
    else some (count, poly)

/-- `clear_x_minus_1` with a bound on the number of passes of its loop. -/
def clear_x_minus_1_fuel (fuel : Nat) (poly : fmpq_poly) : Option (Int × fmpq_poly) :=
  if fmpq_poly_length poly > 0 then clear_loop fuel 0 poly poly
  else some (0, poly)

/-- `clear_x_minus_1`: divides by `x - 1` as long as the remainder is zero; returns
the count and the quotient. The loop is given `length + 1` passes, one more than it
can use on a polynomial whose top coefficient is non-zero. -/
def clear_x_minus_1 (poly : fmpq_poly) : Option (Int × fmpq_poly) :=
  clear_x_minus_1_fuel (poly.coeffs.length + 1) poly

/-- `rule_init`: returns `(T1, T2, sigma1, sigma2)`. -/
def rule_init (D : fmpq_poly) : fmpq_poly × fmpq_poly × fmpq × fmpq :=
  let T1 := fmpq_poly_reverse D (fmpq_poly_length D).toNat
  let T2 := fmpq_poly_sub D T1
  let T2 := div_x_minus_1_asym T2
  let T1 := fmpq_poly_add T1 D
  let sigma1 := eval_at_1_sym T1
  let sigma2 := eval_at_1_sym T2
  (T1, T2, sigma1, sigma2)

/-- `do_singular`: returns `(T1, T2, T3, sigma1, sigma2, sigma3)`; the values of
`T2`, `T3`, `sigma2`, `sigma3` on entry are overwritten without being read. -/
def do_singular (T1 : fmpq_poly) (sigma1 : fmpq) :
    fmpq_poly × fmpq_poly × fmpq_poly × fmpq × fmpq × fmpq :=
  let T1 := fmpq_poly_derivative T1
  let r := rule_init T1
  let T2 := r.1
  let T3 := r.2.1
  let sigma2 := r.2.2.1
  let sigma3 := r.2.2.2
  let T2 := fmpq_poly_neg T2
  let sigma2 := fmpq_neg sigma2
  (T1, T2, T3, sigma1, sigma2, sigma3)

/-- `do_recurence`: returns `(T3, sigma3, delta)`; `T3` and `sigma3` are overwritten
without being read, `delta` is left as it was when `flength <= 0`. -/
def do_recurence (delta : fmpq) (fmpz_const_null : Int) (T1 T2 : fmpq_poly)
    (sigma1 sigma2 : fmpq) (flength : Int) : fmpq_poly × fmpq × fmpq :=
  if flength ≤ 0 then (fmpq_poly_zero, fmpq_zero, delta)
  else
    let lambda := get_lambda T2
    let delta := get_delta T1 T2
    let sigma3 := fmpq_mul delta sigma2
    let sigma3 := fmpq_mul_2exp sigma3 1
    let sigma3 := fmpq_sub sigma3 sigma1
    let c := List.replicate flength.toNat (0 : Int)
    let mid := Int.tdiv (flength - 1) 2
    let delta : fmpq := ⟨delta.num * T1.den, delta.den⟩
    let delta : fmpq := ⟨delta.num, delta.den * T2.den⟩
    let c := for_up 0 (mid + 1) (fun i c =>
      let t := get_coeff_numref T2 fmpz_const_null (i - lambda)
        + get_coeff_numref T2 fmpz_const_null (i + lambda + 1)
      let t := t * delta.num
      let t := t - delta.den * get_coeff_numref T1 fmpz_const_null (i + 1)
      wr c i t) c
    let c := for_up (mid + 1) flength (fun i c => wr c i (rd c (flength - i - 1))) c
    let T3 := fmpq_poly_canonicalise ⟨c, delta.den * T1.den⟩
    (T3, sigma3, delta)

/-- The local variables of `Bistritz_rule` that live across iterations of its loop. -/
structure rule_state where
  T_prev : fmpq_poly
  T_curr : fmpq_poly
  T_next : fmpq_poly
  sigma_prev : fmpq
  sigma_curr : fmpq
  sigma_next : fmpq
  delta : fmpq
  last_sgn : Int
  singular : Int
  vars : Int
  vars_reg : Int
deriving DecidableEq, Repr

/-- The part of the loop body of `Bistritz_rule` after the branch that computes
`T_next`: sign bookkeeping and the rotation of the three slots. -/
def rule_count_and_rotate (s : rule_state) : rule_state :=
  let curr_sgn := fmpq_sgn s.sigma_curr
  let vars := s.vars + Int.tdiv (1 - s.last_sgn * curr_sgn) 2
  let last_sgn := if curr_sgn ≠ 0 then curr_sgn else s.last_sgn
  { s with
    vars := vars
    last_sgn := last_sgn
    T_prev := s.T_curr
    T_curr := s.T_next
    T_next := s.T_prev
    sigma_prev := s.sigma_curr
    sigma_curr := s.sigma_next
    sigma_next := s.sigma_prev }

/-- The regular branch of the loop body: `do_recurence` into `T_next`, `sigma_next`. -/
def rule_regular (const_null : Int) (i : Int) (s : rule_state) : rule_state :=
  let r := do_recurence s.delta const_null s.T_prev s.T_curr s.sigma_prev s.sigma_curr i
  { s with T_next := r.1, sigma_next := r.2.1, delta := r.2.2 }

/-- The singular branch of the loop body: `do_singular` on the three slots, then the
record of the first singularity. -/
def rule_singular (i : Int) (s : rule_state) : rule_state :=
  let r := do_singular s.T_prev s.sigma_prev
  let s : rule_state :=
    { s with
      T_prev := r.1
      T_curr := r.2.1
      T_next := r.2.2.1
      sigma_prev := r.2.2.2.1
      sigma_curr := r.2.2.2.2.1
      sigma_next := r.2.2.2.2.2 }
  if s.singular = -1 then { s with singular := i, vars_reg := s.vars } else s

/-- One iteration of the loop of `Bistritz_rule` at index `i`; `none` is `break`. -/
def rule_step (const_null : Int) (i : Int) (s : rule_state) : Option rule_state :=
  if fmpq_poly_is_zero s.T_curr then
    if fmpq_poly_is_zero s.T_prev then none
    else if rd s.T_prev.coeffs 0 = 0 then
      some (rule_count_and_rotate (rule_regular const_null i s))
    else some (rule_count_and_rotate (rule_singular i s))
  else some (rule_count_and_rotate (rule_regular const_null i s))

/-- The loop `for (slong i = deg-1; i >= 0; i--)` of `Bistritz_rule` with `n`
iterations left; returns the value of `i` and the state when the loop is left. -/
def rule_loop (const_null : Int) : Nat → Int → rule_state → Int × rule_state
  | 0, i, s => (i, s)
  | n + 1, i, s =>
    match rule_step const_null i s with
    | none => (i, s)
    | some s' => rule_loop const_null n (i - 1) s'

/-- What `Bistritz_rule` has computed when its loop is left. -/
structure rule_run where
  on_uc : Int
  deg : Int
  i : Int
  s : rule_state
deriving DecidableEq, Repr

/-- `Bistritz_rule` up to the end of its loop. -/
def Bistritz_run (poly : fmpq_poly) : Option rule_run :=
  let const_null : Int := 0
  let D := poly
  match clear_x_minus_1 D with
  | none => none
  | some (on_uc, D) =>
    let deg := fmpq_poly_degree D
    let r := rule_init D
    let s : rule_state :=
      { T_prev := r.1
        T_curr := r.2.1
        T_next := fmpq_poly_zero
        sigma_prev := r.2.2.1
        sigma_curr := r.2.2.2
        sigma_next := fmpq_zero
        delta := fmpq_zero
        last_sgn := fmpq_sgn r.2.2.1
        singular := -1
        vars := 0
        vars_reg := 0 }
    let e := rule_loop const_null deg.toNat (deg - 1) s
    some ⟨on_uc, deg, e.1, e.2⟩

/-- The statements of `Bistritz_rule` after its loop: the pair `(in_uc, on_uc)`. -/
def rule_finish (r : rule_run) : Int × Int :=
  let vars_reg := if r.s.singular = -1 then r.s.vars else r.s.vars_reg
  let in_uc := r.deg - r.s.vars
  let on_uc := r.on_uc + (2 * (r.s.vars - vars_reg) - r.s.singular - 1)
  (in_uc, on_uc)

/-- `Bistritz_rule`: the pair `(in_uc, on_uc)`; `none` only if the loop of
`clear_x_minus_1` does not come to an end. -/
def Bistritz_rule (poly : fmpq_poly) : Option (Int × Int) :=
  (Bistritz_run poly).map rule_finish

/-! ## Vocabulary of the specification -/

/-- `coefficient_at(P, n)`: the coefficient of `P` at degree `n` as an exact rational,
zero when `n` is negative or not below the length. It is the value of `get_coeff`. -/
def coefficient_at (p : fmpq_poly) (n : Int) : ℚ := (get_coeff p n).toRat

/-- The coefficients of `P` as a list of rationals, by ascending degree. -/
def rat_coeffs (p : fmpq_poly) : List ℚ :=
  p.coeffs.map (fun (c : Int) => (c : ℚ) / (p.den : ℚ))

/-- Generic evaluation at `x = 1`: the sum of all coefficients. -/
def eval_at_1 (p : fmpq_poly) : ℚ := (rat_coeffs p).sum

/-- The representation invariant the routines rely on: the top numerator is not zero
(the length is normalised) and the denominator is not zero. Every polynomial in
FLINT canonical form satisfies it. -/
def well_formed (p : fmpq_poly) : Prop := p.coeffs.getLast? ≠ some 0 ∧ p.den ≠ 0

/-- FLINT canonical form: normalised length, positive denominator, and no common
factor between the numerators and the denominator. -/
def canonical (p : fmpq_poly) : Prop :=
  p.coeffs.getLast? ≠ some 0 ∧ 0 < p.den ∧ Int.gcd (content p.coeffs : Int) p.den = 1

instance (p : fmpq_poly) : Decidable (well_formed p) := by
  unfold well_formed
  infer_instance

instance (p : fmpq_poly) : Decidable (canonical p) := by
  unfold canonical
  infer_instance

/-- Formal symmetry with respect to the formal length `n`. -/
def formally_symmetric (p : fmpq_poly) (n : Int) : Prop :=
  fmpq_poly_length p ≤ n ∧ ∀ k : Int, coefficient_at p k = coefficient_at p (n - 1 - k)

/-- Formal antisymmetry with respect to the formal length `n`. -/
def formally_antisymmetric (p : fmpq_poly) (n : Int) : Prop :=
  fmpq_poly_length p ≤ n ∧ ∀ k : Int, coefficient_at p k = -coefficient_at p (n - 1 - k)

/-- The coefficient sequence of `(x - 1) * F` from the coefficient sequence of `F`. -/
def mul_x_minus_1 (f : Int → ℚ) : Int → ℚ := fun k => f (k - 1) - f k

/-- Generic division by `x - 1` (synthetic division from the top coefficient down):
the quotient, by ascending degree, and the remainder. -/
def divmod_x_minus_1 : List ℚ → List ℚ × ℚ
  | [] => ([], 0)
  | c :: cs => ((divmod_x_minus_1 cs).2 :: (divmod_x_minus_1 cs).1, c + (divmod_x_minus_1 cs).2)

/-- The sum of `f k` for `k = lo, ..., lo + n - 1`. -/
def isum (f : Int → Int) (lo : Int) : Nat → Int
  | 0 => 0
  | n + 1 => isum f lo n + f (lo + n)

/-- The sum of `f k` for `lo <= k < hi`. -/
def range_sum (f : Int → Int) (lo hi : Int) : Int := isum f lo (hi - lo).toNat

/-! ## The loop of `Bistritz_rule`, iteration by iteration -/

/-- The local variables of `Bistritz_rule` when its loop is entered, for the
polynomial `D` left by `clear_x_minus_1`. -/
def rule_start (D : fmpq_poly) : rule_state :=
  { T_prev := (rule_init D).1
    T_curr := (rule_init D).2.1
    T_next := fmpq_poly_zero
    sigma_prev := (rule_init D).2.2.1
    sigma_curr := (rule_init D).2.2.2
    sigma_next := fmpq_zero
    delta := fmpq_zero
    last_sgn := fmpq_sgn (rule_init D).2.2.1
    singular := -1
    vars := 0
    vars_reg := 0 }

/-- The first half of the loop body, up to the sign bookkeeping: the branch that
computes `T_next`; `none` is `break`. -/
def rule_branch (const_null : Int) (i : Int) (s : rule_state) : Option rule_state :=
  if fmpq_poly_is_zero s.T_curr then
    if fmpq_poly_is_zero s.T_prev then none
    else if rd s.T_prev.coeffs 0 = 0 then some (rule_regular const_null i s)
    else some (rule_singular i s)
  else some (rule_regular const_null i s)

/-- Whether the iteration entered in state `s` takes the singular branch. -/
def takes_singular_branch (s : rule_state) : Bool :=
  fmpq_poly_is_zero s.T_curr && !fmpq_poly_is_zero s.T_prev && !decide (rd s.T_prev.coeffs 0 = 0)

/-- The iterations of the loop in the order they are entered: the loop index `i`
and the state at the start of the iteration. An iteration that leaves the loop by
`break` is the last entry. -/
def rule_trace (const_null : Int) : Nat → Int → rule_state → List (Int × rule_state)
  | 0, _, _ => []
  | n + 1, i, s =>
    match rule_step const_null i s with
    | none => [(i, s)]
    | some s' => (i, s) :: rule_trace const_null n (i - 1) s'

/-- The values of `sigma_curr` that the sign bookkeeping reads, one per completed
iteration, in order. -/
def observed_sigmas (const_null : Int) : Nat → Int → rule_state → List fmpq
  | 0, _, _ => []
  | n + 1, i, s =>
    match rule_branch const_null i s with
    | none => []
    | some t => t.sigma_curr :: observed_sigmas const_null n (i - 1) (rule_count_and_rotate t)

/-- The number of changes of sign between consecutive terms of a sequence. -/
def sign_changes : List ℚ → Nat
  | [] => 0
  | [_] => 0
  | a :: b :: rest => (if a * b < 0 then 1 else 0) + sign_changes (b :: rest)

/-- Sign variations of a sequence: the changes of sign between consecutive
non-zero terms, zero terms being skipped. -/
def sign_variations (l : List ℚ) : Nat := sign_changes (l.filter (fun x => decide (x ≠ 0)))

/-- The invariant of the loop of `Bistritz_rule` at the start of the iteration with
loop index `i`: the two live slots are well formed and formally symmetric of formal
lengths `i + 2` and `i + 1`, the two rationals are their values at `x = 1` (with
positive denominators), and the two polynomials are not both zero. -/
def loop_invariant (i : Int) (s : rule_state) : Prop :=
  well_formed s.T_prev ∧ well_formed s.T_curr ∧
  formally_symmetric s.T_prev (i + 2) ∧ formally_symmetric s.T_curr (i + 1) ∧
  s.sigma_prev.toRat = eval_at_1 s.T_prev ∧ s.sigma_curr.toRat = eval_at_1 s.T_curr ∧
  0 < s.sigma_prev.den ∧ 0 < s.sigma_curr.den ∧
  (s.T_prev.coeffs ≠ [] ∨ s.T_curr.coeffs ≠ [])

/-! ## Multiplication by a constant -/

/-- The polynomial `q` is `c * p`: its coefficient at every degree is `c` times the
coefficient of `p`, whatever the two representations are. -/
def scaled_by (c : ℚ) (p q : fmpq_poly) : Prop :=
  ∀ k : Int, coefficient_at q k = c * coefficient_at p k

/-- The loop states of two runs, the second on `c` times the polynomials of the
first: the live polynomials and rationals of `s'` are `c` times those of `s`,
`last_sgn` is the same for `c > 0` and the opposite for `c < 0`, and the counters
`vars`, `singular` and `vars_reg` are the same. -/
def scaled_state (c : ℚ) (s s' : rule_state) : Prop :=
  scaled_by c s.T_prev s'.T_prev ∧ scaled_by c s.T_curr s'.T_curr ∧
  s'.sigma_prev.toRat = c * s.sigma_prev.toRat ∧
  s'.sigma_curr.toRat = c * s.sigma_curr.toRat ∧
  ((0 < c ∧ s'.last_sgn = s.last_sgn) ∨ (c < 0 ∧ s'.last_sgn = -s.last_sgn)) ∧
  s'.vars = s.vars ∧ s'.singular = s.singular ∧ s'.vars_reg = s.vars_reg

/-! ## Arrays and loops -/

theorem rd_nil (i : Int) : rd [] i = 0 := by
  unfold rd; split <;> simp

theorem rd_neg (a : List Int) {i : Int} (h : i < 0) : rd a i = 0 := by
  unfold rd; rw [if_neg (by omega)]

theorem rd_of_length_le (a : List Int) {i : Int} (h : (a.length : Int) ≤ i) : rd a i = 0 := by
  unfold rd
  split
  · rw [List.getD_eq_getElem?_getD, List.getElem?_eq_none (by omega)]; rfl
  · rfl

theorem rd_cons_zero (c : Int) (cs : List Int) : rd (c :: cs) 0 = c := by
  simp [rd]

theorem rd_cons_succ (c : Int) (cs : List Int) {i : Int} (h : 0 ≤ i) :
    rd (c :: cs) (i + 1) = rd cs i := by
  unfold rd
  rw [if_pos (by omega), if_pos h]
  have : (i + 1).toNat = i.toNat + 1 := by omega
  rw [this, List.getD_cons_succ]

theorem rd_cons_pos (c : Int) (cs : List Int) {i : Int} (h : 0 < i) :
    rd (c :: cs) i = rd cs (i - 1) := by
  have := rd_cons_succ c cs (i := i - 1) (by omega)
  simpa using this

theorem length_wr (a : List Int) (i v : Int) : (wr a i v).length = a.length := by
  unfold wr; split <;> simp

theorem rd_wr (a : List Int) (i j v : Int) :
    rd (wr a i v) j = if i = j ∧ 0 ≤ i ∧ i < a.length then v else rd a j := by
  unfold rd wr
  by_cases hi : 0 ≤ i
  · by_cases hj : 0 ≤ j
    · simp only [if_pos hi, if_pos hj, List.getD_eq_getElem?_getD, List.getElem?_set]
      by_cases hij : i = j
      · subst hij
        by_cases hl : i < a.length
        · have : i.toNat < a.length := by omega
          simp [this, hi, hl]
        · have : ¬ i.toNat < a.length := by omega
          have h2 : a.length ≤ i.toNat := by omega
          simp [this, hl, List.getElem?_eq_none h2]
      · have : i.toNat ≠ j.toNat := by omega
        simp [this, hij]
    · have : i ≠ j := by omega
      simp [hi, hj, this]
  · simp [hi]

theorem rd_wr_same (a : List Int) {i : Int} (v : Int) (h0 : 0 ≤ i) (h1 : i < a.length) :
    rd (wr a i v) i = v := by
  rw [rd_wr]; simp [h0, h1]

theorem rd_wr_ne (a : List Int) {i j : Int} (v : Int) (h : i ≠ j) :
    rd (wr a i v) j = rd a j := by
  rw [rd_wr]; simp [h]

theorem for_up_go_induct {σ : Type} (body : Int → σ → σ) (P : Int → σ → Prop) :
    ∀ (n : Nat) (i : Int) (s : σ), P i s →
      (∀ j t, i ≤ j → j < i + n → P j t → P (j + 1) (body j t)) →
      P (i + n) (for_up_go body n i s) := by
  intro n
  induction n with
  | zero => intro i s h _; simpa [for_up_go] using h
  | succ n ih =>
    intro i s h hstep
    have h1 : P (i + 1) (body i s) := hstep i s (le_refl _) (by push_cast; omega) h
    have := ih (i + 1) (body i s) h1
      (fun j t hj1 hj2 hp => hstep j t (by omega) (by push_cast; omega) hp)
    simp only [for_up_go]
    have e : i + ((n + 1 : Nat) : Int) = i + 1 + n := by push_cast; ring
    rw [e]; exact this

/-- Invariant rule for the ascending loop. -/
theorem for_up_induct {σ : Type} (lo hi : Int) (body : Int → σ → σ) (P : Int → σ → Prop)
    (s : σ) (hle : lo ≤ hi) (h0 : P lo s)
    (hstep : ∀ i t, lo ≤ i → i < hi → P i t → P (i + 1) (body i t)) :
    P hi (for_up lo hi body s) := by
  have key := for_up_go_induct body P (hi - lo).toNat lo s h0
    (fun j t h1 h2 hp => hstep j t h1 (by omega) hp)
  have e : lo + ((hi - lo).toNat : Int) = hi := by omega
  rw [e] at key
  exact key

theorem for_up_empty {σ : Type} (lo hi : Int) (body : Int → σ → σ) (s : σ) (h : hi ≤ lo) :
    for_up lo hi body s = s := by
  unfold for_up
  have : (hi - lo).toNat = 0 := by omega
  rw [this]; rfl

theorem for_down_go_induct {σ : Type} (body : Int → σ → σ) (P : Int → σ → Prop) :
    ∀ (n : Nat) (i : Int) (s : σ), P i s →
      (∀ j t, j ≤ i → i - n < j → P j t → P (j - 1) (body j t)) →
      P (i - n) (for_down_go body n i s) := by
  intro n
  induction n with
  | zero => intro i s h _; simpa [for_down_go] using h
  | succ n ih =>
    intro i s h hstep
    have h1 : P (i - 1) (body i s) := hstep i s (le_refl _) (by push_cast; omega) h
    have := ih (i - 1) (body i s) h1
      (fun j t hj1 hj2 hp => hstep j t (by omega) (by push_cast; omega) hp)
    simp only [for_down_go]
    have e : i - ((n + 1 : Nat) : Int) = i - 1 - n := by push_cast; ring
    rw [e]; exact this

/-- Invariant rule for the descending loop: `P i` is what holds before the
iteration at index `i`. -/
theorem for_down_induct {σ : Type} (hi lo : Int) (body : Int → σ → σ) (P : Int → σ → Prop)
    (s : σ) (hle : lo ≤ hi + 1) (h0 : P hi s)
    (hstep : ∀ i t, lo ≤ i → i ≤ hi → P i t → P (i - 1) (body i t)) :
    P (lo - 1) (for_down hi lo body s) := by
  have key := for_down_go_induct body P (hi - lo + 1).toNat hi s h0
    (fun j t h1 h2 hp => hstep j t (by omega) h1 hp)
  have e : hi - ((hi - lo + 1).toNat : Int) = lo - 1 := by omega
  rw [e] at key
  exact key

theorem for_down_empty {σ : Type} (hi lo : Int) (body : Int → σ → σ) (s : σ) (h : hi < lo) :
    for_down hi lo body s = s := by
  unfold for_down
  have : (hi - lo + 1).toNat = 0 := by omega
  rw [this]; rfl

/-! ## Sums over index ranges -/

theorem range_sum_empty (f : Int → Int) {a b : Int} (h : b ≤ a) : range_sum f a b = 0 := by
  unfold range_sum
  have : (b - a).toNat = 0 := by omega
  rw [this]; rfl

theorem range_sum_succ_top (f : Int → Int) {a b : Int} (h : a ≤ b) :
    range_sum f a (b + 1) = range_sum f a b + f b := by
  unfold range_sum
  have : (b + 1 - a).toNat = (b - a).toNat + 1 := by omega
  rw [this, isum]
  have e : a + ((b - a).toNat : Int) = b := by omega
  rw [e]

theorem isum_succ_bot (f : Int → Int) (lo : Int) (n : Nat) :
    isum f lo (n + 1) = f lo + isum f (lo + 1) n := by
  induction n with
  | zero => simp [isum]
  | succ n ih =>
    rw [isum, ih, isum]
    have e : lo + 1 + (n : Int) = lo + ((n + 1 : Nat) : Int) := by push_cast; ring
    rw [e]; ring

theorem range_sum_succ_bot (f : Int → Int) {a b : Int} (h : a < b) :
    range_sum f a b = f a + range_sum f (a + 1) b := by
  unfold range_sum
  have : (b - a).toNat = (b - (a + 1)).toNat + 1 := by omega
  rw [this, isum_succ_bot]

theorem isum_congr (f g : Int → Int) (lo : Int) (n : Nat)
    (h : ∀ k, lo ≤ k → k < lo + n → f k = g k) : isum f lo n = isum g lo n := by
  induction n with
  | zero => rfl
  | succ n ih =>
    rw [isum, isum, ih (fun k h1 h2 => h k h1 (by push_cast; omega)),
      h (lo + n) (by omega) (by push_cast; omega)]

theorem range_sum_congr (f g : Int → Int) (lo hi : Int)
    (h : ∀ k, lo ≤ k → k < hi → f k = g k) : range_sum f lo hi = range_sum g lo hi := by
  unfold range_sum
  exact isum_congr f g lo _ (fun k h1 h2 => h k h1 (by omega))

theorem range_sum_eq_zero (f : Int → Int) (lo hi : Int)
    (h : ∀ k, lo ≤ k → k < hi → f k = 0) : range_sum f lo hi = 0 := by
  by_cases hle : hi ≤ lo
  · exact range_sum_empty f hle
  · have : ∀ n : Nat, lo + n ≤ hi → range_sum f lo (lo + n) = 0 := by
      intro n
      induction n with
      | zero => intro _; exact range_sum_empty f (by simp)
      | succ n ih =>
        intro hn
        have e : lo + ((n + 1 : Nat) : Int) = lo + n + 1 := by push_cast; ring
        rw [e, range_sum_succ_top f (by omega), ih (by push_cast at hn; omega),
          h (lo + n) (by omega) (by push_cast at hn; omega)]
        rfl
    have := this (hi - lo).toNat (by omega)
    have e : lo + ((hi - lo).toNat : Int) = hi := by omega
    rwa [e] at this

theorem range_sum_split (f : Int → Int) {a m b : Int} (h1 : a ≤ m) (h2 : m ≤ b) :
    range_sum f a b = range_sum f a m + range_sum f m b := by
  have : ∀ n : Nat, range_sum f a (m + n) = range_sum f a m + range_sum f m (m + n) := by
    intro n
    induction n with
    | zero => simp [range_sum_empty f (le_refl m)]
    | succ n ih =>
      have e : m + ((n + 1 : Nat) : Int) = m + n + 1 := by push_cast; ring
      rw [e, range_sum_succ_top f (by omega), range_sum_succ_top f (by omega), ih]; ring
  have := this (b - m).toNat
  have e : m + ((b - m).toNat : Int) = b := by omega
  rwa [e] at this

/-- Reflection of the summation index: `k ↦ c - k`. -/
theorem range_sum_reflect (f : Int → Int) (c lo hi : Int) :
    range_sum (fun k => f (c - k)) lo hi = range_sum f (c - hi + 1) (c - lo + 1) := by
  by_cases hle : hi ≤ lo
  · rw [range_sum_empty _ hle, range_sum_empty _ (by omega)]
  · have : ∀ n : Nat, range_sum (fun k => f (c - k)) lo (lo + n)
        = range_sum f (c - (lo + n) + 1) (c - lo + 1) := by
      intro n
      induction n with
      | zero => simp [range_sum_empty]
      | succ n ih =>
        have e : lo + ((n + 1 : Nat) : Int) = lo + n + 1 := by push_cast; ring
        rw [e, range_sum_succ_top _ (by omega), ih,
          range_sum_succ_bot f (a := c - (lo + n + 1) + 1) (by omega)]
        have e2 : c - (lo + ↑n + 1) + 1 + 1 = c - (lo + n) + 1 := by ring
        have e3 : c - (lo + ↑n + 1) + 1 = c - (lo + n) := by ring
        rw [e2, e3]; ring
    have := this (hi - lo).toNat
    have e : lo + ((hi - lo).toNat : Int) = hi := by omega
    rwa [e] at this

theorem range_sum_neg (f : Int → Int) (lo hi : Int) :
    range_sum (fun k => -f k) lo hi = -range_sum f lo hi := by
  by_cases hle : hi ≤ lo
  · rw [range_sum_empty _ hle, range_sum_empty _ hle]; rfl
  · have : ∀ n : Nat, range_sum (fun k => -f k) lo (lo + n) = -range_sum f lo (lo + n) := by
      intro n
      induction n with
      | zero => simp [range_sum_empty]
      | succ n ih =>
        have e : lo + ((n + 1 : Nat) : Int) = lo + n + 1 := by push_cast; ring
        rw [e, range_sum_succ_top _ (by omega), range_sum_succ_top _ (by omega), ih]; ring
    have := this (hi - lo).toNat
    have e : lo + ((hi - lo).toNat : Int) = hi := by omega
    rwa [e] at this

/-- The sum of the entries of a list is the sum of its reads over the index range. -/
theorem list_sum_eq_range_sum (cs : List Int) :
    cs.sum = range_sum (rd cs) 0 cs.length := by
  induction cs with
  | nil => simp [range_sum_empty]
  | cons c cs ih =>
    rw [List.sum_cons, List.length_cons, range_sum_succ_bot _ (by push_cast; omega), rd_cons_zero, ih]
    congr 1
    have h1 : ∀ n : Nat, range_sum (rd cs) 0 n = range_sum (rd (c :: cs)) (0 + 1) ((n : Int) + 1) := by
      intro n
      induction n with
      | zero => simp [range_sum_empty]
      | succ n ih2 =>
        have e : (((n + 1 : Nat) : Int)) = (n : Int) + 1 := by push_cast; ring
        rw [e, range_sum_succ_top _ (by omega), range_sum_succ_top _ (by omega), ih2,
          rd_cons_succ c cs (by omega)]
    have := h1 cs.length
    push_cast
    simpa using this

/-! ## Rationals -/

theorem toRat_canonicalise (q : fmpq) : (fmpq_canonicalise q).toRat = q.toRat := by
  unfold fmpq_canonicalise fmpq.toRat
  by_cases h1 : q.den = 1
  · simp [h1]
  by_cases h0 : q.num = 0
  · simp [h1, h0]
  simp only [if_neg h1, if_neg h0]
  have hg : (Int.gcd q.num q.den : Int) ≠ 0 := by
    intro h
    have : Int.gcd q.num q.den = 0 := by exact_mod_cast h
    rw [Int.gcd_eq_zero_iff] at this
    exact h0 this.1
  have hgq : ((Int.gcd q.num q.den : Int) : ℚ) ≠ 0 := by exact_mod_cast hg
  have e1 : ((q.num / (Int.gcd q.num q.den : Int) : Int) : ℚ)
      = (q.num : ℚ) / ((Int.gcd q.num q.den : Int) : ℚ) :=
    Int.cast_div Int.gcd_dvd_left hgq
  have e2 : ((q.den / (Int.gcd q.num q.den : Int) : Int) : ℚ)
      = (q.den : ℚ) / ((Int.gcd q.num q.den : Int) : ℚ) :=
    Int.cast_div Int.gcd_dvd_right hgq
  have key : ((q.num / (Int.gcd q.num q.den : Int) : Int) : ℚ)
        / ((q.den / (Int.gcd q.num q.den : Int) : Int) : ℚ) = (q.num : ℚ) / (q.den : ℚ) := by
    rw [e1, e2]
    generalize ((Int.gcd q.num q.den : Int) : ℚ) = g at hgq
    by_cases hd : (q.den : ℚ) = 0
    · simp [hd]
    · field_simp
  split_ifs
  · push_cast
    rw [neg_div_neg_eq]
    exact key
  · exact key

theorem canonicalise_den_ne_zero (q : fmpq) (h : q.den ≠ 0) : (fmpq_canonicalise q).den ≠ 0 := by
  unfold fmpq_canonicalise
  by_cases h1 : q.den = 1
  · simp [h1]
  by_cases h0 : q.num = 0
  · simp [h1, h0]
  simp only [if_neg h1, if_neg h0]
  have hd : q.den / (Int.gcd q.num q.den : Int) ≠ 0 := by
    intro hz
    have := Int.ediv_mul_cancel (Int.gcd_dvd_right (a := q.num) (b := q.den))
    rw [hz] at this
    simp at this
    exact h this.symm
  split_ifs
  · simpa using hd
  · exact hd

theorem canonicalise_den_pos (q : fmpq) (h : q.den ≠ 0) : 0 < (fmpq_canonicalise q).den := by
  have hne := canonicalise_den_ne_zero q h
  unfold fmpq_canonicalise at hne ⊢
  by_cases h1 : q.den = 1
  · simp [h1]
  by_cases h0 : q.num = 0
  · simp [h1, h0]
  simp only [if_neg h1, if_neg h0] at hne ⊢
  split_ifs at hne ⊢ with hd
  · simpa using hd
  · simp only at hne ⊢
    omega

theorem toRat_mul (a b : fmpq) : (fmpq_mul a b).toRat = a.toRat * b.toRat := by
  unfold fmpq_mul
  rw [toRat_canonicalise]
  unfold fmpq.toRat
  push_cast
  rw [mul_div_mul_comm]

theorem toRat_mul_2exp_one (a : fmpq) : (fmpq_mul_2exp a 1).toRat = 2 * a.toRat := by
  unfold fmpq_mul_2exp
  rw [toRat_canonicalise]
  unfold fmpq.toRat
  push_cast
  ring

theorem toRat_sub (a b : fmpq) (ha : a.den ≠ 0) (hb : b.den ≠ 0) :
    (fmpq_sub a b).toRat = a.toRat - b.toRat := by
  unfold fmpq_sub
  rw [toRat_canonicalise]
  unfold fmpq.toRat
  have ha' : (a.den : ℚ) ≠ 0 := by exact_mod_cast ha
  have hb' : (b.den : ℚ) ≠ 0 := by exact_mod_cast hb
  push_cast
  field_simp
  ring

theorem toRat_neg (a : fmpq) : (fmpq_neg a).toRat = -a.toRat := by
  unfold fmpq_neg fmpq.toRat
  push_cast
  ring

theorem toRat_zero : fmpq_zero.toRat = 0 := by
  simp [fmpq_zero, fmpq.toRat]

/-! ## Normalisation and canonical form -/

theorem rd_map (f : Int → Int) (hf : f 0 = 0) (cs : List Int) (k : Int) :
    rd (cs.map f) k = f (rd cs k) := by
  unfold rd
  split
  · conv_lhs => rw [← hf]
    rw [List.getD_map]
  · exact hf.symm

theorem normalise_eq_nil_iff (cs : List Int) : normalise cs = [] ↔ ∀ c ∈ cs, c = 0 := by
  induction cs with
  | nil => simp [normalise]
  | cons c cs ih =>
    simp only [normalise]
    cases h : normalise cs with
    | nil =>
      have h2 := ih.mp h
      by_cases hc : c = 0
      · simp [hc]; exact h2
      · simp [hc]
    | cons d ds =>
      simp only [false_iff, reduceCtorEq]
      intro hall
      have : normalise cs = [] := ih.mpr (fun x hx => hall x (List.mem_cons_of_mem _ hx))
      rw [h] at this
      exact absurd this (by simp)

theorem rd_eq_zero_of_all_zero (cs : List Int) (h : ∀ c ∈ cs, c = 0) (k : Int) : rd cs k = 0 := by
  unfold rd
  split
  · rw [List.getD_eq_getElem?_getD]
    cases hk : cs[k.toNat]? with
    | none => rfl
    | some v => exact h v (List.getElem?_mem hk)
  · rfl

theorem rd_normalise (cs : List Int) (k : Int) : rd (normalise cs) k = rd cs k := by
  induction cs generalizing k with
  | nil => rfl
  | cons c cs ih =>
    simp only [normalise]
    cases h : normalise cs with
    | nil =>
      have hz := (normalise_eq_nil_iff cs).mp h
      by_cases hk : k = 0
      · subst hk
        by_cases hc : c = 0
        · simp [hc, rd_nil, rd_cons_zero]
        · simp [hc, rd_cons_zero]
      · by_cases hk2 : k < 0
        · rw [rd_neg _ hk2, rd_neg _ hk2]
        · rw [rd_cons_pos c cs (by omega), rd_eq_zero_of_all_zero cs hz]
          by_cases hc : c = 0
          · simp [hc, rd_nil]
          · simp only [if_neg hc]
            rw [rd_cons_pos c [] (by omega), rd_nil]
    | cons d ds =>
      by_cases hk : k = 0
      · subst hk; simp [rd_cons_zero]
      · by_cases hk2 : k < 0
        · rw [rd_neg _ hk2, rd_neg _ hk2]
        · show rd (c :: d :: ds) k = rd (c :: cs) k
          rw [rd_cons_pos c _ (by omega), rd_cons_pos c cs (by omega), ← h, ih]

theorem getLast?_normalise (cs : List Int) : (normalise cs).getLast? ≠ some 0 := by
  induction cs with
  | nil => simp [normalise]
  | cons c cs ih =>
    simp only [normalise]
    cases h : normalise cs with
    | nil =>
      by_cases hc : c = 0
      · simp [hc]
      · simp [hc]
    | cons d ds =>
      show (c :: d :: ds).getLast? ≠ some 0
      rw [List.getLast?_cons_cons, ← h]
      exact ih

theorem normalise_of_getLast (cs : List Int) (h : cs.getLast? ≠ some 0) : normalise cs = cs := by
  induction cs with
  | nil => rfl
  | cons c cs ih =>
    simp only [normalise]
    cases cs with
    | nil =>
      simp only [normalise]
      have : c ≠ 0 := by simpa using h
      simp [this]
    | cons d ds =>
      rw [List.getLast?_cons_cons] at h
      rw [ih h]

theorem length_normalise_le (cs : List Int) : (normalise cs).length ≤ cs.length := by
  induction cs with
  | nil => simp [normalise]
  | cons c cs ih =>
    simp only [normalise]
    cases h : normalise cs with
    | nil =>
      by_cases hc : c = 0
      · simp [hc]
      · simp [hc]
    | cons d ds =>
      rw [h] at ih
      simp only [List.length_cons] at ih ⊢
      omega

theorem content_dvd (cs : List Int) : ∀ c ∈ cs, (content cs : Int) ∣ c := by
  induction cs with
  | nil => simp
  | cons a as ih =>
    intro c hc
    have hcont : content (a :: as) = Int.gcd a (content as : Int) := rfl
    rw [hcont]
    rcases List.mem_cons.mp hc with h | h
    · rw [h]; exact Int.gcd_dvd_left
    · exact dvd_trans Int.gcd_dvd_right (ih c h)

/-- What `fmpq_poly_canonicalise` does to a polynomial with a non-zero denominator:
it normalises the length and divides numerators and denominator by a common
divisor `g` that has the sign of the denominator. -/
theorem canonicalise_spec (p : fmpq_poly) (hden : p.den ≠ 0) :
    ∃ g : Int, g ≠ 0 ∧ g ∣ p.den ∧ (∀ c ∈ normalise p.coeffs, g ∣ c) ∧
      (fmpq_poly_canonicalise p).coeffs = (normalise p.coeffs).map (fun c => c / g) ∧
      (fmpq_poly_canonicalise p).den = p.den / g ∧ 0 < (fmpq_poly_canonicalise p).den := by
  unfold fmpq_poly_canonicalise
  by_cases h1 : p.den = 1
  · refine ⟨1, by norm_num, by simp, fun c _ => one_dvd c, ?_, ?_, ?_⟩ <;> simp [h1]
  by_cases h2 : p.den = -1
  · refine ⟨-1, by norm_num, by simp [h2], fun c _ => by simp, ?_, ?_, ?_⟩
    · simp [h2, Int.ediv_neg]
    · simp [h2]
    · simp [h2]
  by_cases h3 : normalise p.coeffs = []
  · refine ⟨p.den, hden, dvd_refl _, by simp [h3], ?_, ?_, ?_⟩
    · simp [h1, h2, h3]
    · simp [h1, h2, h3, Int.ediv_self hden]
    · simp [h1, h2, h3]
  simp only [if_neg h1, if_neg h2, if_neg h3]
  have hg0 : (Int.gcd (content (normalise p.coeffs) : Int) p.den : Int) ≠ 0 := by
    intro h
    have : Int.gcd (content (normalise p.coeffs) : Int) p.den = 0 := by exact_mod_cast h
    rw [Int.gcd_eq_zero_iff] at this
    exact hden this.2
  have hg0pos : (0 : Int) < (Int.gcd (content (normalise p.coeffs) : Int) p.den : Int) := by
    have : (0 : Int) ≤ (Int.gcd (content (normalise p.coeffs) : Int) p.den : Int) :=
      Int.natCast_nonneg _
    omega
  have hdvd_den : (Int.gcd (content (normalise p.coeffs) : Int) p.den : Int) ∣ p.den :=
    Int.gcd_dvd_right
  have hdvd_c : ∀ c ∈ normalise p.coeffs,
      (Int.gcd (content (normalise p.coeffs) : Int) p.den : Int) ∣ c :=
    fun c hc => dvd_trans Int.gcd_dvd_left (content_dvd _ c hc)
  generalize (Int.gcd (content (normalise p.coeffs) : Int) p.den : Int) = g0 at *
  by_cases hneg : p.den < 0
  · simp only [if_pos hneg]
    refine ⟨-g0, by omega, by simpa using hdvd_den, fun c hc => by simpa using hdvd_c c hc,
      rfl, rfl, ?_⟩
    show 0 < p.den / -g0
    obtain ⟨t, ht⟩ := hdvd_den
    rw [ht, Int.ediv_neg, Int.mul_ediv_cancel_left _ hg0]
    have : g0 * t < 0 := by rw [← ht]; exact hneg
    have : t < 0 := by
      by_contra hcon
      have : 0 ≤ g0 * t := mul_nonneg hg0pos.le (by omega)
      omega
    omega
  · simp only [if_neg hneg]
    refine ⟨g0, hg0, hdvd_den, hdvd_c, rfl, rfl, ?_⟩
    show 0 < p.den / g0
    obtain ⟨t, ht⟩ := hdvd_den
    rw [ht, Int.mul_ediv_cancel_left _ hg0]
    have h5 : 0 < g0 * t := by rw [← ht]; omega
    exact pos_of_mul_pos_right h5 hg0pos.le

theorem coefficient_at_eq (p : fmpq_poly) (k : Int) :
    coefficient_at p k = (rd p.coeffs k : ℚ) / (p.den : ℚ) := by
  unfold coefficient_at get_coeff
  split
  · rw [toRat_canonicalise]
    unfold fmpq_set_fmpz_frac
    rw [toRat_canonicalise]
    rfl
  · rename_i h
    have : rd p.coeffs k = 0 := by
      unfold fmpq_poly_length at h
      by_cases hk : k < 0
      · exact rd_neg _ hk
      · exact rd_of_length_le _ (by omega)
    rw [this, toRat_zero]
    simp

theorem coefficient_at_canonicalise (p : fmpq_poly) (hden : p.den ≠ 0) (k : Int) :
    coefficient_at (fmpq_poly_canonicalise p) k = coefficient_at p k := by
  obtain ⟨g, hg, hgd, hgc, hcs, hd, _⟩ := canonicalise_spec p hden
  rw [coefficient_at_eq, coefficient_at_eq, hcs, hd, rd_map _ (by simp), rd_normalise]
  have hgq : (g : ℚ) ≠ 0 := by exact_mod_cast hg
  have hdq : (p.den : ℚ) ≠ 0 := by exact_mod_cast hden
  have hdvd : g ∣ rd p.coeffs k := by
    by_cases hz : rd p.coeffs k = 0
    · rw [hz]; exact dvd_zero g
    · rw [← rd_normalise] at hz ⊢
      apply hgc
      unfold rd at hz ⊢
      split at hz
      · rename_i h0
        rw [if_pos h0]
        rw [List.getD_eq_getElem?_getD] at hz ⊢
        cases hk : (normalise p.coeffs)[k.toNat]? with
        | none => rw [hk] at hz; exact absurd rfl hz
        | some v => exact List.getElem?_mem hk
      · exact absurd rfl hz
  rw [Int.cast_div hdvd hgq, Int.cast_div hgd hgq]
  field_simp

theorem well_formed_canonicalise (p : fmpq_poly) (hden : p.den ≠ 0) :
    well_formed (fmpq_poly_canonicalise p) := by
  obtain ⟨g, hg, hgd, hgc, hcs, hd, hpos⟩ := canonicalise_spec p hden
  refine ⟨?_, by omega⟩
  rw [hcs, List.getLast?_map]
  have hl := getLast?_normalise p.coeffs
  cases hlast : (normalise p.coeffs).getLast? with
  | none => simp
  | some v =>
    rw [hlast] at hl
    have hv : v ≠ 0 := fun h => hl (by rw [h])
    have hmem : v ∈ normalise p.coeffs := List.mem_of_mem_getLast? hlast
    obtain ⟨t, ht⟩ := hgc v hmem
    simp only [Option.map_some', ne_eq, Option.some.injEq]
    rw [ht, Int.mul_ediv_cancel_left _ hg]
    intro h0
    rw [h0] at ht
    simp at ht
    exact hv ht

theorem den_pos_canonicalise (p : fmpq_poly) (hden : p.den ≠ 0) :
    0 < (fmpq_poly_canonicalise p).den := by
  obtain ⟨g, _, _, _, _, _, hpos⟩ := canonicalise_spec p hden
  exact hpos

theorem length_canonicalise (p : fmpq_poly) (hden : p.den ≠ 0) :
    (fmpq_poly_canonicalise p).coeffs.length = (normalise p.coeffs).length := by
  obtain ⟨g, _, _, _, hcs, _, _⟩ := canonicalise_spec p hden
  rw [hcs, List.length_map]

theorem length_canonicalise_of_getLast (p : fmpq_poly) (hden : p.den ≠ 0)
    (h : p.coeffs.getLast? ≠ some 0) :
    (fmpq_poly_canonicalise p).coeffs.length = p.coeffs.length := by
  rw [length_canonicalise p hden, normalise_of_getLast _ h]

theorem length_canonicalise_le (p : fmpq_poly) (hden : p.den ≠ 0) :
    (fmpq_poly_canonicalise p).coeffs.length ≤ p.coeffs.length := by
  rw [length_canonicalise p hden]
  exact length_normalise_le _

theorem canonicalise_nil (d : Int) : fmpq_poly_canonicalise ⟨[], d⟩ = fmpq_poly_zero := by
  unfold fmpq_poly_canonicalise fmpq_poly_zero
  simp only [normalise]
  split_ifs <;> simp_all

theorem well_formed_zero : well_formed fmpq_poly_zero := by
  simp [well_formed, fmpq_poly_zero]

/-- The top numerator of a well-formed non-empty polynomial is not zero. -/
theorem rd_top_ne_zero (cs : List Int) (h : cs.getLast? ≠ some 0) (hne : cs ≠ []) :
    rd cs ((cs.length : Int) - 1) ≠ 0 := by
  have hlen : 0 < cs.length := List.length_pos.mpr hne
  unfold rd
  rw [if_pos (by omega)]
  have e : ((cs.length : Int) - 1).toNat = cs.length - 1 := by omega
  rw [e, List.getD_eq_getElem?_getD, ← List.getLast?_eq_getElem?]
  cases hl : cs.getLast? with
  | none => exact absurd (List.getLast?_eq_none_iff.mp hl) hne
  | some v =>
    rw [hl] at h
    simp only [Option.getD_some]
    intro hv
    exact h (by rw [hv])

theorem eval_at_1_eq (p : fmpq_poly) :
    eval_at_1 p = ((p.coeffs.sum : Int) : ℚ) / (p.den : ℚ) := by
  unfold eval_at_1 rat_coeffs
  induction p.coeffs with
  | nil => simp
  | cons c cs ih =>
    simp only [List.map_cons, List.sum_cons] at ih ⊢
    rw [ih]
    push_cast
    ring

/-! ## Symmetry on numerators -/

theorem rd_symm_of_formally_symmetric (p : fmpq_poly) (n : Int) (hden : p.den ≠ 0)
    (h : formally_symmetric p n) (k : Int) : rd p.coeffs k = rd p.coeffs (n - 1 - k) := by
  have := h.2 k
  rw [coefficient_at_eq, coefficient_at_eq] at this
  have hd : (p.den : ℚ) ≠ 0 := by exact_mod_cast hden
  field_simp at this
  exact_mod_cast this

theorem rd_antisymm_of_formally_antisymmetric (p : fmpq_poly) (n : Int) (hden : p.den ≠ 0)
    (h : formally_antisymmetric p n) (k : Int) : rd p.coeffs k = -rd p.coeffs (n - 1 - k) := by
  have := h.2 k
  rw [coefficient_at_eq, coefficient_at_eq] at this
  have hd : (p.den : ℚ) ≠ 0 := by exact_mod_cast hden
  field_simp at this
  exact_mod_cast this

/-- The index found by the zero-skipping loop: everything before it is zero and, if
it is inside the array, the entry there is not zero. -/
theorem skip_zeros_spec (cs : List Int) (i : Int) :
    ∃ z : Nat, skip_zeros cs i = i + z ∧ z ≤ cs.length ∧
      (∀ j : Int, 0 ≤ j → j < z → rd cs j = 0) ∧ (z < cs.length → rd cs z ≠ 0) := by
  induction cs generalizing i with
  | nil => exact ⟨0, by simp [skip_zeros], le_refl _, fun j h1 h2 => by omega, by simp⟩
  | cons c cs ih =>
    by_cases hc : c = 0
    · obtain ⟨z, h1, h2, h3, h4⟩ := ih (i + 1)
      refine ⟨z + 1, ?_, by simp; omega, ?_, ?_⟩
      · simp only [skip_zeros, if_pos hc, h1]; push_cast; ring
      · intro j hj0 hj1
        by_cases hj : j = 0
        · rw [hj, rd_cons_zero, hc]
        · rw [rd_cons_pos c cs (by omega)]
          exact h3 (j - 1) (by omega) (by push_cast at hj1; omega)
      · intro hlt
        have : z < cs.length := by simpa using hlt
        have e : (((z + 1 : Nat)) : Int) = (z : Int) + 1 := by push_cast; ring
        rw [e, rd_cons_succ c cs (by omega)]
        exact h4 this
    · refine ⟨0, by simp [skip_zeros, hc], by simp, fun j h1 h2 => by omega, ?_⟩
      intro _
      simpa [rd_cons_zero] using hc

/-- For a normalised non-empty array that is symmetric about the formal length `n`,
the number of leading zeros is `n - length`. -/
theorem leading_zeros_of_symm (cs : List Int) (n : Int) (hl : cs.getLast? ≠ some 0)
    (hne : cs ≠ []) (hs : ∀ k, rd cs k = rd cs (n - 1 - k) ∨ rd cs k = -rd cs (n - 1 - k))
    (z : Nat) (hz : z ≤ cs.length) (h0 : ∀ j : Int, 0 ≤ j → j < z → rd cs j = 0)
    (h1 : z < cs.length → rd cs z ≠ 0) : (z : Int) = n - cs.length := by
  have hlen : 0 < cs.length := List.length_pos.mpr hne
  have htop := rd_top_ne_zero cs hl hne
  have hzlt : z < cs.length := by
    by_contra hcon
    exact htop (h0 _ (by omega) (by omega))
  have hz1 := h1 hzlt
  -- the mirror image of the top entry is non-zero
  have hm1 : rd cs (n - 1 - ((cs.length : Int) - 1)) ≠ 0 := by
    rcases hs ((cs.length : Int) - 1) with h | h
    · rw [← h]; exact htop
    · intro h2; rw [h2] at h; simp at h; exact htop h
  -- the mirror image of the lowest non-zero entry is non-zero
  have hm2 : rd cs (n - 1 - z) ≠ 0 := by
    rcases hs z with h | h
    · rw [← h]; exact hz1
    · intro h2; rw [h2] at h; simp at h; exact hz1 h
  have a1 : ¬ (n - 1 - ((cs.length : Int) - 1) < z) := by
    intro hcon
    by_cases hneg : n - 1 - ((cs.length : Int) - 1) < 0
    · exact hm1 (rd_neg _ hneg)
    · exact hm1 (h0 _ (by omega) hcon)
  have a2 : n - 1 - z < cs.length := by
    by_contra hcon
    exact hm2 (rd_of_length_le _ (by omega))
  omega

theorem for_up_sum (f : Int → Int) (lo hi : Int) (h : lo ≤ hi) :
    for_up lo hi (fun i v => v + f i) 0 = range_sum f lo hi := by
  apply for_up_induct lo hi (fun i v => v + f i) (fun i v => v = range_sum f lo i) 0 h
  · rw [range_sum_empty f (le_refl lo)]
  · intro i t h1 h2 ht
    rw [range_sum_succ_top f h1, ht]

/-- The symmetric shortcut: twice the lower half, plus the middle entry when the
number of entries is odd, is the whole sum. -/
theorem symm_half_sum (f : Int → Int) (z len n : Int) (hz : z = n - len) (hzl : z ≤ len)
    (hs : ∀ k, f k = f (n - 1 - k)) :
    range_sum f z len = range_sum f z (z + (len - z) / 2) * 2
      + (if (len - z) % 2 ≠ 0 then f (z + (len - z) / 2) else 0) := by
  have hsplit := range_sum_split f (a := z) (m := z + (len - z) / 2) (b := len)
    (by omega) (by omega)
  rw [hsplit]
  have hcongr : range_sum f (z + (len - z) / 2) len
      = range_sum (fun k => f (n - 1 - k)) (z + (len - z) / 2) len :=
    range_sum_congr _ _ _ _ (fun k _ _ => hs k)
  by_cases hodd : (len - z) % 2 ≠ 0
  · rw [if_pos hodd, range_sum_succ_bot f (a := z + (len - z) / 2) (by omega)]
    have hc2 : range_sum f (z + (len - z) / 2 + 1) len
        = range_sum (fun k => f (n - 1 - k)) (z + (len - z) / 2 + 1) len :=
      range_sum_congr _ _ _ _ (fun k _ _ => hs k)
    rw [hc2, range_sum_reflect]
    have e1 : n - 1 - len + 1 = z := by omega
    have e2 : n - 1 - (z + (len - z) / 2 + 1) + 1 = z + (len - z) / 2 := by omega
    rw [e1, e2]; ring
  · rw [if_neg hodd, hcongr, range_sum_reflect]
    have e1 : n - 1 - len + 1 = z := by omega
    have e2 : n - 1 - (z + (len - z) / 2) + 1 = z + (len - z) / 2 := by omega
    rw [e1, e2]; ring

theorem range_sum_drop_zeros (f : Int → Int) (z len : Int) (hz0 : 0 ≤ z) (hzl : z ≤ len)
    (h0 : ∀ j : Int, 0 ≤ j → j < z → f j = 0) : range_sum f 0 len = range_sum f z len := by
  rw [range_sum_split f hz0 hzl, range_sum_eq_zero f 0 z h0, zero_add]

/-- The numerator computed by `eval_at_1_sym` is the sum of all numerators. -/
theorem eval_at_1_sym_eq (p : fmpq_poly) (n : Int) (hl : p.coeffs.getLast? ≠ some 0)
    (hs : ∀ k, rd p.coeffs k = rd p.coeffs (n - 1 - k)) :
    (eval_at_1_sym p).toRat = ((p.coeffs.sum : Int) : ℚ) / (p.den : ℚ) := by
  unfold eval_at_1_sym
  by_cases hlen : fmpq_poly_length p > 0
  · rw [if_pos hlen]
    unfold fmpq_poly_length at hlen ⊢
    have hne : p.coeffs ≠ [] := by
      intro h; rw [h] at hlen; simp at hlen
    obtain ⟨z, hz1, hz2, hz3, hz4⟩ := skip_zeros_spec p.coeffs 0
    have hzn := leading_zeros_of_symm p.coeffs n hl hne (fun k => Or.inl (hs k)) z hz2 hz3 hz4
    rw [zero_add] at hz1
    simp only [hz1]
    rw [toRat_canonicalise]
    unfold fmpq.toRat
    simp only
    congr 1
    have htd : Int.tdiv ((p.coeffs.length : Int) - z) 2 = ((p.coeffs.length : Int) - z) / 2 :=
      Int.tdiv_eq_ediv (by omega) (by norm_num)
    have htm : Int.tmod ((p.coeffs.length : Int) - z) 2 = ((p.coeffs.length : Int) - z) % 2 :=
      Int.tmod_eq_emod (by omega) (by norm_num)
    rw [htd, htm]
    have hfu := for_up_sum (rd p.coeffs) z (z + ((p.coeffs.length : Int) - z) / 2) (by omega)
    have hfz : fmpq_zero.num = 0 := rfl
    rw [hfz, hfu, list_sum_eq_range_sum,
      range_sum_drop_zeros (rd p.coeffs) z p.coeffs.length (by omega) (by omega) hz3,
      symm_half_sum (rd p.coeffs) z p.coeffs.length n hzn (by omega) hs]
    split_ifs <;> simp
  · rw [if_neg hlen]
    have : p.coeffs = [] := by
      unfold fmpq_poly_length at hlen
      cases hc : p.coeffs with
      | nil => rfl
      | cons a as => rw [hc] at hlen; simp at hlen
    rw [this, toRat_zero]
    simp

/-! ## Tail sums of an antisymmetric sequence -/

theorem antisymm_total_zero (f : Int → Int) (z len n : Int) (hz : z = n - len)
    (ha : ∀ k, f k = -f (n - 1 - k)) : range_sum f z len = 0 := by
  have h1 : range_sum f z len = range_sum (fun k => -f (n - 1 - k)) z len :=
    range_sum_congr _ _ _ _ (fun k _ _ => ha k)
  have h2 := range_sum_neg (fun k => f (n - 1 - k)) z len
  have h3 := range_sum_reflect f (n - 1) z len
  have e1 : n - 1 - len + 1 = z := by omega
  have e2 : n - 1 - z + 1 = len := by omega
  rw [e1, e2] at h3
  rw [h2, h3] at h1
  omega

theorem antisymm_tail_reflect (f : Int → Int) (z len n : Int) (hz : z = n - len)
    (ha : ∀ k, f k = -f (n - 1 - k)) (j : Int) (h1 : z ≤ j) (h2 : j ≤ len) :
    range_sum f j len = range_sum f (n - j) len := by
  have h3 : range_sum f j len = range_sum (fun k => -f (n - 1 - k)) j len :=
    range_sum_congr _ _ _ _ (fun k _ _ => ha k)
  have h4 := range_sum_neg (fun k => f (n - 1 - k)) j len
  have h5 := range_sum_reflect f (n - 1) j len
  have e1 : n - 1 - len + 1 = z := by omega
  have e2 : n - 1 - j + 1 = n - j := by omega
  rw [e1, e2] at h5
  have h6 := range_sum_split f (a := z) (m := n - j) (b := len) (by omega) (by omega)
  have h7 := antisymm_total_zero f z len n hz ha
  rw [h4, h5] at h3
  omega

theorem range_sum_of_length_le (cs : List Int) (j : Int) (h : (cs.length : Int) ≤ j) (hi : Int) :
    range_sum (rd cs) j hi = 0 :=
  range_sum_eq_zero _ _ _ (fun k hk _ => rd_of_length_le cs (by omega))

theorem rd_drop (cs : List Int) (m : Nat) (k : Int) (hk : 0 ≤ k) :
    rd (cs.drop m) k = rd cs (k + m) := by
  unfold rd
  rw [if_pos hk, if_pos (by omega)]
  have e : (k + (m : Int)).toNat = m + k.toNat := by omega
  rw [e, List.getD_eq_getElem?_getD, List.getD_eq_getElem?_getD, List.getElem?_drop]

/-- The lowest non-zero index found by `get_lambda` on an array with a non-zero
entry. -/
theorem first_nonzero_spec (cs : List Int) (i : Int) (h : ∃ c ∈ cs, c ≠ 0) :
    ∃ z : Nat, first_nonzero cs i = some (i + z) ∧ z < cs.length ∧
      (∀ j : Int, 0 ≤ j → j < z → rd cs j = 0) ∧ rd cs z ≠ 0 := by
  induction cs generalizing i with
  | nil => simp at h
  | cons c cs ih =>
    by_cases hc : c = 0
    · have h2 : ∃ c ∈ cs, c ≠ 0 := by
        obtain ⟨x, hx, hx0⟩ := h
        rcases List.mem_cons.mp hx with e | e
        · exact absurd (e ▸ hc) hx0
        · exact ⟨x, e, hx0⟩
      obtain ⟨z, h1, h3, h4, h5⟩ := ih (i + 1) h2
      refine ⟨z + 1, ?_, by simp; omega, ?_, ?_⟩
      · simp only [first_nonzero, hc, ne_eq, not_true_eq_false, if_false, h1]
        congr 1; push_cast; ring
      · intro j hj0 hj1
        by_cases hj : j = 0
        · rw [hj, rd_cons_zero, hc]
        · rw [rd_cons_pos c cs (by omega)]
          exact h4 (j - 1) (by omega) (by push_cast at hj1; omega)
      · have e : (((z + 1 : Nat)) : Int) = (z : Int) + 1 := by push_cast; ring
        rw [e, rd_cons_succ c cs (by omega)]
        exact h5
    · refine ⟨0, by simp [first_nonzero, hc], by simp, fun j h1 h2 => by omega, ?_⟩
      simpa [rd_cons_zero] using hc

theorem exists_ne_zero_of_getLast (cs : List Int) (hl : cs.getLast? ≠ some 0) (hne : cs ≠ []) :
    ∃ c ∈ cs, c ≠ 0 := by
  cases h : cs.getLast? with
  | none => exact absurd (List.getLast?_eq_none_iff.mp h) hne
  | some v =>
    refine ⟨v, List.mem_of_mem_getLast? h, ?_⟩
    intro hv
    rw [h, hv] at hl
    exact hl rfl

theorem get_lambda_spec (p : fmpq_poly) (hl : p.coeffs.getLast? ≠ some 0) (hne : p.coeffs ≠ []) :
    ∃ z : Nat, get_lambda p = z ∧ z < p.coeffs.length ∧
      (∀ j : Int, 0 ≤ j → j < z → rd p.coeffs j = 0) ∧ rd p.coeffs z ≠ 0 := by
  obtain ⟨z, h1, h2, h3, h4⟩ :=
    first_nonzero_spec p.coeffs 0 (exists_ne_zero_of_getLast _ hl hne)
  refine ⟨z, ?_, h2, h3, h4⟩
  unfold get_lambda
  rw [h1]
  simp

theorem get_lambda_nil (d : Int) : get_lambda ⟨[], d⟩ = 0 := rfl

/-! ## The running-sum loop -/

/-- The loop `for (i = deg-1; i >= lo; i--) c[i] += c[i+1]` turns the entries from
`lo` on into tail sums and leaves the entries below `lo` alone. -/
theorem horner_down (cs : List Int) (lo : Int) (h0 : 0 ≤ lo) :
    (for_down ((cs.length : Int) - 1 - 1) lo (fun i c => wr c i (rd c i + rd c (i + 1))) cs).length
        = cs.length ∧
      (∀ j, lo ≤ j → rd (for_down ((cs.length : Int) - 1 - 1) lo
          (fun i c => wr c i (rd c i + rd c (i + 1))) cs) j = range_sum (rd cs) j cs.length) ∧
      (∀ j, j < lo → rd (for_down ((cs.length : Int) - 1 - 1) lo
          (fun i c => wr c i (rd c i + rd c (i + 1))) cs) j = rd cs j) := by
  by_cases hle : lo ≤ (cs.length : Int) - 1
  · have key := for_down_induct ((cs.length : Int) - 1 - 1) lo
      (fun i c => wr c i (rd c i + rd c (i + 1)))
      (fun i c => c.length = cs.length ∧ (∀ j, i < j → rd c j = range_sum (rd cs) j cs.length)
        ∧ (∀ j, j ≤ i → rd c j = rd cs j)) cs (by omega)
      (by
        refine ⟨rfl, ?_, fun j _ => rfl⟩
        intro j hj
        by_cases hj2 : j = (cs.length : Int) - 1
        · rw [range_sum_succ_bot _ (by omega), range_sum_of_length_le cs _ (by omega)]
          simp
        · rw [range_sum_of_length_le cs _ (by omega), rd_of_length_le cs (by omega)])
      (by
        intro i t h1 h2 ⟨hlen, ht, hb⟩
        refine ⟨by rw [length_wr, hlen], ?_, ?_⟩
        · intro j hj
          by_cases hji : j = i
          · subst hji
            rw [rd_wr_same _ _ (by omega) (by rw [hlen]; omega), hb j (le_refl _),
              ht (j + 1) (by omega), range_sum_succ_bot (rd cs) (a := j) (by omega)]
          · rw [rd_wr_ne _ _ (by omega)]
            exact ht j (by omega)
        · intro j hj
          rw [rd_wr_ne _ _ (by omega)]
          exact hb j (by omega))
    refine ⟨key.1, fun j hj => key.2.1 j (by omega), fun j hj => key.2.2 j (by omega)⟩
  · rw [for_down_empty _ _ _ _ (by omega)]
    refine ⟨rfl, ?_, fun j _ => rfl⟩
    intro j hj
    rw [range_sum_of_length_le cs _ (by omega), rd_of_length_le cs (by omega)]

/-- The mirroring loop of `div_x_minus_1_asym`. -/
theorem mirror_up (c1 : List Int) (z h len : Int) (hz : 0 ≤ z) (hh : 1 ≤ h)
    (hlen : (c1.length : Int) = len) (hmid : z + h + h ≤ len + 1) :
    (for_up 1 h (fun i c => wr c (z + i) (rd c (len - 1 + 1 - i))) c1).length = c1.length ∧
      (∀ j, z < j → j < z + h →
        rd (for_up 1 h (fun i c => wr c (z + i) (rd c (len - 1 + 1 - i))) c1) j
          = rd c1 (len - (j - z))) ∧
      (∀ j, (j ≤ z ∨ z + h ≤ j) →
        rd (for_up 1 h (fun i c => wr c (z + i) (rd c (len - 1 + 1 - i))) c1) j = rd c1 j) := by
  have key := for_up_induct 1 h (fun i c => wr c (z + i) (rd c (len - 1 + 1 - i)))
    (fun i c => c.length = c1.length ∧ (∀ j, z < j → j < z + i → rd c j = rd c1 (len - (j - z)))
      ∧ (∀ j, (j ≤ z ∨ z + i ≤ j) → rd c j = rd c1 j)) c1 hh
    ⟨rfl, fun j h1 h2 => by omega, fun j _ => rfl⟩
    (by
      intro i t h1 h2 ⟨hl, ha, hb⟩
      refine ⟨by rw [length_wr, hl], ?_, ?_⟩
      · intro j hj1 hj2
        by_cases hji : j = z + i
        · subst hji
          rw [rd_wr_same _ _ (by omega) (by rw [hl]; omega), hb _ (Or.inr (by omega))]
          congr 1; ring
        · rw [rd_wr_ne _ _ (by omega)]
          exact ha j hj1 (by omega)
      · intro j hj
        rw [rd_wr_ne _ _ (by omega)]
        exact hb j (by omega))
  refine ⟨key.1, key.2.1, fun j hj => key.2.2 j (by omega)⟩

/-! ## `div_x_minus_1_asym` -/

theorem div_x_minus_1_asym_nil (d : Int) : div_x_minus_1_asym ⟨[], d⟩ = fmpq_poly_zero := by
  unfold div_x_minus_1_asym
  simp [fmpq_poly_degree, fmpq_poly_length, get_lambda_nil, for_down, for_up, for_down_go,
    for_up_go, fmpq_poly_shift_right, canonicalise_nil]
  rfl

/-- The array left by the three steps of `div_x_minus_1_asym` before the shift: from
index `1` on it holds the tail sums of the input. -/
theorem div_asym_array (cs : List Int) (n : Int) (z : Nat) (hl : cs.getLast? ≠ some 0)
    (hne : cs ≠ []) (ha : ∀ k, rd cs k = -rd cs (n - 1 - k)) (hz : z < cs.length)
    (hz0 : ∀ j : Int, 0 ≤ j → j < z → rd cs j = 0) (hz1 : rd cs z ≠ 0) (c3 : List Int)
    (hc3 : c3 =
      (fun c => if (z : Int) ≥ 1 then wr c z 0 else c)
        (for_up 1 (((cs.length : Int) - z) / 2)
          (fun i c => wr c ((z : Int) + i) (rd c ((cs.length : Int) - 1 + 1 - i)))
          (for_down ((cs.length : Int) - 1 - 1) (((cs.length : Int) - z) / 2 + z)
            (fun i c => wr c i (rd c i + rd c (i + 1))) cs))) :
    c3.length = cs.length ∧ ∀ j, 1 ≤ j → rd c3 j = range_sum (rd cs) j cs.length := by
  have hzn : (z : Int) = n - cs.length :=
    leading_zeros_of_symm cs n hl hne (fun k => Or.inr (ha k)) z hz.le hz0 (fun _ => hz1)
  have htop := rd_top_ne_zero cs hl hne
  -- the core has at least two entries
  have hL : 2 ≤ (cs.length : Int) - z := by
    by_contra hcon
    have hzz : (z : Int) = (cs.length : Int) - 1 := by omega
    have := ha z
    have e : n - 1 - (z : Int) = z := by omega
    rw [e] at this
    have : rd cs z = 0 := by omega
    exact hz1 this
  have htot : range_sum (rd cs) z cs.length = 0 :=
    antisymm_total_zero (rd cs) z cs.length n hzn ha
  obtain ⟨h1a, h1b, h1c⟩ := horner_down cs (((cs.length : Int) - z) / 2 + z) (by omega)
  generalize (for_down ((cs.length : Int) - 1 - 1) (((cs.length : Int) - z) / 2 + z)
    (fun i c => wr c i (rd c i + rd c (i + 1))) cs) = c1 at hc3 h1a h1b h1c
  obtain ⟨h2a, h2b, h2c⟩ := mirror_up c1 z (((cs.length : Int) - z) / 2) cs.length
    (by omega) (by omega) (by rw [h1a]) (by omega)
  generalize (for_up 1 (((cs.length : Int) - z) / 2)
    (fun i c => wr c ((z : Int) + i) (rd c ((cs.length : Int) - 1 + 1 - i))) c1) = c2
    at hc3 h2a h2b h2c
  -- facts about `c2`
  have hc2 : ∀ j, (z : Int) < j → rd c2 j = range_sum (rd cs) j cs.length := by
    intro j hj
    by_cases hjm : j < (z : Int) + ((cs.length : Int) - z) / 2
    · rw [h2b j hj hjm, h1b _ (by omega),
        antisymm_tail_reflect (rd cs) z cs.length n hzn ha j (by omega) (by omega)]
      congr 1; omega
    · rw [h2c j (Or.inr (by omega)), h1b j (by omega)]
  have hc2low : ∀ j, j ≤ (z : Int) → rd c2 j = rd cs j := by
    intro j hj
    rw [h2c j (Or.inl hj), h1c j (by omega)]
  have hlow : ∀ j, 1 ≤ j → j ≤ (z : Int) → range_sum (rd cs) j cs.length = 0 := by
    intro j hj1 hj2
    rw [range_sum_split (rd cs) (a := j) (m := z) (b := cs.length) hj2 (by omega), htot,
      range_sum_eq_zero (rd cs) j z (fun k hk1 hk2 => hz0 k (by omega) hk2)]
    rfl
  subst hc3
  by_cases hz1' : (z : Int) ≥ 1
  · simp only [if_pos hz1']
    refine ⟨by rw [length_wr, h2a, h1a], ?_⟩
    intro j hj
    by_cases hjz : j = z
    · rw [hjz, rd_wr_same _ _ (by omega) (by rw [h2a, h1a]; omega), htot]
    · rw [rd_wr_ne _ _ (fun h => hjz h.symm)]
      by_cases hjl : j < z
      · rw [hc2low j hjl.le, hz0 j (by omega) hjl, hlow j hj hjl.le]
      · exact hc2 j (by omega)
  · simp only [if_neg hz1']
    refine ⟨by rw [h2a, h1a], ?_⟩
    intro j hj
    exact hc2 j (by omega)

/-- The tail sum of the numerators of `p` above index `k` (zero for a negative `k`):
the numerator of the coefficient of the quotient by `x - 1` at degree `k`. -/
theorem coefficient_at_shift (c : List Int) (d : Int) (hd : d ≠ 0) (hlen : 1 < c.length)
    (k : Int) :
    coefficient_at (fmpq_poly_canonicalise (fmpq_poly_shift_right ⟨c, d⟩ 1)) k
      = ((if 0 ≤ k then rd c (k + 1) else 0 : Int) : ℚ) / (d : ℚ) := by
  have hs : fmpq_poly_shift_right ⟨c, d⟩ 1 = fmpq_poly_canonicalise ⟨c.drop 1, d⟩ := by
    unfold fmpq_poly_shift_right
    rw [if_neg (by decide : ¬ (1 : Nat) = 0)]
    rw [if_neg (by simpa using hlen)]
  rw [hs]
  have hd1 : (fmpq_poly_canonicalise ⟨c.drop 1, d⟩).den ≠ 0 :=
    (den_pos_canonicalise _ hd).ne'
  rw [coefficient_at_canonicalise _ hd1, coefficient_at_canonicalise _ hd, coefficient_at_eq]
  by_cases hk : 0 ≤ k
  · rw [if_pos hk]
    show ((rd (c.drop 1) k : Int) : ℚ) / (d : ℚ) = _
    rw [rd_drop c 1 k hk]
    rfl
  · rw [if_neg hk]
    show ((rd (c.drop 1) k : Int) : ℚ) / (d : ℚ) = _
    rw [rd_neg _ (by omega)]

theorem well_formed_shift (c : List Int) (d : Int) (hd : d ≠ 0) :
    well_formed (fmpq_poly_canonicalise (fmpq_poly_shift_right ⟨c, d⟩ 1)) := by
  unfold fmpq_poly_shift_right
  rw [if_neg (by decide : ¬ (1 : Nat) = 0)]
  split
  · rw [show fmpq_poly_zero = ⟨[], 1⟩ from rfl, canonicalise_nil]
    exact well_formed_zero
  · exact well_formed_canonicalise _ (den_pos_canonicalise _ hd).ne'

theorem length_shift_le (c : List Int) (d : Int) (hd : d ≠ 0) :
    (fmpq_poly_canonicalise (fmpq_poly_shift_right ⟨c, d⟩ 1)).coeffs.length ≤ c.length - 1 := by
  unfold fmpq_poly_shift_right
  rw [if_neg (by decide : ¬ (1 : Nat) = 0)]
  split
  · rw [show fmpq_poly_zero = ⟨[], 1⟩ from rfl, canonicalise_nil]
    simp [fmpq_poly_zero]
  · have h1 := length_canonicalise_le ⟨c.drop 1, d⟩ hd
    have h2 := length_canonicalise_le (fmpq_poly_canonicalise ⟨c.drop 1, d⟩)
      (den_pos_canonicalise _ hd).ne'
    simp only [List.length_drop] at h1 h2 ⊢
    omega

theorem div_x_minus_1_asym_spec (p : fmpq_poly) (n : Int) (hwf : well_formed p)
    (ha : ∀ k, rd p.coeffs k = -rd p.coeffs (n - 1 - k)) :
    well_formed (div_x_minus_1_asym p) ∧
      (∀ k, coefficient_at (div_x_minus_1_asym p) k
        = ((if 0 ≤ k then range_sum (rd p.coeffs) (k + 1) p.coeffs.length else 0 : Int) : ℚ)
          / (p.den : ℚ)) ∧
      (div_x_minus_1_asym p).coeffs.length ≤ p.coeffs.length - 1 := by
  obtain ⟨cs, d⟩ := p
  obtain ⟨hl, hd⟩ := hwf
  simp only at hl hd ha ⊢
  by_cases hne : cs = []
  · subst hne
    rw [div_x_minus_1_asym_nil]
    refine ⟨well_formed_zero, fun k => ?_, by simp [fmpq_poly_zero]⟩
    rw [coefficient_at_eq]
    have hr : range_sum (rd []) (k + 1) ((([] : List Int).length : Nat) : Int) = 0 :=
      range_sum_eq_zero _ _ _ (fun j _ _ => rd_nil j)
    rw [hr]
    simp [fmpq_poly_zero, rd_nil]
  · obtain ⟨z, hlam, hz, hz0, hz1⟩ := get_lambda_spec ⟨cs, d⟩ hl hne
    simp only at hz hz0 hz1
    have htd : Int.tdiv ((cs.length : Int) - z) 2 = ((cs.length : Int) - z) / 2 :=
      Int.tdiv_eq_ediv (by omega) (by norm_num)
    obtain ⟨hlen3, hrd3⟩ := div_asym_array cs n z hl hne ha hz hz0 hz1 _ rfl
    have hdiv : div_x_minus_1_asym ⟨cs, d⟩ = fmpq_poly_canonicalise (fmpq_poly_shift_right
        ⟨(fun c => if (z : Int) ≥ 1 then wr c z 0 else c)
        (for_up 1 (((cs.length : Int) - z) / 2)
          (fun i c => wr c ((z : Int) + i) (rd c ((cs.length : Int) - 1 + 1 - i)))
          (for_down ((cs.length : Int) - 1 - 1) (((cs.length : Int) - z) / 2 + z)
            (fun i c => wr c i (rd c i + rd c (i + 1))) cs)), d⟩ 1) := by
      unfold div_x_minus_1_asym fmpq_poly_degree fmpq_poly_length
      simp only [hlam, htd]
    rw [hdiv]
    generalize ((fun c => if (z : Int) ≥ 1 then wr c z 0 else c)
        (for_up 1 (((cs.length : Int) - z) / 2)
          (fun i c => wr c ((z : Int) + i) (rd c ((cs.length : Int) - 1 + 1 - i)))
          (for_down ((cs.length : Int) - 1 - 1) (((cs.length : Int) - z) / 2 + z)
            (fun i c => wr c i (rd c i + rd c (i + 1))) cs))) = c3 at hlen3 hrd3
    refine ⟨well_formed_shift c3 d hd, fun k => ?_,
      by rw [← hlen3]; exact length_shift_le c3 d hd⟩
    have hlen2 : 1 < c3.length := by
      rw [hlen3]
      by_contra hcon
      have h1 : cs.length = 1 := by
        have : 0 < cs.length := List.length_pos.mpr hne
        omega
      have hz' : z = 0 := by omega
      have hzn : (z : Int) = n - cs.length :=
        leading_zeros_of_symm cs n hl hne (fun k => Or.inr (ha k)) z hz.le hz0 (fun _ => hz1)
      have := ha 0
      have e : n - 1 - 0 = 0 := by rw [h1, hz'] at hzn; push_cast at hzn; omega
      rw [e] at this
      rw [hz'] at hz1
      have : rd cs 0 = 0 := by omega
      exact hz1 (by simpa using this)
    rw [coefficient_at_shift c3 d hd hlen2]
    by_cases hk : 0 ≤ k
    · rw [if_pos hk, if_pos hk, hrd3 (k + 1) (by omega)]
    · rw [if_neg hk, if_neg hk]

/-! ## Generic division by `x - 1` -/

theorem divmod_x_minus_1_snd (qs : List ℚ) : (divmod_x_minus_1 qs).2 = qs.sum := by
  induction qs with
  | nil => rfl
  | cons c cs ih => simp [divmod_x_minus_1, ih]

theorem divmod_x_minus_1_fst (qs : List ℚ) (k : Nat) :
    (divmod_x_minus_1 qs).1.getD k 0 = (qs.drop (k + 1)).sum := by
  induction qs generalizing k with
  | nil => simp [divmod_x_minus_1]
  | cons c cs ih =>
    cases k with
    | zero => simp [divmod_x_minus_1, divmod_x_minus_1_snd]
    | succ k =>
      simp only [divmod_x_minus_1, List.getD_cons_succ, List.drop_succ_cons]
      exact ih k

theorem isum_shift (f : Int → Int) (m lo : Int) (n : Nat) :
    isum (fun k => f (k + m)) lo n = isum f (lo + m) n := by
  induction n with
  | zero => rfl
  | succ n ih =>
    rw [isum, isum, ih]
    congr 2; ring

theorem list_sum_drop (cs : List Int) (m : Nat) :
    (cs.drop m).sum = range_sum (rd cs) m cs.length := by
  rw [list_sum_eq_range_sum]
  by_cases hm : m ≤ cs.length
  · have h1 : range_sum (rd (cs.drop m)) 0 (cs.drop m).length
        = range_sum (fun k => rd cs (k + m)) 0 (cs.drop m).length :=
      range_sum_congr _ _ _ _ (fun k hk _ => rd_drop cs m k hk)
    rw [h1]
    unfold range_sum
    rw [isum_shift]
    have e1 : (((cs.drop m).length : Int) - 0).toNat = ((cs.length : Int) - m).toNat := by
      rw [List.length_drop]; omega
    rw [e1, zero_add]
  · have h2 : cs.drop m = [] := List.drop_eq_nil_of_le (by omega)
    rw [h2, range_sum_empty _ (by simp), range_sum_empty _ (by omega)]

theorem rat_coeffs_drop_sum (p : fmpq_poly) (m : Nat) :
    ((rat_coeffs p).drop m).sum = (((p.coeffs.drop m).sum : Int) : ℚ) / (p.den : ℚ) := by
  unfold rat_coeffs
  rw [← List.map_drop]
  induction p.coeffs.drop m with
  | nil => simp
  | cons c cs ih =>
    simp only [List.map_cons, List.sum_cons] at ih ⊢
    rw [ih]
    push_cast
    ring

/-! ## Decidable criteria for formal symmetry -/

theorem rd_symm_of_range (cs : List Int) (n : Nat) (hlen : cs.length ≤ n)
    (h : ∀ k ∈ List.range n, rd cs (k : Int) = rd cs ((n : Int) - 1 - k)) (k : Int) :
    rd cs k = rd cs ((n : Int) - 1 - k) := by
  by_cases hk : k < 0
  · rw [rd_neg _ hk, rd_of_length_le cs (by omega)]
  · by_cases hk2 : k < n
    · have := h k.toNat (List.mem_range.mpr (by omega))
      have e : ((k.toNat : Nat) : Int) = k := by omega
      rwa [e] at this
    · rw [rd_of_length_le cs (by omega), rd_neg _ (by omega)]

theorem rd_antisymm_of_range (cs : List Int) (n : Nat) (hlen : cs.length ≤ n)
    (h : ∀ k ∈ List.range n, rd cs (k : Int) = -rd cs ((n : Int) - 1 - k)) (k : Int) :
    rd cs k = -rd cs ((n : Int) - 1 - k) := by
  by_cases hk : k < 0
  · rw [rd_neg _ hk, rd_of_length_le cs (by omega)]; rfl
  · by_cases hk2 : k < n
    · have := h k.toNat (List.mem_range.mpr (by omega))
      have e : ((k.toNat : Nat) : Int) = k := by omega
      rwa [e] at this
    · rw [rd_of_length_le cs (by omega), rd_neg _ (by omega)]; rfl

/-- A check of formal symmetry on the numerators of the first `n` indices. -/
theorem formally_symmetric_of_range (p : fmpq_poly) (n : Nat) (hlen : p.coeffs.length ≤ n)
    (h : ∀ k ∈ List.range n, rd p.coeffs (k : Int) = rd p.coeffs ((n : Int) - 1 - k)) :
    formally_symmetric p n := by
  refine ⟨by unfold fmpq_poly_length; exact_mod_cast hlen, fun k => ?_⟩
  rw [coefficient_at_eq, coefficient_at_eq, rd_symm_of_range p.coeffs n hlen h k]

/-- A check of formal antisymmetry on the numerators of the first `n` indices. -/
theorem formally_antisymmetric_of_range (p : fmpq_poly) (n : Nat) (hlen : p.coeffs.length ≤ n)
    (h : ∀ k ∈ List.range n, rd p.coeffs (k : Int) = -rd p.coeffs ((n : Int) - 1 - k)) :
    formally_antisymmetric p n := by
  refine ⟨by unfold fmpq_poly_length; exact_mod_cast hlen, fun k => ?_⟩
  rw [coefficient_at_eq, coefficient_at_eq, rd_antisymm_of_range p.coeffs n hlen h k]
  push_cast
  ring

/-! ## Claims on the symmetry primitives -/

/-- Claim C7. For every polynomial `P` (top numerator and denominator not zero) that is
formally antisymmetric with respect to a formal length `n >= length(P)`,
`div_x_minus_1_asym(P)` is the exact quotient of the generic division of `P` by
`x - 1`: the generic division leaves remainder zero, its quotient has the same
coefficient at every degree, and `(x - 1) * div_x_minus_1_asym(P) = P`. -/
theorem C7_div_x_minus_1_asym_is_generic_quotient (P : fmpq_poly) (n : Int)
    (hwf : well_formed P) (hanti : formally_antisymmetric P n) :
    (divmod_x_minus_1 (rat_coeffs P)).2 = 0 ∧
      (∀ k : Nat, coefficient_at (div_x_minus_1_asym P) k
        = (divmod_x_minus_1 (rat_coeffs P)).1.getD k 0) ∧
      (∀ k : Int, mul_x_minus_1 (coefficient_at (div_x_minus_1_asym P)) k
        = coefficient_at P k) := by
  have ha := rd_antisymm_of_formally_antisymmetric P n hwf.2 hanti
  obtain ⟨_, hco, _⟩ := div_x_minus_1_asym_spec P n hwf ha
  have hdq : (P.den : ℚ) ≠ 0 := by exact_mod_cast hwf.2
  -- the sum of all numerators is zero
  have htot : range_sum (rd P.coeffs) 0 P.coeffs.length = 0 := by
    by_cases hne : P.coeffs = []
    · rw [hne]; exact range_sum_empty _ (by simp)
    · obtain ⟨z, _, hz, hz0, hz1⟩ := get_lambda_spec P hwf.1 hne
      have hzn : (z : Int) = n - P.coeffs.length :=
        leading_zeros_of_symm P.coeffs n hwf.1 hne (fun k => Or.inr (ha k)) z hz.le hz0
          (fun _ => hz1)
      rw [range_sum_drop_zeros (rd P.coeffs) z P.coeffs.length (by omega) (by omega) hz0]
      exact antisymm_total_zero (rd P.coeffs) z P.coeffs.length n hzn ha
  refine ⟨?_, ?_, ?_⟩
  · rw [divmod_x_minus_1_snd]
    have := rat_coeffs_drop_sum P 0
    rw [List.drop_zero, List.drop_zero, list_sum_eq_range_sum, htot] at this
    rw [this]; simp
  · intro k
    rw [hco, divmod_x_minus_1_fst, rat_coeffs_drop_sum, list_sum_drop,
      if_pos (by omega : (0 : Int) ≤ (k : Int))]
    push_cast
    rfl
  · intro k
    unfold mul_x_minus_1
    rw [hco, hco, coefficient_at_eq, ← sub_div]
    congr 1
    by_cases hk : 0 ≤ k
    · rw [if_pos hk]
      by_cases hk0 : k = 0
      · subst hk0
        rw [if_neg (by omega)]
        have := range_sum_succ_bot (rd P.coeffs) (a := 0) (b := P.coeffs.length)
        by_cases hlen : (0 : Int) < P.coeffs.length
        · have h2 := this hlen
          rw [htot] at h2
          have e : (0 : Int) + 1 = 0 + 1 := rfl
          have h3 : range_sum (rd P.coeffs) (0 + 1) P.coeffs.length = -rd P.coeffs 0 := by
            omega
          rw [h3]; push_cast; ring
        · rw [range_sum_empty _ (by omega), rd_of_length_le _ (by omega)]; simp
      · rw [if_pos (by omega)]
        have e : k - 1 + 1 = k := by ring
        rw [e]
        by_cases hlen : k < P.coeffs.length
        · rw [range_sum_succ_bot (rd P.coeffs) (a := k) hlen]; push_cast; ring
        · rw [range_sum_empty _ (by omega), range_sum_empty _ (by omega),
            rd_of_length_le _ (by omega)]; simp
    · rw [if_neg hk, if_neg (by omega), rd_neg _ (by omega)]; simp

/-- Instance of `C7_div_x_minus_1_asym_is_generic_quotient` on `(-3x + 3x^3) / 2`,
which is formally antisymmetric with respect to the formal length `5` (its `lambda`
is `1`). -/
theorem C7_div_x_minus_1_asym_is_generic_quotient_witness :
    well_formed ⟨[0, -3, 0, 3], 2⟩ ∧ formally_antisymmetric ⟨[0, -3, 0, 3], 2⟩ 5 ∧
    ((divmod_x_minus_1 (rat_coeffs ⟨[0, -3, 0, 3], 2⟩)).2 = 0 ∧
      (∀ k : Nat, coefficient_at (div_x_minus_1_asym ⟨[0, -3, 0, 3], 2⟩) k
        = (divmod_x_minus_1 (rat_coeffs ⟨[0, -3, 0, 3], 2⟩)).1.getD k 0) ∧
      (∀ k : Int, mul_x_minus_1 (coefficient_at (div_x_minus_1_asym ⟨[0, -3, 0, 3], 2⟩)) k
        = coefficient_at ⟨[0, -3, 0, 3], 2⟩ k)) :=
  ⟨by decide,
    formally_antisymmetric_of_range ⟨[0, -3, 0, 3], 2⟩ 5 (by decide) (by decide),
    C7_div_x_minus_1_asym_is_generic_quotient ⟨[0, -3, 0, 3], 2⟩ 5 (by decide)
      (formally_antisymmetric_of_range ⟨[0, -3, 0, 3], 2⟩ 5 (by decide) (by decide))⟩

/-- Claim C8. For every polynomial `P` (top numerator and denominator not zero, the zero
polynomial included) that is formally symmetric with respect to a formal length
`n >= length(P)`, `eval_at_1_sym(P)` is the generic value `P(1)`, the sum of all
coefficients of `P` as an exact rational. -/
theorem C8_eval_at_1_sym_is_generic_value (P : fmpq_poly) (n : Int)
    (hwf : well_formed P) (hsym : formally_symmetric P n) :
    (eval_at_1_sym P).toRat = eval_at_1 P := by
  rw [eval_at_1_eq]
  exact eval_at_1_sym_eq P n hwf.1 (rd_symm_of_formally_symmetric P n hwf.2 hsym)

/-- Instance of `C8_eval_at_1_sym_is_generic_value` on `(x + 2x^2 + x^3) / 3`, which
is formally symmetric with respect to the formal length `5` (its `lambda` is `1`). -/
theorem C8_eval_at_1_sym_is_generic_value_witness :
    well_formed ⟨[0, 1, 2, 1], 3⟩ ∧ formally_symmetric ⟨[0, 1, 2, 1], 3⟩ 5 ∧
    (eval_at_1_sym ⟨[0, 1, 2, 1], 3⟩).toRat = eval_at_1 ⟨[0, 1, 2, 1], 3⟩ :=
  ⟨by decide,
    formally_symmetric_of_range ⟨[0, 1, 2, 1], 3⟩ 5 (by decide) (by decide),
    C8_eval_at_1_sym_is_generic_value ⟨[0, 1, 2, 1], 3⟩ 5 (by decide)
      (formally_symmetric_of_range ⟨[0, 1, 2, 1], 3⟩ 5 (by decide) (by decide))⟩

/-! ## Claims on literal inputs and on the zero polynomial -/

/-- Claim C2. On the literal inputs `[-1, 1]`, `[-2, 1]` and `[0, 1]` (coefficients by
ascending degree, denominator `1`) `Bistritz_rule` returns `(0, 1)`, `(0, 0)` and
`(1, 0)`, and on none of them a singular step is taken: `singular` still has its
initial value `-1` when the loop is left. -/
theorem C2_literals_without_singular_step :
    Bistritz_rule ⟨[-1, 1], 1⟩ = some (0, 1) ∧
    Bistritz_rule ⟨[-2, 1], 1⟩ = some (0, 0) ∧
    Bistritz_rule ⟨[0, 1], 1⟩ = some (1, 0) ∧
    (Bistritz_run ⟨[-1, 1], 1⟩).map (fun r => r.s.singular) = some (-1) ∧
    (Bistritz_run ⟨[-2, 1], 1⟩).map (fun r => r.s.singular) = some (-1) ∧
    (Bistritz_run ⟨[0, 1], 1⟩).map (fun r => r.s.singular) = some (-1) := by
  decide

/-- Claim C3. On the literal inputs `[-1, 0, 1]`, `[1, -3, 2]` and `[1, 0, 1]`
`Bistritz_rule` returns `(0, 2)`, `(1, 1)` and `(0, 2)`. The first and the third go
through the singular branch (it is recorded at loop index `0` and `1`), the second
does not. -/
theorem C3_literals_with_singular_step :
    Bistritz_rule ⟨[-1, 0, 1], 1⟩ = some (0, 2) ∧
    Bistritz_rule ⟨[1, -3, 2], 1⟩ = some (1, 1) ∧
    Bistritz_rule ⟨[1, 0, 1], 1⟩ = some (0, 2) ∧
    (Bistritz_run ⟨[-1, 0, 1], 1⟩).map (fun r => r.s.singular) = some 0 ∧
    (Bistritz_run ⟨[1, -3, 2], 1⟩).map (fun r => r.s.singular) = some (-1) ∧
    (Bistritz_run ⟨[1, 0, 1], 1⟩).map (fun r => r.s.singular) = some 1 := by
  decide

theorem rule_init_nil (d : Int) :
    rule_init ⟨[], d⟩ = (fmpq_poly_zero, fmpq_poly_zero, fmpq_zero, fmpq_zero) := by
  have hr : fmpq_poly_reverse ⟨[], d⟩ (fmpq_poly_length ⟨[], d⟩).toNat = fmpq_poly_zero := by
    simp [fmpq_poly_reverse, fmpq_poly_length]
  have hs : fmpq_poly_sub ⟨[], d⟩ fmpq_poly_zero = fmpq_poly_zero := by
    simp [fmpq_poly_sub, fmpq_poly_zero, lincomb, canonicalise_nil]
  have ha : fmpq_poly_add fmpq_poly_zero ⟨[], d⟩ = fmpq_poly_zero := by
    simp [fmpq_poly_add, fmpq_poly_zero, lincomb, canonicalise_nil]
  have hd : div_x_minus_1_asym fmpq_poly_zero = fmpq_poly_zero := div_x_minus_1_asym_nil 1
  have he : eval_at_1_sym fmpq_poly_zero = fmpq_zero := by decide
  simp only [rule_init, hr, hs, ha, hd, he]

/-- The run of `Bistritz_rule` on an empty coefficient array: no iteration. -/
theorem Bistritz_rule_nil (d : Int) : Bistritz_rule ⟨[], d⟩ = some (-1, 0) := by
  have h1 : clear_x_minus_1 ⟨[], d⟩ = some (0, ⟨[], d⟩) := by
    simp [clear_x_minus_1, clear_x_minus_1_fuel, fmpq_poly_length]
  unfold Bistritz_rule Bistritz_run
  simp only [h1, rule_init_nil]
  rfl

/-- Claim C4. If `poly` is the zero polynomial, `Bistritz_rule` stores the pair
`(in_uc, on_uc) = (-1, 0)`. -/
theorem C4_zero_polynomial_stores_minus_one_zero (poly : fmpq_poly)
    (hzero : fmpq_poly_is_zero poly = true) : Bistritz_rule poly = some (-1, 0) := by
  obtain ⟨cs, d⟩ := poly
  have : cs = [] := by
    cases cs with
    | nil => rfl
    | cons a as => simp [fmpq_poly_is_zero] at hzero
  subst this
  exact Bistritz_rule_nil d

/-- Instance of `C4_zero_polynomial_stores_minus_one_zero` on FLINT's zero polynomial. -/
theorem C4_zero_polynomial_stores_minus_one_zero_witness :
    fmpq_poly_is_zero fmpq_poly_zero = true ∧ Bistritz_rule fmpq_poly_zero = some (-1, 0) :=
  ⟨by decide, C4_zero_polynomial_stores_minus_one_zero fmpq_poly_zero (by decide)⟩

/-- Claim C5, refuted as stated. `Bistritz_rule` has no error outcome. On the zero
polynomial the call completes and hands back a pair of counts, the first of which
is negative: the zero polynomial is not rejected. -/
theorem C5_zero_polynomial_is_not_rejected :
    ∃ in_uc on_uc : Int, Bistritz_rule fmpq_poly_zero = some (in_uc, on_uc) ∧ in_uc < 0 :=
  ⟨-1, 0, by decide, by decide⟩

/-- Claim C5, amended. On the zero polynomial, whatever its stored denominator,
`Bistritz_rule` signals no error: it returns the pair `(-1, 0)` that its
documentation announces. -/
theorem C5_zero_polynomial_returns_documented_pair (den : Int) :
    ∃ pair : Int × Int, Bistritz_rule ⟨[], den⟩ = some pair ∧ pair = (-1, 0) :=
  ⟨(-1, 0), Bistritz_rule_nil den, rfl⟩

/-! ## `clear_x_minus_1` -/

/-- Multiplying the polynomial of tail sums by `x - 1` gives back the polynomial,
when the sum of all numerators is zero. -/
theorem mul_x_minus_1_tail (cs : List Int) (d : Int) (q : Int → ℚ)
    (htot : range_sum (rd cs) 0 cs.length = 0)
    (hq : ∀ k, q k = ((if 0 ≤ k then range_sum (rd cs) (k + 1) cs.length else 0 : Int) : ℚ)
      / (d : ℚ)) (k : Int) :
    mul_x_minus_1 q k = ((rd cs k : Int) : ℚ) / (d : ℚ) := by
  unfold mul_x_minus_1
  rw [hq, hq, ← sub_div]
  congr 1
  by_cases hk : 0 ≤ k
  · rw [if_pos hk]
    by_cases hk0 : k = 0
    · subst hk0
      rw [if_neg (by omega)]
      by_cases hlen : (0 : Int) < cs.length
      · have h2 := range_sum_succ_bot (rd cs) hlen
        rw [htot] at h2
        have h3 : range_sum (rd cs) (0 + 1) cs.length = -rd cs 0 := by omega
        rw [h3]; push_cast; ring
      · rw [range_sum_empty _ (by omega), rd_of_length_le _ (by omega)]; simp
    · rw [if_pos (by omega)]
      have e : k - 1 + 1 = k := by ring
      rw [e]
      by_cases hlen : k < cs.length
      · rw [range_sum_succ_bot (rd cs) hlen]; push_cast; ring
      · rw [range_sum_empty _ (by omega), range_sum_empty _ (by omega),
          rd_of_length_le _ (by omega)]; simp
  · rw [if_neg hk, if_neg (by omega), rd_neg _ (by omega)]; simp

theorem getLast?_ne_of_rd_top (cs : List Int) (h : rd cs ((cs.length : Int) - 1) ≠ 0) :
    cs.getLast? ≠ some 0 := by
  intro hl
  apply h
  have hne : cs ≠ [] := by
    intro h0; rw [h0] at hl; simp at hl
  have hlen : 0 < cs.length := List.length_pos.mpr hne
  unfold rd
  rw [if_pos (by omega)]
  have e : ((cs.length : Int) - 1).toNat = cs.length - 1 := by omega
  rw [e, List.getD_eq_getElem?_getD, ← List.getLast?_eq_getElem?, hl]
  rfl

/-- One accepted pass of the loop of `clear_x_minus_1`: the quotient by `x - 1`. -/
theorem clear_pass (cs : List Int) (d : Int) (hl : cs.getLast? ≠ some 0) (hne : cs ≠ [])
    (hd : d ≠ 0) (c : List Int) (hclen : c.length = cs.length)
    (hc : ∀ j, 0 ≤ j → rd c j = range_sum (rd cs) j cs.length) (h0 : rd c 0 = 0) :
    well_formed (fmpq_poly_canonicalise (fmpq_poly_shift_right ⟨c, d⟩ 1)) ∧
      (fmpq_poly_canonicalise (fmpq_poly_shift_right ⟨c, d⟩ 1)).coeffs.length + 1 = cs.length ∧
      (fmpq_poly_canonicalise (fmpq_poly_shift_right ⟨c, d⟩ 1)).coeffs ≠ [] ∧
      ∀ k, mul_x_minus_1
          (coefficient_at (fmpq_poly_canonicalise (fmpq_poly_shift_right ⟨c, d⟩ 1))) k
        = coefficient_at ⟨cs, d⟩ k := by
  have hlen : 0 < cs.length := List.length_pos.mpr hne
  have htop := rd_top_ne_zero cs hl hne
  have htot : range_sum (rd cs) 0 cs.length = 0 := by rw [← hc 0 (le_refl _)]; exact h0
  have hctop : rd c ((cs.length : Int) - 1) = rd cs ((cs.length : Int) - 1) := by
    rw [hc _ (by omega), range_sum_succ_bot (rd cs) (by omega),
      range_sum_empty (rd cs) (by omega)]
    simp
  have hlen2 : 1 < cs.length := by
    by_contra hcon
    have h1 : cs.length = 1 := by omega
    rw [h1] at hctop htop
    simp only [Nat.cast_one, sub_self] at hctop htop
    exact htop (by rw [← hctop]; exact h0)
  have hwf := well_formed_shift c d hd
  have hlenq : (fmpq_poly_canonicalise (fmpq_poly_shift_right ⟨c, d⟩ 1)).coeffs.length + 1
      = cs.length := by
    have hs : fmpq_poly_shift_right ⟨c, d⟩ 1 = fmpq_poly_canonicalise ⟨c.drop 1, d⟩ := by
      unfold fmpq_poly_shift_right
      rw [if_neg (by decide : ¬ (1 : Nat) = 0)]
      rw [if_neg (by simp only [not_le]; omega)]
    have hdl : (c.drop 1).getLast? ≠ some 0 := by
      rw [List.getLast?_drop, if_neg (by omega)]
      apply getLast?_ne_of_rd_top
      rw [hclen, hctop]
      exact htop
    have hwf1 := well_formed_canonicalise ⟨c.drop 1, d⟩ hd
    rw [hs, length_canonicalise_of_getLast _ hwf1.2 hwf1.1,
      length_canonicalise_of_getLast _ hd hdl]
    simp only [List.length_drop]
    omega
  refine ⟨hwf, hlenq, ?_, ?_⟩
  · intro h
    rw [h] at hlenq
    simp at hlenq
    omega
  · intro k
    rw [coefficient_at_eq]
    apply mul_x_minus_1_tail cs d _ htot
    intro j
    rw [coefficient_at_shift c d hd (by omega)]
    by_cases hj : 0 ≤ j
    · rw [if_pos hj, if_pos hj, hc _ (by omega)]
    · rw [if_neg hj, if_neg hj]

/-- The loop of `clear_x_minus_1` comes to an end within `length` passes, whatever
larger budget it is given, and returns the part of `P` without the factors `x - 1`. -/
theorem clear_loop_spec (n : Nat) : ∀ (P : fmpq_poly), well_formed P → P.coeffs ≠ [] →
    P.coeffs.length ≤ n →
    ∃ (m : Nat) (Q : fmpq_poly), well_formed Q ∧ Q.coeffs ≠ [] ∧
      Q.coeffs.length + m = P.coeffs.length ∧
      (∀ k, (mul_x_minus_1^[m]) (coefficient_at Q) k = coefficient_at P k) ∧
      eval_at_1 Q ≠ 0 ∧ (m = 0 → Q = P) ∧
      ∀ (fuel : Nat) (count : Int), P.coeffs.length ≤ fuel →
        clear_loop fuel count P P = some (count + m, Q) := by
  induction n with
  | zero =>
    intro P _ hne hlen
    exact absurd (List.length_eq_zero.mp (by omega)) hne
  | succ n ih =>
    intro P hwf hne hlen
    obtain ⟨cs, d⟩ := P
    obtain ⟨hl, hd⟩ := hwf
    simp only at hl hd hne hlen
    have hpos : 0 < cs.length := List.length_pos.mpr hne
    obtain ⟨h1a, h1b, _⟩ := horner_down cs 0 (le_refl _)
    by_cases h0 : rd (for_down ((cs.length : Int) - 1 - 1) 0
        (fun i c => wr c i (rd c i + rd c (i + 1))) cs) 0 = 0
    · -- the remainder is zero: one factor is removed and the loop goes on
      obtain ⟨hwf', hlen', hne', hmul⟩ := clear_pass cs d hl hne hd _ h1a h1b h0
      obtain ⟨m, Q, hQwf, hQne, hQlen, hQmul, hQval, _, hQloop⟩ :=
        ih _ hwf' hne' (by omega)
      refine ⟨m + 1, Q, hQwf, hQne, by simp only; omega, ?_, hQval, by omega, ?_⟩
      · intro k
        rw [Function.iterate_succ_apply']
        have : (mul_x_minus_1^[m]) (coefficient_at Q)
            = coefficient_at (fmpq_poly_canonicalise (fmpq_poly_shift_right
              ⟨for_down ((cs.length : Int) - 1 - 1) 0
                (fun i c => wr c i (rd c i + rd c (i + 1))) cs, d⟩ 1)) := funext hQmul
        rw [this]
        exact hmul k
      · intro fuel count hfuel
        obtain ⟨f, rfl⟩ : ∃ f, fuel = f + 1 := ⟨fuel - 1, by simp only at hfuel; omega⟩
        rw [clear_loop]
        simp only [fmpq_poly_degree]
        rw [if_pos h0, hQloop f (count + 1) (by simp only at hfuel; omega)]
        congr 2
        push_cast
        ring
    · -- the remainder is not zero: the loop stops
      refine ⟨0, ⟨cs, d⟩, ⟨hl, hd⟩, hne, rfl, fun k => rfl, ?_, fun _ => rfl, ?_⟩
      · rw [eval_at_1_eq]
        have hdq : (d : ℚ) ≠ 0 := by exact_mod_cast hd
        have hs : cs.sum ≠ 0 := by
          rw [list_sum_eq_range_sum, ← h1b 0 (le_refl _)]
          exact h0
        simp only [ne_eq, div_eq_zero_iff, not_or]
        exact ⟨by exact_mod_cast hs, hdq⟩
      · intro fuel count hfuel
        obtain ⟨f, rfl⟩ : ∃ f, fuel = f + 1 := ⟨fuel - 1, by simp only at hfuel; omega⟩
        rw [clear_loop]
        simp only [fmpq_poly_degree]
        rw [if_neg h0]
        simp

/-- Claim C6. For every polynomial `P` (top numerator and denominator not zero)
`clear_x_minus_1` terminates, within `length(P)` passes of its loop whatever larger
budget is allowed, and returns `(m, Q)` with `P = (x - 1)^m * Q`; when `P` is not
zero, `Q(1) != 0`, so `m` is the multiplicity of the root `1`; when `P` is the zero
polynomial, or when `m = 0`, `Q` is `P` unchanged, and for the zero polynomial
`m = 0`. -/
theorem C6_clear_x_minus_1_removes_root_at_1 (P : fmpq_poly) (hwf : well_formed P) :
    ∃ (m : Nat) (Q : fmpq_poly),
      clear_x_minus_1 P = some ((m : Int), Q) ∧
      (∀ fuel : Nat, P.coeffs.length ≤ fuel →
        clear_x_minus_1_fuel fuel P = some ((m : Int), Q)) ∧
      (∀ k : Int, (mul_x_minus_1^[m]) (coefficient_at Q) k = coefficient_at P k) ∧
      (P.coeffs ≠ [] → eval_at_1 Q ≠ 0) ∧
      (P.coeffs = [] → m = 0) ∧ (m = 0 → Q = P) := by
  by_cases hne : P.coeffs = []
  · refine ⟨0, P, ?_, ?_, fun k => rfl, fun h => absurd hne h, fun _ => rfl, fun _ => rfl⟩
    · simp [clear_x_minus_1, clear_x_minus_1_fuel, fmpq_poly_length, hne]
    · intro fuel _
      simp [clear_x_minus_1_fuel, fmpq_poly_length, hne]
  · obtain ⟨m, Q, _, _, _, hmul, hval, hm0, hloop⟩ :=
      clear_loop_spec P.coeffs.length P hwf hne (le_refl _)
    have hpos : 0 < P.coeffs.length := List.length_pos.mpr hne
    have hfuel : ∀ fuel : Nat, P.coeffs.length ≤ fuel →
        clear_x_minus_1_fuel fuel P = some ((m : Int), Q) := by
      intro fuel hf
      unfold clear_x_minus_1_fuel fmpq_poly_length
      rw [if_pos (by omega), hloop fuel 0 hf]
      simp
    exact ⟨m, Q, hfuel _ (by omega), hfuel, hmul, fun _ => hval, fun h => absurd h hne, hm0⟩

/-- Instance of `C6_clear_x_minus_1_removes_root_at_1` on `(1 - 3x + 2x^2) / 5`. -/
theorem C6_clear_x_minus_1_removes_root_at_1_witness :
    well_formed ⟨[1, -3, 2], 5⟩ ∧
    ∃ (m : Nat) (Q : fmpq_poly),
      clear_x_minus_1 ⟨[1, -3, 2], 5⟩ = some ((m : Int), Q) ∧
      (∀ fuel : Nat, (⟨[1, -3, 2], 5⟩ : fmpq_poly).coeffs.length ≤ fuel →
        clear_x_minus_1_fuel fuel ⟨[1, -3, 2], 5⟩ = some ((m : Int), Q)) ∧
      (∀ k : Int, (mul_x_minus_1^[m]) (coefficient_at Q) k
        = coefficient_at ⟨[1, -3, 2], 5⟩ k) ∧
      ((⟨[1, -3, 2], 5⟩ : fmpq_poly).coeffs ≠ [] → eval_at_1 Q ≠ 0) ∧
      ((⟨[1, -3, 2], 5⟩ : fmpq_poly).coeffs = [] → m = 0) ∧
      (m = 0 → Q = ⟨[1, -3, 2], 5⟩) :=
  ⟨by decide, C6_clear_x_minus_1_removes_root_at_1 ⟨[1, -3, 2], 5⟩ (by decide)⟩

/-! ## Addition, subtraction, reversal -/

theorem rd_lincomb (da db s : Int) (as bs : List Int) (k : Int) :
    rd (lincomb da db s as bs) k = rd as k * db + s * rd bs k * da := by
  induction as generalizing bs k with
  | nil =>
    simp only [lincomb, rd_nil, zero_mul, zero_add]
    rw [rd_map _ (by simp)]
  | cons a as ih =>
    cases bs with
    | nil =>
      simp only [lincomb, rd_nil, mul_zero, zero_mul, add_zero]
      by_cases hk : k = 0
      · subst hk; simp [rd_cons_zero]
      · by_cases hk2 : k < 0
        · rw [rd_neg _ hk2, rd_neg _ hk2]; simp
        · rw [rd_cons_pos _ _ (by omega), rd_cons_pos _ _ (by omega), ih]
          simp [rd_nil]
    | cons b bs =>
      simp only [lincomb]
      by_cases hk : k = 0
      · subst hk; simp [rd_cons_zero]
      · by_cases hk2 : k < 0
        · rw [rd_neg _ hk2, rd_neg _ hk2, rd_neg _ hk2]; simp
        · rw [rd_cons_pos _ _ (by omega), rd_cons_pos _ _ (by omega),
            rd_cons_pos _ _ (by omega), ih]

theorem length_lincomb (da db s : Int) (as bs : List Int) :
    (lincomb da db s as bs).length = max as.length bs.length := by
  induction as generalizing bs with
  | nil => simp [lincomb]
  | cons a as ih =>
    cases bs with
    | nil => simp [lincomb, ih]
    | cons b bs =>
      simp only [lincomb, List.length_cons, ih]
      omega

theorem coefficient_at_add (p q : fmpq_poly) (hp : p.den ≠ 0) (hq : q.den ≠ 0) (k : Int) :
    coefficient_at (fmpq_poly_add p q) k = coefficient_at p k + coefficient_at q k := by
  unfold fmpq_poly_add
  rw [coefficient_at_canonicalise _ (mul_ne_zero hp hq), coefficient_at_eq, coefficient_at_eq,
    coefficient_at_eq]
  simp only [rd_lincomb]
  have hp' : (p.den : ℚ) ≠ 0 := by exact_mod_cast hp
  have hq' : (q.den : ℚ) ≠ 0 := by exact_mod_cast hq
  push_cast
  field_simp

theorem coefficient_at_sub (p q : fmpq_poly) (hp : p.den ≠ 0) (hq : q.den ≠ 0) (k : Int) :
    coefficient_at (fmpq_poly_sub p q) k = coefficient_at p k - coefficient_at q k := by
  unfold fmpq_poly_sub
  rw [coefficient_at_canonicalise _ (mul_ne_zero hp hq), coefficient_at_eq, coefficient_at_eq,
    coefficient_at_eq]
  simp only [rd_lincomb]
  have hp' : (p.den : ℚ) ≠ 0 := by exact_mod_cast hp
  have hq' : (q.den : ℚ) ≠ 0 := by exact_mod_cast hq
  push_cast
  field_simp
  ring

theorem well_formed_add (p q : fmpq_poly) (hp : p.den ≠ 0) (hq : q.den ≠ 0) :
    well_formed (fmpq_poly_add p q) :=
  well_formed_canonicalise _ (mul_ne_zero hp hq)

theorem well_formed_sub (p q : fmpq_poly) (hp : p.den ≠ 0) (hq : q.den ≠ 0) :
    well_formed (fmpq_poly_sub p q) :=
  well_formed_canonicalise _ (mul_ne_zero hp hq)

theorem length_add_le (p q : fmpq_poly) (hp : p.den ≠ 0) (hq : q.den ≠ 0) :
    (fmpq_poly_add p q).coeffs.length ≤ max p.coeffs.length q.coeffs.length := by
  unfold fmpq_poly_add
  have := length_canonicalise_le
    ⟨lincomb p.den q.den 1 p.coeffs q.coeffs, p.den * q.den⟩ (mul_ne_zero hp hq)
  simpa [length_lincomb] using this

theorem length_sub_le (p q : fmpq_poly) (hp : p.den ≠ 0) (hq : q.den ≠ 0) :
    (fmpq_poly_sub p q).coeffs.length ≤ max p.coeffs.length q.coeffs.length := by
  unfold fmpq_poly_sub
  have := length_canonicalise_le
    ⟨lincomb p.den q.den (-1) p.coeffs q.coeffs, p.den * q.den⟩ (mul_ne_zero hp hq)
  simpa [length_lincomb] using this

theorem rd_reverse (cs : List Int) (k : Int) :
    rd cs.reverse k = rd cs ((cs.length : Int) - 1 - k) := by
  by_cases hk : k < 0
  · rw [rd_neg _ hk, rd_of_length_le _ (by omega)]
  · by_cases hk2 : k < cs.length
    · unfold rd
      rw [if_pos (by omega), if_pos (by omega), List.getD_eq_getElem?_getD,
        List.getD_eq_getElem?_getD, List.getElem?_reverse (by omega)]
      congr 2
      omega
    · rw [rd_of_length_le _ (by simp; omega), rd_neg _ (by omega)]

/-- The reversal of `D` at its own length. -/
theorem reverse_spec (D : fmpq_poly) (hd : D.den ≠ 0) :
    well_formed (fmpq_poly_reverse D (fmpq_poly_length D).toNat) ∧
      (fmpq_poly_reverse D (fmpq_poly_length D).toNat).coeffs.length ≤ D.coeffs.length ∧
      ∀ k, coefficient_at (fmpq_poly_reverse D (fmpq_poly_length D).toNat) k
        = coefficient_at D ((D.coeffs.length : Int) - 1 - k) := by
  unfold fmpq_poly_reverse fmpq_poly_length
  simp only [Int.toNat_ofNat, min_self]
  by_cases h0 : D.coeffs.length = 0
  · rw [if_pos h0]
    refine ⟨well_formed_zero, by simp [fmpq_poly_zero], fun k => ?_⟩
    have hnil : D.coeffs = [] := List.length_eq_zero.mp h0
    rw [coefficient_at_eq, coefficient_at_eq, hnil]
    simp [fmpq_poly_zero, rd_nil]
  · rw [if_neg h0]
    have e : D.coeffs.take D.coeffs.length
        ++ List.replicate (D.coeffs.length - (D.coeffs.take D.coeffs.length).length) 0
        = D.coeffs := by simp
    simp only [e]
    refine ⟨well_formed_canonicalise _ hd, ?_, fun k => ?_⟩
    · have := length_canonicalise_le ⟨D.coeffs.reverse, D.den⟩ hd
      simpa using this
    · rw [coefficient_at_canonicalise ⟨D.coeffs.reverse, D.den⟩ hd, coefficient_at_eq,
        coefficient_at_eq]
      simp only [rd_reverse]

theorem rd_eq_of_coefficient_at_eq (p : fmpq_poly) (hd : p.den ≠ 0) (j k : Int)
    (h : coefficient_at p j = coefficient_at p k) : rd p.coeffs j = rd p.coeffs k := by
  rw [coefficient_at_eq, coefficient_at_eq] at h
  have hd' : (p.den : ℚ) ≠ 0 := by exact_mod_cast hd
  field_simp at h
  exact_mod_cast h

theorem rd_eq_neg_of_coefficient_at_eq_neg (p : fmpq_poly) (hd : p.den ≠ 0) (j k : Int)
    (h : coefficient_at p j = -coefficient_at p k) : rd p.coeffs j = -rd p.coeffs k := by
  rw [coefficient_at_eq, coefficient_at_eq] at h
  have hd' : (p.den : ℚ) ≠ 0 := by exact_mod_cast hd
  field_simp at h
  exact_mod_cast h

/-- The sum of the numerators of an antisymmetric well-formed polynomial is zero. -/
theorem antisymm_list_total_zero (cs : List Int) (n : Int) (hl : cs.getLast? ≠ some 0)
    (ha : ∀ k, rd cs k = -rd cs (n - 1 - k)) : range_sum (rd cs) 0 cs.length = 0 := by
  by_cases hne : cs = []
  · rw [hne]; exact range_sum_empty _ (by simp)
  · obtain ⟨z, _, hz, hz0, hz1⟩ := get_lambda_spec ⟨cs, 1⟩ hl hne
    simp only at hz hz0 hz1
    have hzn : (z : Int) = n - cs.length :=
      leading_zeros_of_symm cs n hl hne (fun k => Or.inr (ha k)) z hz.le hz0 (fun _ => hz1)
    rw [range_sum_drop_zeros (rd cs) z cs.length (by omega) (by omega) hz0]
    exact antisymm_total_zero (rd cs) z cs.length n hzn ha

/-- Tail sums of an antisymmetric well-formed array are symmetric about `n`. -/
theorem antisymm_list_tail_reflect (cs : List Int) (n : Int) (hl : cs.getLast? ≠ some 0)
    (ha : ∀ k, rd cs k = -rd cs (n - 1 - k)) (j : Int)
    (h0 : 0 ≤ j) (h1 : j ≤ n) :
    range_sum (rd cs) j cs.length = range_sum (rd cs) (n - j) cs.length := by
  by_cases hne : cs = []
  · rw [hne]
    rw [range_sum_eq_zero _ _ _ (fun k _ _ => rd_nil k),
      range_sum_eq_zero _ _ _ (fun k _ _ => rd_nil k)]
  · obtain ⟨z, _, hz, hz0, hz1⟩ := get_lambda_spec ⟨cs, 1⟩ hl hne
    simp only at hz hz0 hz1
    have hzn : (z : Int) = n - cs.length :=
      leading_zeros_of_symm cs n hl hne (fun k => Or.inr (ha k)) z hz.le hz0 (fun _ => hz1)
    have htot := antisymm_total_zero (rd cs) z cs.length n hzn ha
    have hlow : ∀ i, 0 ≤ i → i ≤ (z : Int) → range_sum (rd cs) i cs.length = 0 := by
      intro i hi1 hi2
      rw [range_sum_split (rd cs) (a := i) (m := z) (b := cs.length) hi2 (by omega), htot,
        range_sum_eq_zero (rd cs) i z (fun k hk1 hk2 => hz0 k (by omega) hk2)]
      rfl
    by_cases hjz : j < z
    · rw [hlow j h0 hjz.le, range_sum_empty _ (by omega)]
    · by_cases hjl : j ≤ cs.length
      · exact antisymm_tail_reflect (rd cs) z cs.length n hzn ha j (by omega) hjl
      · rw [range_sum_empty _ (by omega), hlow (n - j) (by omega) (by omega)]

/-! ## `rule_init` -/

/-- What `rule_init` returns on a well-formed `D` of length `n`: `T1 = D* + D`,
`(x - 1) * T2 = D - D*`, both well formed and symmetric about the formal lengths
`n` and `n - 1`, and the two values at `x = 1`. -/
theorem rule_init_spec (D : fmpq_poly) (hwf : well_formed D) :
    well_formed (rule_init D).1 ∧ well_formed (rule_init D).2.1 ∧
    (∀ k, coefficient_at (rule_init D).1 k
      = coefficient_at D ((D.coeffs.length : Int) - 1 - k) + coefficient_at D k) ∧
    (∀ k, mul_x_minus_1 (coefficient_at (rule_init D).2.1) k
      = coefficient_at D k - coefficient_at D ((D.coeffs.length : Int) - 1 - k)) ∧
    (∀ k, coefficient_at (rule_init D).2.1 k
      = coefficient_at (rule_init D).2.1 ((D.coeffs.length : Int) - 1 - 1 - k)) ∧
    (rule_init D).1.coeffs.length ≤ D.coeffs.length ∧
    (rule_init D).2.1.coeffs.length ≤ D.coeffs.length - 1 ∧
    (rule_init D).2.2.1.toRat = eval_at_1 (rule_init D).1 ∧
    (rule_init D).2.2.2.toRat = eval_at_1 (rule_init D).2.1 := by
  obtain ⟨hrwf, hrlen, hrco⟩ := reverse_spec D hwf.2
  have hA := coefficient_at_sub D (fmpq_poly_reverse D (fmpq_poly_length D).toNat) hwf.2 hrwf.2
  have hAwf := well_formed_sub D (fmpq_poly_reverse D (fmpq_poly_length D).toNat) hwf.2 hrwf.2
  have hAlen := length_sub_le D (fmpq_poly_reverse D (fmpq_poly_length D).toNat) hwf.2 hrwf.2
  have hS := coefficient_at_add (fmpq_poly_reverse D (fmpq_poly_length D).toNat) D hrwf.2 hwf.2
  have hSwf := well_formed_add (fmpq_poly_reverse D (fmpq_poly_length D).toNat) D hrwf.2 hwf.2
  have hSlen := length_add_le (fmpq_poly_reverse D (fmpq_poly_length D).toNat) D hrwf.2 hwf.2
  -- the difference is antisymmetric on numerators
  have hAanti : ∀ k, rd (fmpq_poly_sub D (fmpq_poly_reverse D (fmpq_poly_length D).toNat)).coeffs k
      = -rd (fmpq_poly_sub D (fmpq_poly_reverse D (fmpq_poly_length D).toNat)).coeffs
        ((D.coeffs.length : Int) - 1 - k) := by
    intro k
    apply rd_eq_neg_of_coefficient_at_eq_neg _ hAwf.2
    rw [hA, hA, hrco, hrco]
    have e : (D.coeffs.length : Int) - 1 - ((D.coeffs.length : Int) - 1 - k) = k := by ring
    rw [e]; ring
  -- the sum is symmetric on numerators
  have hSsym : ∀ k, rd (fmpq_poly_add (fmpq_poly_reverse D (fmpq_poly_length D).toNat) D).coeffs k
      = rd (fmpq_poly_add (fmpq_poly_reverse D (fmpq_poly_length D).toNat) D).coeffs
        ((D.coeffs.length : Int) - 1 - k) := by
    intro k
    apply rd_eq_of_coefficient_at_eq _ hSwf.2
    rw [hS, hS, hrco, hrco]
    have e : (D.coeffs.length : Int) - 1 - ((D.coeffs.length : Int) - 1 - k) = k := by ring
    rw [e]; ring
  obtain ⟨hQwf, hQco, hQlen⟩ := div_x_minus_1_asym_spec _ _ hAwf hAanti
  have htot := antisymm_list_total_zero _ _ hAwf.1 hAanti
  have hT1 : (rule_init D).1
      = fmpq_poly_add (fmpq_poly_reverse D (fmpq_poly_length D).toNat) D := rfl
  have hT2 : (rule_init D).2.1
      = div_x_minus_1_asym (fmpq_poly_sub D (fmpq_poly_reverse D (fmpq_poly_length D).toNat)) :=
    rfl
  have hs1 : (rule_init D).2.2.1 = eval_at_1_sym (rule_init D).1 := rfl
  have hs2 : (rule_init D).2.2.2 = eval_at_1_sym (rule_init D).2.1 := rfl
  -- the quotient is symmetric
  have hQsym : ∀ k, coefficient_at (rule_init D).2.1 k
      = coefficient_at (rule_init D).2.1 ((D.coeffs.length : Int) - 1 - 1 - k) := by
    intro k
    rw [hT2, hQco, hQco]
    congr 1
    generalize hcs : (fmpq_poly_sub D (fmpq_poly_reverse D (fmpq_poly_length D).toNat)).coeffs
      = cs at hAanti hAlen htot
    have hAl : cs.getLast? ≠ some 0 := by rw [← hcs]; exact hAwf.1
    have hlen2 : (cs.length : Int) ≤ D.coeffs.length := by
      have : cs.length ≤ D.coeffs.length := by
        have := max_le (le_refl D.coeffs.length) hrlen
        omega
      exact_mod_cast this
    by_cases hk : 0 ≤ k
    · rw [if_pos hk]
      by_cases hk2 : 0 ≤ (D.coeffs.length : Int) - 1 - 1 - k
      · rw [if_pos hk2,
          antisymm_list_tail_reflect cs D.coeffs.length hAl hAanti (k + 1) (by omega) (by omega)]
        congr 2
        ring
      · rw [if_neg hk2, range_sum_empty _ (by omega)]
    · rw [if_neg hk]
      by_cases hk2 : 0 ≤ (D.coeffs.length : Int) - 1 - 1 - k
      · rw [if_pos hk2, range_sum_empty _ (by omega)]
      · rw [if_neg hk2]
  refine ⟨by rw [hT1]; exact hSwf, by rw [hT2]; exact hQwf, ?_, ?_, hQsym, ?_, ?_, ?_, ?_⟩
  · intro k
    rw [hT1, hS, hrco]
  · intro k
    rw [hT2, ← hrco k, ← hA, coefficient_at_eq]
    exact mul_x_minus_1_tail _ _ _ htot hQco k
  · rw [hT1]
    have := max_le hrlen (le_refl D.coeffs.length)
    omega
  · rw [hT2]
    have := max_le (le_refl D.coeffs.length) hrlen
    omega
  · rw [hs1, hT1, eval_at_1_eq]
    exact eval_at_1_sym_eq _ _ hSwf.1 hSsym
  · rw [hs2, eval_at_1_eq]
    apply eval_at_1_sym_eq _ ((D.coeffs.length : Int) - 1) (hT2 ▸ hQwf).1
    intro k
    exact rd_eq_of_coefficient_at_eq _ (hT2 ▸ hQwf).2 _ _ (hQsym k)

/-- Claim C9. For every polynomial `D` (top numerator and denominator not zero), with
`D*` the reversal of `D` at `length(D)` (its coefficient at `k` is the coefficient of
`D` at `length(D) - 1 - k`), `rule_init(D)` returns `T1 = D* + D`, `T2` with
`(x - 1) * T2 = D - D*`, `sigma1 = T1(1)` and `sigma2 = T2(1)`. -/
theorem C9_rule_init_builds_symmetric_pair (D : fmpq_poly) (hwf : well_formed D) :
    (∀ k : Int, coefficient_at (rule_init D).1 k
      = coefficient_at D ((D.coeffs.length : Int) - 1 - k) + coefficient_at D k) ∧
    (∀ k : Int, mul_x_minus_1 (coefficient_at (rule_init D).2.1) k
      = coefficient_at D k - coefficient_at D ((D.coeffs.length : Int) - 1 - k)) ∧
    (rule_init D).2.2.1.toRat = eval_at_1 (rule_init D).1 ∧
    (rule_init D).2.2.2.toRat = eval_at_1 (rule_init D).2.1 := by
  obtain ⟨_, _, h1, h2, _, _, _, h3, h4⟩ := rule_init_spec D hwf
  exact ⟨h1, h2, h3, h4⟩

/-- Instance of `C9_rule_init_builds_symmetric_pair` on `(-1 + 2x + 5x^3) / 3`. -/
theorem C9_rule_init_builds_symmetric_pair_witness :
    well_formed ⟨[-1, 2, 0, 5], 3⟩ ∧
    ((∀ k : Int, coefficient_at (rule_init ⟨[-1, 2, 0, 5], 3⟩).1 k
      = coefficient_at ⟨[-1, 2, 0, 5], 3⟩
          ((((⟨[-1, 2, 0, 5], 3⟩ : fmpq_poly).coeffs.length : Nat) : Int) - 1 - k)
        + coefficient_at ⟨[-1, 2, 0, 5], 3⟩ k) ∧
    (∀ k : Int, mul_x_minus_1 (coefficient_at (rule_init ⟨[-1, 2, 0, 5], 3⟩).2.1) k
      = coefficient_at ⟨[-1, 2, 0, 5], 3⟩ k
        - coefficient_at ⟨[-1, 2, 0, 5], 3⟩
          ((((⟨[-1, 2, 0, 5], 3⟩ : fmpq_poly).coeffs.length : Nat) : Int) - 1 - k)) ∧
    (rule_init ⟨[-1, 2, 0, 5], 3⟩).2.2.1.toRat = eval_at_1 (rule_init ⟨[-1, 2, 0, 5], 3⟩).1 ∧
    (rule_init ⟨[-1, 2, 0, 5], 3⟩).2.2.2.toRat
      = eval_at_1 (rule_init ⟨[-1, 2, 0, 5], 3⟩).2.1) :=
  ⟨by decide, C9_rule_init_builds_symmetric_pair ⟨[-1, 2, 0, 5], 3⟩ (by decide)⟩

/-! ## `do_recurence` -/

theorem get_coeff_numref_zero (p : fmpq_poly) (n : Int) :
    get_coeff_numref p 0 n = rd p.coeffs n := by
  unfold get_coeff_numref fmpq_poly_length
  split
  · rfl
  · rename_i h
    by_cases hn : n < 0
    · rw [rd_neg _ hn]
    · rw [rd_of_length_le _ (by omega)]

/-- A loop that stores `g i` at every index `i` of its range. -/
theorem for_up_fill (g : Int → Int) (lo hi : Int) (c0 : List Int) (hlo : 0 ≤ lo)
    (hle : lo ≤ hi) (hhi : hi ≤ c0.length) :
    (for_up lo hi (fun i c => wr c i (g i)) c0).length = c0.length ∧
      (∀ j, lo ≤ j → j < hi → rd (for_up lo hi (fun i c => wr c i (g i)) c0) j = g j) ∧
      (∀ j, (j < lo ∨ hi ≤ j) → rd (for_up lo hi (fun i c => wr c i (g i)) c0) j = rd c0 j) := by
  have key := for_up_induct lo hi (fun i c => wr c i (g i))
    (fun i c => c.length = c0.length ∧ (∀ j, lo ≤ j → j < i → rd c j = g j)
      ∧ (∀ j, (j < lo ∨ i ≤ j) → rd c j = rd c0 j)) c0 hle
    ⟨rfl, fun j h1 h2 => by omega, fun j _ => rfl⟩
    (by
      intro i t h1 h2 ⟨hl, ha, hb⟩
      refine ⟨by rw [length_wr, hl], ?_, ?_⟩
      · intro j hj1 hj2
        by_cases hji : j = i
        · subst hji
          rw [rd_wr_same _ _ (by omega) (by rw [hl]; omega)]
        · rw [rd_wr_ne _ _ (fun h => hji h.symm)]
          exact ha j hj1 (by omega)
      · intro j hj
        rw [rd_wr_ne _ _ (by omega)]
        exact hb j (by omega))
  exact ⟨key.1, key.2.1, key.2.2⟩

/-- A loop that copies into every index `i` of its range the entry at `n - i`, which
lies below the range. -/
theorem for_up_mirror (n lo hi : Int) (c0 : List Int) (hlo : 0 ≤ lo) (hle : lo ≤ hi)
    (hhi : hi ≤ c0.length) (hbelow : ∀ i, lo ≤ i → i < hi → n - i < lo) :
    (for_up lo hi (fun i c => wr c i (rd c (n - i))) c0).length = c0.length ∧
      (∀ j, lo ≤ j → j < hi →
        rd (for_up lo hi (fun i c => wr c i (rd c (n - i))) c0) j = rd c0 (n - j)) ∧
      (∀ j, (j < lo ∨ hi ≤ j) →
        rd (for_up lo hi (fun i c => wr c i (rd c (n - i))) c0) j = rd c0 j) := by
  have key := for_up_induct lo hi (fun i c => wr c i (rd c (n - i)))
    (fun i c => c.length = c0.length ∧ (∀ j, lo ≤ j → j < i → rd c j = rd c0 (n - j))
      ∧ (∀ j, (j < lo ∨ i ≤ j) → rd c j = rd c0 j)) c0 hle
    ⟨rfl, fun j h1 h2 => by omega, fun j _ => rfl⟩
    (by
      intro i t h1 h2 ⟨hl, ha, hb⟩
      refine ⟨by rw [length_wr, hl], ?_, ?_⟩
      · intro j hj1 hj2
        by_cases hji : j = i
        · subst hji
          rw [rd_wr_same _ _ (by omega) (by rw [hl]; omega)]
          exact hb _ (Or.inl (hbelow j h1 h2))
        · rw [rd_wr_ne _ _ (fun h => hji h.symm)]
          exact ha j hj1 (by omega)
      · intro j hj
        rw [rd_wr_ne _ _ (by omega)]
        exact hb j (by omega))
  exact ⟨key.1, key.2.1, key.2.2⟩

theorem fmpq_num_ne_zero_of_toRat (q : fmpq) (h : q.toRat ≠ 0) : q.num ≠ 0 := by
  intro h0
  apply h
  unfold fmpq.toRat
  rw [h0]
  simp

/-- The denominator of the recursion coefficient is not zero. -/
theorem get_delta_den_ne_zero (T1 T2 : fmpq_poly) (hwf1 : well_formed T1)
    (hwf2 : well_formed T2) : (get_delta T1 T2).den ≠ 0 := by
  unfold get_delta
  split
  · rename_i h
    have hne : T2.coeffs ≠ [] := by
      intro h0
      have := h.2
      unfold fmpq_poly_length at this
      rw [h0] at this
      simp at this
    obtain ⟨z, hlam, hz, _, hz1⟩ := get_lambda_spec T2 hwf2.1 hne
    apply canonicalise_den_ne_zero
    simp only
    apply mul_ne_zero _ hwf1.2
    apply fmpq_num_ne_zero_of_toRat
    have : (get_coeff T2 (get_lambda T2)).toRat = coefficient_at T2 (get_lambda T2) := rfl
    rw [this, coefficient_at_eq, hlam]
    have hd : (T2.den : ℚ) ≠ 0 := by exact_mod_cast hwf2.2
    have hc : ((rd T2.coeffs z : Int) : ℚ) ≠ 0 := by exact_mod_cast hz1
    exact div_ne_zero hc hd
  · simp [fmpq_zero]

/-- The array built by the two loops of `do_recurence`: the recursion formula on the
lower half and its mirror image on the upper half. -/
theorem do_recurence_array (g : Int → Int) (fl : Int) (hfl : 1 ≤ fl) :
    (for_up ((fl - 1) / 2 + 1) fl (fun i c => wr c i (rd c (fl - i - 1)))
      (for_up 0 ((fl - 1) / 2 + 1) (fun i c => wr c i (g i))
        (List.replicate fl.toNat (0 : Int)))).length = fl.toNat ∧
    ∀ i, 0 ≤ i → i < fl →
      rd (for_up ((fl - 1) / 2 + 1) fl (fun i c => wr c i (rd c (fl - i - 1)))
        (for_up 0 ((fl - 1) / 2 + 1) (fun i c => wr c i (g i))
          (List.replicate fl.toNat (0 : Int)))) i
        = if i ≤ (fl - 1) / 2 then g i else g (fl - 1 - i) := by
  have hl0 : ((List.replicate fl.toNat (0 : Int)).length : Int) = fl := by
    simp; omega
  obtain ⟨ha1, ha2, ha3⟩ := for_up_fill g 0 ((fl - 1) / 2 + 1)
    (List.replicate fl.toNat (0 : Int)) (le_refl _) (by omega) (by omega)
  generalize (for_up 0 ((fl - 1) / 2 + 1) (fun i c => wr c i (g i))
    (List.replicate fl.toNat (0 : Int))) = cA at ha1 ha2 ha3
  have hb := for_up_mirror (fl - 1) ((fl - 1) / 2 + 1) fl cA (by omega) (by omega)
    (by rw [ha1]; omega) (fun i h1 h2 => by omega)
  have e : (fun (i : Int) (c : List Int) => wr c i (rd c (fl - i - 1)))
      = (fun i c => wr c i (rd c (fl - 1 - i))) := by
    funext i c
    congr 2
    ring
  rw [e]
  obtain ⟨hb1, hb2, hb3⟩ := hb
  refine ⟨by rw [hb1, ha1]; simp, ?_⟩
  intro i hi0 hi1
  by_cases him : i ≤ (fl - 1) / 2
  · rw [if_pos him, hb3 i (Or.inl (by omega)), ha2 i hi0 (by omega)]
  · rw [if_neg him, hb2 i (by omega) hi1, ha2 _ (by omega) (by omega)]

/-- Claim C10. In `do_recurence` with `flength >= 1`, `T1` formally symmetric of formal
length `flength + 2` and `T2` formally symmetric of formal length `flength + 1` (both
with non-zero top numerator and denominator), computing the lower half and mirroring
it loses nothing: at every index `i` in `0 .. flength - 1` the returned `T3` has the
coefficient `delta * (T2[i - lambda] + T2[i + lambda + 1]) - T1[i + 1]`, with
`lambda = get_lambda(T2)` and `delta` the value of `get_delta(T1, T2)`. -/
theorem C10_do_recurence_formula_at_every_index (delta0 : fmpq) (T1 T2 : fmpq_poly)
    (sigma1 sigma2 : fmpq) (flength : Int) (hfl : 1 ≤ flength)
    (hwf1 : well_formed T1) (hwf2 : well_formed T2)
    (hs1 : formally_symmetric T1 (flength + 2)) (hs2 : formally_symmetric T2 (flength + 1)) :
    ∀ i : Int, 0 ≤ i → i < flength →
      coefficient_at (do_recurence delta0 0 T1 T2 sigma1 sigma2 flength).1 i
        = (get_delta T1 T2).toRat
            * (coefficient_at T2 (i - get_lambda T2) + coefficient_at T2 (i + get_lambda T2 + 1))
          - coefficient_at T1 (i + 1) := by
  intro i hi0 hi1
  have hsym1 := rd_symm_of_formally_symmetric T1 _ hwf1.2 hs1
  have hsym2 := rd_symm_of_formally_symmetric T2 _ hwf2.2 hs2
  have hdd := get_delta_den_ne_zero T1 T2 hwf1 hwf2
  have htd : Int.tdiv (flength - 1) 2 = (flength - 1) / 2 :=
    Int.tdiv_eq_ediv (by omega) (by norm_num)
  obtain ⟨_, harr⟩ := do_recurence_array
    (fun i => (rd T2.coeffs (i - get_lambda T2) + rd T2.coeffs (i + get_lambda T2 + 1))
        * ((get_delta T1 T2).num * T1.den)
      - (get_delta T1 T2).den * T2.den * rd T1.coeffs (i + 1)) flength hfl
  have hT3 : (do_recurence delta0 0 T1 T2 sigma1 sigma2 flength).1
      = fmpq_poly_canonicalise
        ⟨for_up ((flength - 1) / 2 + 1) flength (fun i c => wr c i (rd c (flength - i - 1)))
          (for_up 0 ((flength - 1) / 2 + 1) (fun i c => wr c i
            ((rd T2.coeffs (i - get_lambda T2) + rd T2.coeffs (i + get_lambda T2 + 1))
                * ((get_delta T1 T2).num * T1.den)
              - (get_delta T1 T2).den * T2.den * rd T1.coeffs (i + 1)))
            (List.replicate flength.toNat (0 : Int))),
          (get_delta T1 T2).den * T2.den * T1.den⟩ := by
    unfold do_recurence
    rw [if_neg (by omega)]
    simp only [htd, get_coeff_numref_zero]
  have hden : (get_delta T1 T2).den * T2.den * T1.den ≠ 0 :=
    mul_ne_zero (mul_ne_zero hdd hwf2.2) hwf1.2
  rw [hT3, coefficient_at_canonicalise _ hden, coefficient_at_eq]
  simp only
  rw [harr i hi0 hi1]
  have hmirror : (rd T2.coeffs (flength - 1 - i - get_lambda T2)
        + rd T2.coeffs (flength - 1 - i + get_lambda T2 + 1))
        * ((get_delta T1 T2).num * T1.den)
      - (get_delta T1 T2).den * T2.den * rd T1.coeffs (flength - 1 - i + 1)
      = (rd T2.coeffs (i - get_lambda T2) + rd T2.coeffs (i + get_lambda T2 + 1))
        * ((get_delta T1 T2).num * T1.den)
      - (get_delta T1 T2).den * T2.den * rd T1.coeffs (i + 1) := by
    have e1 := hsym2 (flength - 1 - i - get_lambda T2)
    have e2 := hsym2 (flength - 1 - i + get_lambda T2 + 1)
    have e3 := hsym1 (flength - 1 - i + 1)
    have a1 : flength + 1 - 1 - (flength - 1 - i - get_lambda T2) = i + get_lambda T2 + 1 := by
      ring
    have a2 : flength + 1 - 1 - (flength - 1 - i + get_lambda T2 + 1) = i - get_lambda T2 := by
      ring
    have a3 : flength + 2 - 1 - (flength - 1 - i + 1) = i + 1 := by ring
    rw [a1] at e1
    rw [a2] at e2
    rw [a3] at e3
    rw [e1, e2, e3]
    ring
  have hval : (if i ≤ (flength - 1) / 2 then
        (rd T2.coeffs (i - get_lambda T2) + rd T2.coeffs (i + get_lambda T2 + 1))
          * ((get_delta T1 T2).num * T1.den)
        - (get_delta T1 T2).den * T2.den * rd T1.coeffs (i + 1)
      else
        (rd T2.coeffs (flength - 1 - i - get_lambda T2)
          + rd T2.coeffs (flength - 1 - i + get_lambda T2 + 1))
          * ((get_delta T1 T2).num * T1.den)
        - (get_delta T1 T2).den * T2.den * rd T1.coeffs (flength - 1 - i + 1))
      = (rd T2.coeffs (i - get_lambda T2) + rd T2.coeffs (i + get_lambda T2 + 1))
          * ((get_delta T1 T2).num * T1.den)
        - (get_delta T1 T2).den * T2.den * rd T1.coeffs (i + 1) := by
    split
    · rfl
    · exact hmirror
  rw [hval, coefficient_at_eq, coefficient_at_eq, coefficient_at_eq]
  unfold fmpq.toRat
  have h1 : (T1.den : ℚ) ≠ 0 := by exact_mod_cast hwf1.2
  have h2 : (T2.den : ℚ) ≠ 0 := by exact_mod_cast hwf2.2
  have h3 : ((get_delta T1 T2).den : ℚ) ≠ 0 := by exact_mod_cast hdd
  push_cast
  field_simp
  ring

/-- Instance of `C10_do_recurence_formula_at_every_index` on the pair
`T1 = 5 + x + x^2 + 5x^3`, `T2 = (1 + 2x + x^2) / 3` with `flength = 2`. -/
theorem C10_do_recurence_formula_at_every_index_witness :
    (1 : Int) ≤ 2 ∧ well_formed ⟨[5, 1, 1, 5], 1⟩ ∧ well_formed ⟨[1, 2, 1], 3⟩ ∧
    formally_symmetric ⟨[5, 1, 1, 5], 1⟩ (2 + 2) ∧
    formally_symmetric ⟨[1, 2, 1], 3⟩ (2 + 1) ∧
    ∀ i : Int, 0 ≤ i → i < 2 →
      coefficient_at
          (do_recurence fmpq_zero 0 ⟨[5, 1, 1, 5], 1⟩ ⟨[1, 2, 1], 3⟩ ⟨12, 1⟩ ⟨4, 3⟩ 2).1 i
        = (get_delta ⟨[5, 1, 1, 5], 1⟩ ⟨[1, 2, 1], 3⟩).toRat
            * (coefficient_at ⟨[1, 2, 1], 3⟩ (i - get_lambda ⟨[1, 2, 1], 3⟩)
              + coefficient_at ⟨[1, 2, 1], 3⟩ (i + get_lambda ⟨[1, 2, 1], 3⟩ + 1))
          - coefficient_at ⟨[5, 1, 1, 5], 1⟩ (i + 1) :=
  ⟨by decide, by decide, by decide,
    formally_symmetric_of_range ⟨[5, 1, 1, 5], 1⟩ 4 (by decide) (by decide),
    formally_symmetric_of_range ⟨[1, 2, 1], 3⟩ 3 (by decide) (by decide),
    C10_do_recurence_formula_at_every_index fmpq_zero ⟨[5, 1, 1, 5], 1⟩ ⟨[1, 2, 1], 3⟩
      ⟨12, 1⟩ ⟨4, 3⟩ 2 (by decide) (by decide) (by decide)
      (formally_symmetric_of_range ⟨[5, 1, 1, 5], 1⟩ 4 (by decide) (by decide))
      (formally_symmetric_of_range ⟨[1, 2, 1], 3⟩ 3 (by decide) (by decide))⟩

/-! ## Canonical form -/

theorem well_formed_of_canonical (p : fmpq_poly) (h : canonical p) : well_formed p :=
  ⟨h.1, h.2.1.ne'⟩

theorem content_eq_foldr_natAbs (cs : List Int) :
    content cs = (cs.map Int.natAbs).foldr Nat.gcd 0 := by
  induction cs with
  | nil => rfl
  | cons c cs ih =>
    show Int.gcd c (content cs : Int) = Nat.gcd c.natAbs ((cs.map Int.natAbs).foldr Nat.gcd 0)
    rw [← ih]
    simp [Int.gcd]

theorem natAbs_ediv_of_dvd (c g : Int) (h : g ∣ c) : (c / g).natAbs = c.natAbs / g.natAbs := by
  by_cases hg : g = 0
  · subst hg; simp
  · obtain ⟨t, rfl⟩ := h
    rw [Int.mul_ediv_cancel_left _ hg, Int.natAbs_mul,
      Nat.mul_div_cancel_left _ (Int.natAbs_pos.mpr hg)]

theorem content_map_ediv (cs : List Int) (g : Int) (h : ∀ c ∈ cs, g ∣ c) :
    content (cs.map (fun c => c / g)) = content cs / g.natAbs := by
  induction cs with
  | nil => simp [content]
  | cons c cs ih =>
    have hc : g ∣ c := h c (List.mem_cons_self _ _)
    have hcs : ∀ x ∈ cs, g ∣ x := fun x hx => h x (List.mem_cons_of_mem _ hx)
    have hcont : (g.natAbs : Nat) ∣ content cs := by
      rw [content_eq_foldr_natAbs]
      clear ih h hc
      induction cs with
      | nil => simp
      | cons a as ih2 =>
        simp only [List.map_cons, List.foldr_cons]
        exact Nat.dvd_gcd (Int.natAbs_dvd_natAbs.mpr (hcs a (List.mem_cons_self _ _)))
          (ih2 (fun x hx => hcs x (List.mem_cons_of_mem _ hx)))
    show Int.gcd (c / g) (content (cs.map (fun c => c / g)) : Int)
      = Int.gcd c (content cs : Int) / g.natAbs
    rw [ih hcs]
    simp only [Int.gcd, Int.natAbs_ofNat]
    rw [natAbs_ediv_of_dvd c g hc]
    exact Nat.gcd_div (Int.natAbs_dvd_natAbs.mpr hc) hcont

theorem content_map_neg (cs : List Int) : content (cs.map (fun c => -c)) = content cs := by
  induction cs with
  | nil => rfl
  | cons c cs ih =>
    show Int.gcd (-c) (content (cs.map (fun c => -c)) : Int) = Int.gcd c (content cs : Int)
    rw [ih]
    simp [Int.gcd]

theorem content_nil : content [] = 0 := rfl

/-- The output of `fmpq_poly_canonicalise` is in canonical form. -/
theorem canonical_canonicalise (p : fmpq_poly) (hden : p.den ≠ 0) :
    canonical (fmpq_poly_canonicalise p) := by
  have hwf := well_formed_canonicalise p hden
  have hpos := den_pos_canonicalise p hden
  refine ⟨hwf.1, hpos, ?_⟩
  unfold fmpq_poly_canonicalise
  by_cases h1 : p.den = 1
  · simp [h1]
  by_cases h2 : p.den = -1
  · simp [h2]
  by_cases h3 : normalise p.coeffs = []
  · simp [h1, h2, h3, content_nil]
  simp only [if_neg h1, if_neg h2, if_neg h3]
  have hg0 : Int.gcd (content (normalise p.coeffs) : Int) p.den ≠ 0 := by
    intro h
    rw [Int.gcd_eq_zero_iff] at h
    exact hden h.2
  have hdvd_c : ∀ c ∈ normalise p.coeffs,
      (Int.gcd (content (normalise p.coeffs) : Int) p.den : Int) ∣ c :=
    fun c hc => dvd_trans Int.gcd_dvd_left (content_dvd _ c hc)
  have hkey : ∀ g : Int, g.natAbs = Int.gcd (content (normalise p.coeffs) : Int) p.den →
      Int.gcd (content ((normalise p.coeffs).map (fun c => c / g)) : Int) (p.den / g) = 1 := by
    intro g hg
    have hgc : ∀ c ∈ normalise p.coeffs, g ∣ c := by
      intro c hc
      have := hdvd_c c hc
      rw [← hg] at this
      exact Int.natAbs_dvd.mp this
    have hgd : g ∣ p.den := by
      have : ((Int.gcd (content (normalise p.coeffs) : Int) p.den : Nat) : Int) ∣ p.den :=
        Int.gcd_dvd_right
      rw [← hg] at this
      exact Int.natAbs_dvd.mp this
    rw [content_map_ediv _ g hgc]
    have hcd : (g.natAbs : Nat) ∣ content (normalise p.coeffs) := by
      rw [hg]
      have : ((Int.gcd (content (normalise p.coeffs) : Int) p.den : Nat) : Int)
          ∣ (content (normalise p.coeffs) : Int) := Int.gcd_dvd_left
      exact_mod_cast this
    simp only [Int.gcd, Int.natAbs_ofNat]
    rw [natAbs_ediv_of_dvd p.den g hgd, Nat.gcd_div hcd (Int.natAbs_dvd_natAbs.mpr hgd)]
    have : Nat.gcd (content (normalise p.coeffs)) p.den.natAbs = g.natAbs := by
      rw [hg]; simp [Int.gcd]
    rw [this]
    exact Nat.div_self (by rw [hg]; exact Nat.pos_of_ne_zero hg0)
  by_cases hneg : p.den < 0
  · simp only [if_pos hneg]
    exact hkey _ (by simp)
  · simp only [if_neg hneg]
    exact hkey _ (by simp)

theorem canonical_zero : canonical fmpq_poly_zero := by decide

theorem canonical_neg (p : fmpq_poly) (h : canonical p) : canonical (fmpq_poly_neg p) := by
  obtain ⟨h1, h2, h3⟩ := h
  refine ⟨?_, h2, ?_⟩
  · unfold fmpq_poly_neg
    simp only [List.getLast?_map]
    cases hl : p.coeffs.getLast? with
    | none => simp
    | some v =>
      rw [hl] at h1
      simp only [Option.map_some', ne_eq, Option.some.injEq, neg_eq_zero]
      intro hv
      exact h1 (by rw [hv])
  · unfold fmpq_poly_neg
    simp only [content_map_neg]
    exact h3

theorem canonical_shift (c : List Int) (d : Int) (hd : d ≠ 0) :
    canonical (fmpq_poly_canonicalise (fmpq_poly_shift_right ⟨c, d⟩ 1)) := by
  unfold fmpq_poly_shift_right
  rw [if_neg (by decide : ¬ (1 : Nat) = 0)]
  split
  · rw [show fmpq_poly_zero = ⟨[], 1⟩ from rfl, canonicalise_nil]
    exact canonical_zero
  · exact canonical_canonicalise _ (den_pos_canonicalise _ hd).ne'

/-- The output of `div_x_minus_1_asym` is in canonical form whenever the
denominator of its input is not zero. -/
theorem canonical_div_x_minus_1_asym (p : fmpq_poly) (hd : p.den ≠ 0) :
    canonical (div_x_minus_1_asym p) := by
  unfold div_x_minus_1_asym
  exact canonical_shift _ _ hd

theorem canonical_add (p q : fmpq_poly) (hp : p.den ≠ 0) (hq : q.den ≠ 0) :
    canonical (fmpq_poly_add p q) :=
  canonical_canonicalise _ (mul_ne_zero hp hq)

theorem canonical_sub (p q : fmpq_poly) (hp : p.den ≠ 0) (hq : q.den ≠ 0) :
    canonical (fmpq_poly_sub p q) :=
  canonical_canonicalise _ (mul_ne_zero hp hq)

theorem canonical_derivative (p : fmpq_poly) (hp : p.den ≠ 0) :
    canonical (fmpq_poly_derivative p) :=
  canonical_canonicalise _ hp

theorem canonical_rule_init (D : fmpq_poly) (hd : D.den ≠ 0) :
    canonical (rule_init D).1 ∧ canonical (rule_init D).2.1 := by
  have hr := (reverse_spec D hd).1
  exact ⟨canonical_add _ _ hr.2 hd, canonical_div_x_minus_1_asym _ (well_formed_sub _ _ hd hr.2).2⟩

theorem canonical_do_recurence (delta0 : fmpq) (cn : Int) (T1 T2 : fmpq_poly)
    (sigma1 sigma2 : fmpq) (fl : Int) (h1 : well_formed T1) (h2 : well_formed T2) :
    canonical (do_recurence delta0 cn T1 T2 sigma1 sigma2 fl).1 := by
  unfold do_recurence
  split
  · exact canonical_zero
  · exact canonical_canonicalise _
      (mul_ne_zero (mul_ne_zero (get_delta_den_ne_zero T1 T2 h1 h2) h2.2) h1.2)

/-! ## Idempotence and canonical form of the results -/

/-- A pass of the loop of `clear_x_minus_1` on a polynomial that does not vanish at
`1` stops and leaves it unchanged. -/
theorem clear_loop_stop (Q : fmpq_poly) (hval : eval_at_1 Q ≠ 0)
    (f : Nat) (count : Int) : clear_loop (f + 1) count Q Q = some (count, Q) := by
  obtain ⟨_, h1b, _⟩ := horner_down Q.coeffs 0 (le_refl _)
  have h0 : rd (for_down ((Q.coeffs.length : Int) - 1 - 1) 0
      (fun i c => wr c i (rd c i + rd c (i + 1))) Q.coeffs) 0 ≠ 0 := by
    rw [h1b 0 (le_refl _), ← list_sum_eq_range_sum]
    intro hs
    apply hval
    rw [eval_at_1_eq, hs]
    simp
  rw [clear_loop]
  simp only [fmpq_poly_degree]
  rw [if_neg h0]

theorem clear_x_minus_1_stop (Q : fmpq_poly)
    (hval : Q.coeffs ≠ [] → eval_at_1 Q ≠ 0) : clear_x_minus_1 Q = some (0, Q) := by
  unfold clear_x_minus_1 clear_x_minus_1_fuel fmpq_poly_length
  by_cases hne : Q.coeffs = []
  · simp [hne]
  · have hpos : 0 < Q.coeffs.length := List.length_pos.mpr hne
    rw [if_pos (by omega)]
    exact clear_loop_stop Q (hval hne) _ 0

/-- Claim C13. `clear_x_minus_1` is idempotent: for every polynomial `P` (top
numerator and denominator not zero) it returns some `(m, Q)`, and applied to that
`Q` it returns multiplicity `0` and `Q` unchanged. -/
theorem C13_clear_x_minus_1_idempotent (P : fmpq_poly) (hwf : well_formed P) :
    ∃ (m : Int) (Q : fmpq_poly),
      clear_x_minus_1 P = some (m, Q) ∧ clear_x_minus_1 Q = some (0, Q) := by
  by_cases hne : P.coeffs = []
  · have h := clear_x_minus_1_stop P (fun h => absurd hne h)
    exact ⟨0, P, h, h⟩
  · obtain ⟨m, Q, _, _, _, _, hval, _, hloop⟩ :=
      clear_loop_spec P.coeffs.length P hwf hne (le_refl _)
    have hpos : 0 < P.coeffs.length := List.length_pos.mpr hne
    refine ⟨m, Q, ?_, clear_x_minus_1_stop Q (fun _ => hval)⟩
    unfold clear_x_minus_1 clear_x_minus_1_fuel fmpq_poly_length
    rw [if_pos (by omega), hloop _ 0 (by omega)]
    simp

/-- Instance of `C13_clear_x_minus_1_idempotent` on `(-1 + 3x - 3x^2 + x^3) / 2`. -/
theorem C13_clear_x_minus_1_idempotent_witness :
    well_formed ⟨[-1, 3, -3, 1], 2⟩ ∧
    ∃ (m : Int) (Q : fmpq_poly),
      clear_x_minus_1 ⟨[-1, 3, -3, 1], 2⟩ = some (m, Q) ∧ clear_x_minus_1 Q = some (0, Q) :=
  ⟨by decide, C13_clear_x_minus_1_idempotent ⟨[-1, 3, -3, 1], 2⟩ (by decide)⟩

/-- The loop of `clear_x_minus_1` keeps the canonical form. -/
theorem clear_loop_canonical (n : Nat) : ∀ (P : fmpq_poly), canonical P → P.coeffs ≠ [] →
    P.coeffs.length ≤ n → ∀ (fuel : Nat) (count : Int), P.coeffs.length ≤ fuel →
    ∃ (m : Int) (Q : fmpq_poly), clear_loop fuel count P P = some (m, Q) ∧ canonical Q := by
  induction n with
  | zero =>
    intro P _ hne hlen
    exact absurd (List.length_eq_zero.mp (by omega)) hne
  | succ n ih =>
    intro P hcan hne hlen fuel count hfuel
    obtain ⟨cs, d⟩ := P
    have hwf := well_formed_of_canonical _ hcan
    obtain ⟨hl, hd⟩ := hwf
    simp only at hl hd hne hlen hfuel
    have hpos : 0 < cs.length := List.length_pos.mpr hne
    obtain ⟨f, rfl⟩ : ∃ f, fuel = f + 1 := ⟨fuel - 1, by omega⟩
    obtain ⟨h1a, h1b, _⟩ := horner_down cs 0 (le_refl _)
    rw [clear_loop]
    simp only [fmpq_poly_degree]
    by_cases h0 : rd (for_down ((cs.length : Int) - 1 - 1) 0
        (fun i c => wr c i (rd c i + rd c (i + 1))) cs) 0 = 0
    · rw [if_pos h0]
      obtain ⟨_, hlen', hne', _⟩ := clear_pass cs d hl hne hd _ h1a h1b h0
      exact ih _ (canonical_shift _ d hd) hne' (by omega) f (count + 1) (by omega)
    · rw [if_neg h0]
      exact ⟨count, ⟨cs, d⟩, rfl, hcan⟩

theorem clear_x_minus_1_canonical (P : fmpq_poly) (hcan : canonical P) :
    ∃ (m : Int) (Q : fmpq_poly), clear_x_minus_1 P = some (m, Q) ∧ canonical Q := by
  unfold clear_x_minus_1 clear_x_minus_1_fuel fmpq_poly_length
  by_cases hne : P.coeffs = []
  · exact ⟨0, P, by simp [hne], hcan⟩
  · have hpos : 0 < P.coeffs.length := List.length_pos.mpr hne
    rw [if_pos (by omega)]
    exact clear_loop_canonical _ P hcan hne (le_refl _) _ 0 (by omega)

theorem canonical_do_singular (T1 : fmpq_poly) (sigma1 : fmpq) (h1 : T1.den ≠ 0) :
    canonical (do_singular T1 sigma1).1 ∧ canonical (do_singular T1 sigma1).2.1 ∧
      canonical (do_singular T1 sigma1).2.2.1 := by
  have hd := canonical_derivative T1 h1
  have hr := canonical_rule_init (fmpq_poly_derivative T1) hd.2.1.ne'
  exact ⟨hd, canonical_neg _ hr.1, hr.2⟩

/-- Claim C14. Canonical form is preserved: for canonical inputs `P`, `T1`, `T2`, the
polynomials produced by `clear_x_minus_1`, `div_x_minus_1_asym`, `rule_init`,
`do_singular` and `do_recurence` are canonical, that is, empty or with a non-zero
top numerator, and with a positive denominator coprime with the gcd of the
numerators. -/
theorem C14_canonical_form_preserved (P T1 T2 : fmpq_poly) (delta0 sigma1 sigma2 : fmpq)
    (flength : Int) (hP : canonical P) (hT1 : canonical T1) (hT2 : canonical T2) :
    (∃ (m : Int) (Q : fmpq_poly), clear_x_minus_1 P = some (m, Q) ∧ canonical Q) ∧
    canonical (div_x_minus_1_asym P) ∧
    canonical (rule_init P).1 ∧ canonical (rule_init P).2.1 ∧
    canonical (do_singular T1 sigma1).1 ∧ canonical (do_singular T1 sigma1).2.1 ∧
    canonical (do_singular T1 sigma1).2.2.1 ∧
    canonical (do_recurence delta0 0 T1 T2 sigma1 sigma2 flength).1 := by
  have hPd : P.den ≠ 0 := hP.2.1.ne'
  have hT1d : T1.den ≠ 0 := hT1.2.1.ne'
  obtain ⟨s1, s2, s3⟩ := canonical_do_singular T1 sigma1 hT1d
  exact ⟨clear_x_minus_1_canonical P hP, canonical_div_x_minus_1_asym P hPd,
    (canonical_rule_init P hPd).1, (canonical_rule_init P hPd).2, s1, s2, s3,
    canonical_do_recurence delta0 0 T1 T2 sigma1 sigma2 flength
      (well_formed_of_canonical _ hT1) (well_formed_of_canonical _ hT2)⟩

/-- Instance of `C14_canonical_form_preserved` on `P = (1 - 3x + 2x^2) / 5`,
`T1 = 5 + x + x^2 + 5x^3`, `T2 = (1 + 2x + x^2) / 3` and `flength = 2`. -/
theorem C14_canonical_form_preserved_witness :
    canonical ⟨[1, -3, 2], 5⟩ ∧ canonical ⟨[5, 1, 1, 5], 1⟩ ∧ canonical ⟨[1, 2, 1], 3⟩ ∧
    ((∃ (m : Int) (Q : fmpq_poly),
        clear_x_minus_1 ⟨[1, -3, 2], 5⟩ = some (m, Q) ∧ canonical Q) ∧
    canonical (div_x_minus_1_asym ⟨[1, -3, 2], 5⟩) ∧
    canonical (rule_init ⟨[1, -3, 2], 5⟩).1 ∧ canonical (rule_init ⟨[1, -3, 2], 5⟩).2.1 ∧
    canonical (do_singular ⟨[5, 1, 1, 5], 1⟩ ⟨12, 1⟩).1 ∧
    canonical (do_singular ⟨[5, 1, 1, 5], 1⟩ ⟨12, 1⟩).2.1 ∧
    canonical (do_singular ⟨[5, 1, 1, 5], 1⟩ ⟨12, 1⟩).2.2.1 ∧
    canonical (do_recurence fmpq_zero 0 ⟨[5, 1, 1, 5], 1⟩ ⟨[1, 2, 1], 3⟩ ⟨12, 1⟩ ⟨4, 3⟩ 2).1) :=
  ⟨by decide, by decide, by decide,
    C14_canonical_form_preserved ⟨[1, -3, 2], 5⟩ ⟨[5, 1, 1, 5], 1⟩ ⟨[1, 2, 1], 3⟩ fmpq_zero
      ⟨12, 1⟩ ⟨4, 3⟩ 2 (by decide) (by decide) (by decide)⟩

/-! ## `do_singular` -/

theorem rd_tail (cs : List Int) (j : Int) (hj : 0 ≤ j) : rd cs.tail j = rd cs (j + 1) := by
  cases cs with
  | nil => simp [rd_nil]
  | cons c cs => rw [List.tail_cons, rd_cons_succ c cs hj]

theorem rd_derivative_from (k : Nat) (cs : List Int) (j : Int) (hj : 0 ≤ j) :
    rd (derivative_from k cs) j = ((k : Int) + j) * rd cs j := by
  induction cs generalizing k j with
  | nil => simp [derivative_from, rd_nil]
  | cons c cs ih =>
    simp only [derivative_from]
    by_cases h0 : j = 0
    · subst h0; simp [rd_cons_zero]
    · rw [rd_cons_pos _ _ (by omega), rd_cons_pos _ _ (by omega), ih (k + 1) (j - 1) (by omega)]
      push_cast
      ring_nf

/-- The coefficients of the formal derivative. -/
theorem coefficient_at_derivative (p : fmpq_poly) (hd : p.den ≠ 0) (k : Int) :
    coefficient_at (fmpq_poly_derivative p) k
      = if 0 ≤ k then ((k : ℚ) + 1) * coefficient_at p (k + 1) else 0 := by
  unfold fmpq_poly_derivative
  rw [coefficient_at_canonicalise ⟨derivative_from 1 p.coeffs.tail, p.den⟩ hd, coefficient_at_eq,
    coefficient_at_eq]
  simp only
  by_cases hk : 0 ≤ k
  · rw [if_pos hk, rd_derivative_from 1 _ k hk, rd_tail _ k hk]
    push_cast
    ring
  · rw [if_neg hk, rd_neg _ (by omega)]
    simp

theorem coefficient_at_neg (p : fmpq_poly) (k : Int) :
    coefficient_at (fmpq_poly_neg p) k = -coefficient_at p k := by
  rw [coefficient_at_eq, coefficient_at_eq]
  unfold fmpq_poly_neg
  simp only
  rw [rd_map _ (by simp)]
  push_cast
  ring

theorem eval_at_1_neg (p : fmpq_poly) : eval_at_1 (fmpq_poly_neg p) = -eval_at_1 p := by
  rw [eval_at_1_eq, eval_at_1_eq]
  unfold fmpq_poly_neg
  simp only
  have : (p.coeffs.map (fun c => -c)).sum = -p.coeffs.sum := by
    induction p.coeffs with
    | nil => simp
    | cons c cs ih => simp only [List.map_cons, List.sum_cons, ih]; ring
  rw [this]
  push_cast
  ring

theorem well_formed_neg (p : fmpq_poly) (h : well_formed p) : well_formed (fmpq_poly_neg p) := by
  refine ⟨?_, h.2⟩
  unfold fmpq_poly_neg
  simp only [List.getLast?_map]
  cases hl : p.coeffs.getLast? with
  | none => simp
  | some v =>
    have h1 := h.1
    rw [hl] at h1
    simp only [Option.map_some', ne_eq, Option.some.injEq, neg_eq_zero]
    intro hv
    exact h1 (by rw [hv])

theorem length_neg (p : fmpq_poly) : (fmpq_poly_neg p).coeffs.length = p.coeffs.length := by
  simp [fmpq_poly_neg]

theorem well_formed_derivative (p : fmpq_poly) (hd : p.den ≠ 0) :
    well_formed (fmpq_poly_derivative p) :=
  well_formed_canonicalise _ hd

/-- Claim C12. For every `T1` (denominator not zero), `do_singular` replaces `T1` by
its formal derivative `D'` and returns the output of `rule_init(D')` with `T2'` and
`sigma2'` negated and `T3'`, `sigma3'` not negated: `T2' = -(D'* + D')`,
`(x - 1) * T3' = D' - D'*`, `sigma2' = -(D'* + D')(1)`, `sigma3' = T3'(1)`;
`sigma1` is left unchanged. -/
theorem C12_do_singular_reinitialises_from_derivative (T1 : fmpq_poly) (sigma1 : fmpq)
    (hden : T1.den ≠ 0) :
    do_singular T1 sigma1
      = (fmpq_poly_derivative T1, fmpq_poly_neg (rule_init (fmpq_poly_derivative T1)).1,
          (rule_init (fmpq_poly_derivative T1)).2.1, sigma1,
          fmpq_neg (rule_init (fmpq_poly_derivative T1)).2.2.1,
          (rule_init (fmpq_poly_derivative T1)).2.2.2) ∧
    (∀ k : Int, coefficient_at (do_singular T1 sigma1).1 k
      = if 0 ≤ k then ((k : ℚ) + 1) * coefficient_at T1 (k + 1) else 0) ∧
    (∀ k : Int, coefficient_at (do_singular T1 sigma1).2.1 k
      = -(coefficient_at (do_singular T1 sigma1).1
            (((do_singular T1 sigma1).1.coeffs.length : Int) - 1 - k)
          + coefficient_at (do_singular T1 sigma1).1 k)) ∧
    (∀ k : Int, mul_x_minus_1 (coefficient_at (do_singular T1 sigma1).2.2.1) k
      = coefficient_at (do_singular T1 sigma1).1 k
        - coefficient_at (do_singular T1 sigma1).1
            (((do_singular T1 sigma1).1.coeffs.length : Int) - 1 - k)) ∧
    (do_singular T1 sigma1).2.2.2.1 = sigma1 ∧
    (do_singular T1 sigma1).2.2.2.2.1.toRat = eval_at_1 (do_singular T1 sigma1).2.1 ∧
    (do_singular T1 sigma1).2.2.2.2.1.toRat
      = -eval_at_1 (rule_init (fmpq_poly_derivative T1)).1 ∧
    (do_singular T1 sigma1).2.2.2.2.2.toRat = eval_at_1 (do_singular T1 sigma1).2.2.1 := by
  have hwf := well_formed_derivative T1 hden
  obtain ⟨_, _, h1, h2, _, _, _, h3, h4⟩ := rule_init_spec (fmpq_poly_derivative T1) hwf
  have hS1 : (do_singular T1 sigma1).1 = fmpq_poly_derivative T1 := rfl
  have hS2 : (do_singular T1 sigma1).2.1
      = fmpq_poly_neg (rule_init (fmpq_poly_derivative T1)).1 := rfl
  have hS3 : (do_singular T1 sigma1).2.2.1 = (rule_init (fmpq_poly_derivative T1)).2.1 := rfl
  have hS5 : (do_singular T1 sigma1).2.2.2.2.1
      = fmpq_neg (rule_init (fmpq_poly_derivative T1)).2.2.1 := rfl
  have hS6 : (do_singular T1 sigma1).2.2.2.2.2
      = (rule_init (fmpq_poly_derivative T1)).2.2.2 := rfl
  refine ⟨rfl, ?_, ?_, ?_, rfl, ?_, ?_, ?_⟩
  · intro k
    rw [hS1]
    exact coefficient_at_derivative T1 hden k
  · intro k
    rw [hS2, hS1, coefficient_at_neg, h1]
  · intro k
    rw [hS3, hS1]
    exact h2 k
  · rw [hS5, hS2, toRat_neg, eval_at_1_neg, h3]
  · rw [hS5, toRat_neg, h3]
  · rw [hS6, hS3]
    exact h4

/-- Instance of `C12_do_singular_reinitialises_from_derivative` on
`T1 = (1 + x^2) / 3` with `sigma1 = 2 / 3`. -/
theorem C12_do_singular_reinitialises_from_derivative_witness :
    (⟨[1, 0, 1], 3⟩ : fmpq_poly).den ≠ 0 ∧
    (do_singular ⟨[1, 0, 1], 3⟩ ⟨2, 3⟩
      = (fmpq_poly_derivative ⟨[1, 0, 1], 3⟩, fmpq_poly_neg (rule_init (fmpq_poly_derivative ⟨[1, 0, 1], 3⟩)).1,
          (rule_init (fmpq_poly_derivative ⟨[1, 0, 1], 3⟩)).2.1, ⟨2, 3⟩,
          fmpq_neg (rule_init (fmpq_poly_derivative ⟨[1, 0, 1], 3⟩)).2.2.1,
          (rule_init (fmpq_poly_derivative ⟨[1, 0, 1], 3⟩)).2.2.2) ∧
    (∀ k : Int, coefficient_at (do_singular ⟨[1, 0, 1], 3⟩ ⟨2, 3⟩).1 k
      = if 0 ≤ k then ((k : ℚ) + 1) * coefficient_at ⟨[1, 0, 1], 3⟩ (k + 1) else 0) ∧
    (∀ k : Int, coefficient_at (do_singular ⟨[1, 0, 1], 3⟩ ⟨2, 3⟩).2.1 k
      = -(coefficient_at (do_singular ⟨[1, 0, 1], 3⟩ ⟨2, 3⟩).1
            (((do_singular ⟨[1, 0, 1], 3⟩ ⟨2, 3⟩).1.coeffs.length : Int) - 1 - k)
          + coefficient_at (do_singular ⟨[1, 0, 1], 3⟩ ⟨2, 3⟩).1 k)) ∧
    (∀ k : Int, mul_x_minus_1 (coefficient_at (do_singular ⟨[1, 0, 1], 3⟩ ⟨2, 3⟩).2.2.1) k
      = coefficient_at (do_singular ⟨[1, 0, 1], 3⟩ ⟨2, 3⟩).1 k
        - coefficient_at (do_singular ⟨[1, 0, 1], 3⟩ ⟨2, 3⟩).1
            (((do_singular ⟨[1, 0, 1], 3⟩ ⟨2, 3⟩).1.coeffs.length : Int) - 1 - k)) ∧
    (do_singular ⟨[1, 0, 1], 3⟩ ⟨2, 3⟩).2.2.2.1 = ⟨2, 3⟩ ∧
    (do_singular ⟨[1, 0, 1], 3⟩ ⟨2, 3⟩).2.2.2.2.1.toRat = eval_at_1 (do_singular ⟨[1, 0, 1], 3⟩ ⟨2, 3⟩).2.1 ∧
    (do_singular ⟨[1, 0, 1], 3⟩ ⟨2, 3⟩).2.2.2.2.1.toRat
      = -eval_at_1 (rule_init (fmpq_poly_derivative ⟨[1, 0, 1], 3⟩)).1 ∧
    (do_singular ⟨[1, 0, 1], 3⟩ ⟨2, 3⟩).2.2.2.2.2.toRat = eval_at_1 (do_singular ⟨[1, 0, 1], 3⟩ ⟨2, 3⟩).2.2.1) :=
  ⟨by decide,
    C12_do_singular_reinitialises_from_derivative ⟨[1, 0, 1], 3⟩ ⟨2, 3⟩ (by decide)⟩

/-! ## Values at `x = 1` -/

theorem sum_normalise (cs : List Int) : (normalise cs).sum = cs.sum := by
  induction cs with
  | nil => rfl
  | cons c cs ih =>
    simp only [normalise]
    cases h : normalise cs with
    | nil =>
      rw [h] at ih
      simp only [List.sum_nil] at ih
      by_cases hc : c = 0
      · simp [hc, ← ih]
      · simp [hc, ← ih]
    | cons d ds =>
      rw [h] at ih
      simp only [List.sum_cons] at ih ⊢
      rw [ih]

theorem sum_map_ediv (cs : List Int) (g : Int) (h : ∀ c ∈ cs, g ∣ c) :
    (cs.map (fun c => c / g)).sum * g = cs.sum := by
  induction cs with
  | nil => simp
  | cons c cs ih =>
    simp only [List.map_cons, List.sum_cons, add_mul]
    rw [ih (fun x hx => h x (List.mem_cons_of_mem _ hx)),
      Int.ediv_mul_cancel (h c (List.mem_cons_self _ _))]

/-- Canonicalisation does not change the value at `x = 1`. -/
theorem eval_at_1_canonicalise (p : fmpq_poly) (hden : p.den ≠ 0) :
    eval_at_1 (fmpq_poly_canonicalise p) = eval_at_1 p := by
  obtain ⟨g, hg, hgd, hgc, hcs, hd, _⟩ := canonicalise_spec p hden
  rw [eval_at_1_eq, eval_at_1_eq, hcs, hd]
  have hs := sum_map_ediv (normalise p.coeffs) g hgc
  rw [sum_normalise] at hs
  have hgq : (g : ℚ) ≠ 0 := by exact_mod_cast hg
  have hdq : (p.den : ℚ) ≠ 0 := by exact_mod_cast hden
  rw [Int.cast_div hgd hgq, ← hs]
  push_cast
  field_simp

theorem eval_at_1_zero : eval_at_1 fmpq_poly_zero = 0 := by
  simp [eval_at_1, rat_coeffs, fmpq_poly_zero]

/-! ## More on sums over index ranges -/

theorem range_sum_shift (f : Int → Int) (m a b : Int) :
    range_sum (fun i => f (i + m)) a b = range_sum f (a + m) (b + m) := by
  unfold range_sum
  rw [isum_shift]
  congr 1
  omega

theorem range_sum_lin (f g : Int → Int) (N M a b : Int) :
    range_sum (fun i => f i * N - M * g i) a b = range_sum f a b * N - M * range_sum g a b := by
  by_cases hle : b ≤ a
  · rw [range_sum_empty _ hle, range_sum_empty _ hle, range_sum_empty _ hle]; ring
  · have : ∀ n : Nat, range_sum (fun i => f i * N - M * g i) a (a + n)
        = range_sum f a (a + n) * N - M * range_sum g a (a + n) := by
      intro n
      induction n with
      | zero => simp [range_sum_empty]
      | succ n ih =>
        have e : a + ((n + 1 : Nat) : Int) = a + n + 1 := by push_cast; ring
        rw [e, range_sum_succ_top _ (by omega), range_sum_succ_top _ (by omega),
          range_sum_succ_top _ (by omega), ih]
        ring
    have := this (b - a).toNat
    have e : a + ((b - a).toNat : Int) = b := by omega
    rwa [e] at this

theorem range_sum_add (f g : Int → Int) (a b : Int) :
    range_sum (fun i => f i + g i) a b = range_sum f a b + range_sum g a b := by
  by_cases hle : b ≤ a
  · rw [range_sum_empty _ hle, range_sum_empty _ hle, range_sum_empty _ hle]; ring
  · have : ∀ n : Nat, range_sum (fun i => f i + g i) a (a + n)
        = range_sum f a (a + n) + range_sum g a (a + n) := by
      intro n
      induction n with
      | zero => simp [range_sum_empty]
      | succ n ih =>
        have e : a + ((n + 1 : Nat) : Int) = a + n + 1 := by push_cast; ring
        rw [e, range_sum_succ_top _ (by omega), range_sum_succ_top _ (by omega),
          range_sum_succ_top _ (by omega), ih]
        ring
    have := this (b - a).toNat
    have e : a + ((b - a).toNat : Int) = b := by omega
    rwa [e] at this

/-- The sum of the numerators, taken over any index range that covers the array. -/
theorem list_sum_eq_range_sum_of_le (cs : List Int) (n : Int) (h : (cs.length : Int) ≤ n) :
    cs.sum = range_sum (rd cs) 0 n := by
  rw [list_sum_eq_range_sum, range_sum_split (rd cs) (a := 0) (m := cs.length) (b := n)
    (by omega) h, range_sum_of_length_le cs _ (le_refl _)]
  ring

/-- The sum of a symmetric sequence without its two end terms. -/
theorem symm_inner_sum (t : Int → Int) (n : Int) (hn : 0 ≤ n) (hs : ∀ k, t k = t (n + 1 - k)) :
    range_sum t 1 (n + 1) = range_sum t 0 (n + 2) - 2 * t 0 := by
  have h1 := range_sum_succ_top t (a := 0) (b := n + 1) (by omega)
  have h2 := range_sum_succ_bot t (a := 0) (b := n + 1) (by omega)
  have h3 := hs (n + 1)
  have e2 : n + 1 - (n + 1) = 0 := by ring
  have e3 : n + 1 + 1 = n + 2 := by ring
  rw [e2] at h3
  rw [e3] at h1
  simp only [zero_add] at h2
  omega

/-- The sum of a symmetric sequence with `lam` leading zeros, without its top
non-zero term: the lower window. -/
theorem symm_lower_window (t : Int → Int) (n lam : Int) (h0 : 0 ≤ lam) (h1 : lam ≤ n)
    (hz : ∀ j, j < lam → t j = 0) (hs : ∀ k, t k = t (n - k)) :
    range_sum (fun i => t (i - lam)) 0 n = range_sum t 0 (n + 1) - t lam := by
  have hsh := range_sum_shift t (-lam) 0 n
  have e : (fun i => t (i + -lam)) = (fun i => t (i - lam)) := by
    funext i; congr 1
  rw [e] at hsh
  rw [hsh]
  have e1 : (0 : Int) + -lam = -lam := by ring
  have e2 : n + -lam = n - lam := by ring
  rw [e1, e2, range_sum_split t (a := -lam) (m := 0) (b := n - lam) (by omega) (by omega),
    range_sum_eq_zero t (-lam) 0 (fun k _ hk => hz k (by omega)), zero_add,
    range_sum_split t (a := 0) (m := n - lam) (b := n + 1) (by omega) (by omega)]
  have hc : range_sum t (n - lam) (n + 1) = range_sum (fun k => t (n - k)) (n - lam) (n + 1) :=
    range_sum_congr _ _ _ _ (fun k _ _ => hs k)
  rw [hc, range_sum_reflect]
  have e3 : n - (n + 1) + 1 = 0 := by ring
  have e4 : n - (n - lam) + 1 = lam + 1 := by ring
  rw [e3, e4, range_sum_succ_top t h0, range_sum_eq_zero t 0 lam (fun k _ hk => hz k hk)]
  ring

/-- The upper window of the same sequence. -/
theorem symm_upper_window (t : Int → Int) (n lam : Int) (h0 : 0 ≤ lam) (h1 : lam ≤ n)
    (hz : ∀ j, j < lam → t j = 0) (hhi : ∀ j, n < j → t j = 0) :
    range_sum (fun i => t (i + lam + 1)) 0 n = range_sum t 0 (n + 1) - t lam := by
  have hsh := range_sum_shift t (lam + 1) 0 n
  have e : (fun i => t (i + (lam + 1))) = (fun i => t (i + lam + 1)) := by
    funext i; congr 1; ring
  rw [e] at hsh
  rw [hsh]
  have e1 : (0 : Int) + (lam + 1) = lam + 1 := by ring
  rw [e1, range_sum_split t (a := lam + 1) (m := n + 1) (b := n + (lam + 1)) (by omega)
    (by omega), range_sum_eq_zero t (n + 1) (n + (lam + 1)) (fun k hk _ => hhi k (by omega)),
    add_zero, range_sum_split t (a := 0) (m := lam + 1) (b := n + 1) (by omega) (by omega),
    range_sum_succ_top t h0, range_sum_eq_zero t 0 lam (fun k _ hk => hz k hk)]
  ring

/-! ## `do_recurence`: the value at `x = 1` and the symmetry of the result -/

/-- What `get_lambda` returns, for the empty array too: a non-negative index below
which every numerator is zero. -/
theorem get_lambda_low (p : fmpq_poly) (hl : p.coeffs.getLast? ≠ some 0) :
    0 ≤ get_lambda p ∧ get_lambda p ≤ p.coeffs.length ∧
      (∀ j, j < get_lambda p → rd p.coeffs j = 0) ∧
      (p.coeffs ≠ [] → get_lambda p < p.coeffs.length ∧ rd p.coeffs (get_lambda p) ≠ 0) := by
  by_cases hne : p.coeffs = []
  · have : get_lambda p = 0 := by unfold get_lambda; rw [hne]; rfl
    rw [this]
    refine ⟨le_refl _, by omega, fun j hj => rd_neg _ hj, fun h => absurd hne h⟩
  · obtain ⟨z, hlam, hz, hz0, hz1⟩ := get_lambda_spec p hl hne
    rw [hlam]
    refine ⟨by omega, by omega, ?_, fun _ => ⟨by omega, hz1⟩⟩
    intro j hj
    by_cases hj0 : j < 0
    · exact rd_neg _ hj0
    · exact hz0 j (by omega) hj

theorem get_coeff_den_ne_zero (p : fmpq_poly) (hd : p.den ≠ 0) (n : Int) :
    (get_coeff p n).den ≠ 0 := by
  unfold get_coeff
  split
  · apply canonicalise_den_ne_zero
    unfold fmpq_set_fmpz_frac
    exact canonicalise_den_ne_zero _ hd
  · simp [fmpq_zero]

/-- The defining relation of the recursion coefficient, cleared of denominators:
`delta * T2[lambda] = T1[0]`, when `T2` is not zero or `T1[0]` is zero. -/
theorem get_delta_cross (T1 T2 : fmpq_poly) (hwf1 : well_formed T1) (hwf2 : well_formed T2)
    (hcase : T2.coeffs ≠ [] ∨ rd T1.coeffs 0 = 0) :
    (get_delta T1 T2).num * T1.den * rd T2.coeffs (get_lambda T2)
      = (get_delta T1 T2).den * T2.den * rd T1.coeffs 0 := by
  by_cases h1 : T1.coeffs = []
  · have hz : get_delta T1 T2 = fmpq_zero := by
      unfold get_delta fmpq_poly_length
      rw [h1]
      simp
    rw [hz, h1, rd_nil]
    simp [fmpq_zero]
  by_cases h2 : T2.coeffs = []
  · have hz : get_delta T1 T2 = fmpq_zero := by
      unfold get_delta fmpq_poly_length
      rw [h2]
      simp
    have h0 : rd T1.coeffs 0 = 0 := hcase.resolve_left (fun h => h h2)
    rw [hz, h0]
    simp [fmpq_zero]
  · have hl1 : 0 < T1.coeffs.length := List.length_pos.mpr h1
    have hl2 : 0 < T2.coeffs.length := List.length_pos.mpr h2
    have hdd := get_delta_den_ne_zero T1 T2 hwf1 hwf2
    have hcd := get_coeff_den_ne_zero T2 hwf2.2 (get_lambda T2)
    have hlam := (get_lambda_low T2 hwf2.1).2.2.2 h2
    have hval : (get_coeff T2 (get_lambda T2)).toRat
        = ((rd T2.coeffs (get_lambda T2) : Int) : ℚ) / (T2.den : ℚ) := coefficient_at_eq _ _
    have hdelta : (get_delta T1 T2).toRat
        = (((get_coeff T2 (get_lambda T2)).den * rd T1.coeffs 0 : Int) : ℚ)
          / (((get_coeff T2 (get_lambda T2)).num * T1.den : Int) : ℚ) := by
      unfold get_delta fmpq_poly_length
      rw [if_pos ⟨by omega, by omega⟩]
      simp only
      rw [toRat_canonicalise]
      rfl
    have hcn : (get_coeff T2 (get_lambda T2)).num ≠ 0 := by
      apply fmpq_num_ne_zero_of_toRat
      rw [hval]
      have hd : (T2.den : ℚ) ≠ 0 := by exact_mod_cast hwf2.2
      have hc : ((rd T2.coeffs (get_lambda T2) : Int) : ℚ) ≠ 0 := by exact_mod_cast hlam.2
      exact div_ne_zero hc hd
    unfold fmpq.toRat at hval hdelta
    have q1 : (T1.den : ℚ) ≠ 0 := by exact_mod_cast hwf1.2
    have q2 : (T2.den : ℚ) ≠ 0 := by exact_mod_cast hwf2.2
    have q3 : ((get_delta T1 T2).den : ℚ) ≠ 0 := by exact_mod_cast hdd
    have q4 : ((get_coeff T2 (get_lambda T2)).den : ℚ) ≠ 0 := by exact_mod_cast hcd
    have q5 : ((get_coeff T2 (get_lambda T2)).num : ℚ) ≠ 0 := by exact_mod_cast hcn
    push_cast at hdelta
    rw [div_eq_div_iff q3 (mul_ne_zero q5 q1)] at hdelta
    rw [div_eq_div_iff q4 q2] at hval
    have key : (((get_delta T1 T2).num * T1.den * rd T2.coeffs (get_lambda T2) : Int) : ℚ)
        = (((get_delta T1 T2).den * T2.den * rd T1.coeffs 0 : Int) : ℚ) := by
      push_cast
      apply mul_left_cancel₀ (mul_ne_zero q5 q4)
      linear_combination
        ((get_coeff T2 (get_lambda T2)).den * (rd T2.coeffs (get_lambda T2) : ℚ)) * hdelta
        - ((get_coeff T2 (get_lambda T2)).den * (get_delta T1 T2).den * (rd T1.coeffs 0 : ℚ))
          * hval
    exact_mod_cast key

/-- The array built by the two loops of `do_recurence` is symmetric. -/
theorem do_recurence_array_symm (g : Int → Int) (fl : Int) (hfl : 1 ≤ fl) (i : Int) :
    rd (for_up ((fl - 1) / 2 + 1) fl (fun i c => wr c i (rd c (fl - i - 1)))
        (for_up 0 ((fl - 1) / 2 + 1) (fun i c => wr c i (g i))
          (List.replicate fl.toNat (0 : Int)))) i
      = rd (for_up ((fl - 1) / 2 + 1) fl (fun i c => wr c i (rd c (fl - i - 1)))
        (for_up 0 ((fl - 1) / 2 + 1) (fun i c => wr c i (g i))
          (List.replicate fl.toNat (0 : Int)))) (fl - 1 - i) := by
  obtain ⟨hlen, harr⟩ := do_recurence_array g fl hfl
  by_cases h0 : 0 ≤ i
  · by_cases h1 : i < fl
    · rw [harr i h0 h1, harr (fl - 1 - i) (by omega) (by omega)]
      by_cases hm : i ≤ (fl - 1) / 2
      · rw [if_pos hm]
        by_cases hm2 : fl - 1 - i ≤ (fl - 1) / 2
        · rw [if_pos hm2]
          congr 1
          omega
        · rw [if_neg hm2]
          congr 1
          ring
      · rw [if_neg hm, if_pos (by omega)]
    · rw [rd_of_length_le _ (by rw [hlen]; omega), rd_neg _ (by omega)]
  · rw [rd_neg _ (by omega), rd_of_length_le _ (by rw [hlen]; omega)]

/-- The numerators that `do_recurence` hands to the final canonicalisation: the
recursion formula at every index, under the two formal symmetries. -/
theorem do_recurence_numerators (delta0 : fmpq) (T1 T2 : fmpq_poly) (sigma1 sigma2 : fmpq)
    (fl : Int) (hfl : 1 ≤ fl) (hsym1 : ∀ k, rd T1.coeffs k = rd T1.coeffs (fl + 2 - 1 - k))
    (hsym2 : ∀ k, rd T2.coeffs k = rd T2.coeffs (fl + 1 - 1 - k)) :
    ∃ c : List Int,
      (do_recurence delta0 0 T1 T2 sigma1 sigma2 fl).1
        = fmpq_poly_canonicalise ⟨c, (get_delta T1 T2).den * T2.den * T1.den⟩ ∧
      (c.length : Int) = fl ∧ (∀ i, rd c i = rd c (fl - 1 - i)) ∧
      ∀ i, 0 ≤ i → i < fl → rd c i
        = (rd T2.coeffs (i - get_lambda T2) + rd T2.coeffs (i + get_lambda T2 + 1))
            * ((get_delta T1 T2).num * T1.den)
          - (get_delta T1 T2).den * T2.den * rd T1.coeffs (i + 1) := by
  have htd : Int.tdiv (fl - 1) 2 = (fl - 1) / 2 := Int.tdiv_eq_ediv (by omega) (by norm_num)
  obtain ⟨hlen, harr⟩ := do_recurence_array
    (fun i => (rd T2.coeffs (i - get_lambda T2) + rd T2.coeffs (i + get_lambda T2 + 1))
        * ((get_delta T1 T2).num * T1.den)
      - (get_delta T1 T2).den * T2.den * rd T1.coeffs (i + 1)) fl hfl
  have hT3 : (do_recurence delta0 0 T1 T2 sigma1 sigma2 fl).1
      = fmpq_poly_canonicalise
        ⟨for_up ((fl - 1) / 2 + 1) fl (fun i c => wr c i (rd c (fl - i - 1)))
          (for_up 0 ((fl - 1) / 2 + 1) (fun i c => wr c i
            ((rd T2.coeffs (i - get_lambda T2) + rd T2.coeffs (i + get_lambda T2 + 1))
                * ((get_delta T1 T2).num * T1.den)
              - (get_delta T1 T2).den * T2.den * rd T1.coeffs (i + 1)))
            (List.replicate fl.toNat (0 : Int))),
          (get_delta T1 T2).den * T2.den * T1.den⟩ := by
    unfold do_recurence
    rw [if_neg (by omega)]
    simp only [htd, get_coeff_numref_zero]
  refine ⟨_, hT3, by rw [hlen]; omega, do_recurence_array_symm _ fl hfl, ?_⟩
  intro i hi0 hi1
  rw [harr i hi0 hi1]
  split
  · rfl
  · have e1 := hsym2 (fl - 1 - i - get_lambda T2)
    have e2 := hsym2 (fl - 1 - i + get_lambda T2 + 1)
    have e3 := hsym1 (fl - 1 - i + 1)
    have a1 : fl + 1 - 1 - (fl - 1 - i - get_lambda T2) = i + get_lambda T2 + 1 := by ring
    have a2 : fl + 1 - 1 - (fl - 1 - i + get_lambda T2 + 1) = i - get_lambda T2 := by ring
    have a3 : fl + 2 - 1 - (fl - 1 - i + 1) = i + 1 := by ring
    rw [a1] at e1
    rw [a2] at e2
    rw [a3] at e3
    rw [e1, e2, e3]
    ring

/-- The polynomial returned by `do_recurence` with `flength >= 1`: well formed,
formally symmetric of formal length `flength`, and, when `T2` is not zero or `T1[0]`
is zero, with the value `2 * delta * T2(1) - T1(1)` at `x = 1`. -/
theorem do_recurence_spec (delta0 : fmpq) (T1 T2 : fmpq_poly) (sigma1 sigma2 : fmpq)
    (fl : Int) (hfl : 1 ≤ fl) (hwf1 : well_formed T1) (hwf2 : well_formed T2)
    (hs1 : formally_symmetric T1 (fl + 2)) (hs2 : formally_symmetric T2 (fl + 1)) :
    well_formed (do_recurence delta0 0 T1 T2 sigma1 sigma2 fl).1 ∧
    formally_symmetric (do_recurence delta0 0 T1 T2 sigma1 sigma2 fl).1 fl ∧
    ((T2.coeffs ≠ [] ∨ rd T1.coeffs 0 = 0) →
      eval_at_1 (do_recurence delta0 0 T1 T2 sigma1 sigma2 fl).1
        = 2 * (get_delta T1 T2).toRat * eval_at_1 T2 - eval_at_1 T1) := by
  have hsym1 := rd_symm_of_formally_symmetric T1 _ hwf1.2 hs1
  have hsym2 := rd_symm_of_formally_symmetric T2 _ hwf2.2 hs2
  have hlen1 : (T1.coeffs.length : Int) ≤ fl + 2 := hs1.1
  have hlen2 : (T2.coeffs.length : Int) ≤ fl + 1 := hs2.1
  have hdd := get_delta_den_ne_zero T1 T2 hwf1 hwf2
  have hden : (get_delta T1 T2).den * T2.den * T1.den ≠ 0 :=
    mul_ne_zero (mul_ne_zero hdd hwf2.2) hwf1.2
  obtain ⟨c, hT3, hclen, hcsym, hc⟩ :=
    do_recurence_numerators delta0 T1 T2 sigma1 sigma2 fl hfl hsym1 hsym2
  rw [hT3]
  refine ⟨well_formed_canonicalise _ hden, ⟨?_, ?_⟩, ?_⟩
  · have := length_canonicalise_le ⟨c, (get_delta T1 T2).den * T2.den * T1.den⟩ hden
    unfold fmpq_poly_length
    simp only at this
    omega
  · intro k
    rw [coefficient_at_canonicalise _ hden, coefficient_at_canonicalise _ hden,
      coefficient_at_eq, coefficient_at_eq]
    simp only
    rw [hcsym k]
  · intro hcase
    have hcross := get_delta_cross T1 T2 hwf1 hwf2 hcase
    obtain ⟨hl0, hl1, hlz, hlne⟩ := get_lambda_low T2 hwf2.1
    have hlamfl : get_lambda T2 ≤ fl := by
      by_cases hne : T2.coeffs = []
      · rw [hne] at hl1; simp at hl1; omega
      · have := (hlne hne).1; omega
    have hsum : c.sum
        = (2 * T2.coeffs.sum - 2 * rd T2.coeffs (get_lambda T2))
            * ((get_delta T1 T2).num * T1.den)
          - (get_delta T1 T2).den * T2.den * (T1.coeffs.sum - 2 * rd T1.coeffs 0) := by
      rw [list_sum_eq_range_sum_of_le c fl (by omega),
        range_sum_congr (rd c) _ 0 fl (fun i h0 h1 => hc i h0 h1),
        range_sum_lin (fun i => rd T2.coeffs (i - get_lambda T2)
          + rd T2.coeffs (i + get_lambda T2 + 1)) (fun i => rd T1.coeffs (i + 1)),
        range_sum_add (fun i => rd T2.coeffs (i - get_lambda T2))
          (fun i => rd T2.coeffs (i + get_lambda T2 + 1)),
        symm_lower_window (rd T2.coeffs) fl (get_lambda T2) hl0 hlamfl hlz
          (fun k => by rw [hsym2 k]; congr 1; ring),
        symm_upper_window (rd T2.coeffs) fl (get_lambda T2) hl0 hlamfl hlz
          (fun j hj => rd_of_length_le _ (by omega)),
        range_sum_shift (rd T1.coeffs) 1 0 fl,
        ← list_sum_eq_range_sum_of_le T2.coeffs (fl + 1) hlen2]
      have e : (0 : Int) + 1 = 1 := by ring
      rw [e, symm_inner_sum (rd T1.coeffs) fl (by omega)
          (fun k => by rw [hsym1 k]; congr 1; ring),
        ← list_sum_eq_range_sum_of_le T1.coeffs (fl + 2) hlen1]
      ring
    rw [eval_at_1_canonicalise _ hden, eval_at_1_eq, eval_at_1_eq, eval_at_1_eq]
    simp only
    rw [hsum]
    unfold fmpq.toRat
    have q1 : (T1.den : ℚ) ≠ 0 := by exact_mod_cast hwf1.2
    have q2 : (T2.den : ℚ) ≠ 0 := by exact_mod_cast hwf2.2
    have q3 : ((get_delta T1 T2).den : ℚ) ≠ 0 := by exact_mod_cast hdd
    have hcq : ((get_delta T1 T2).num : ℚ) * T1.den * (rd T2.coeffs (get_lambda T2) : ℚ)
        = ((get_delta T1 T2).den : ℚ) * T2.den * (rd T1.coeffs 0 : ℚ) := by
      exact_mod_cast hcross
    push_cast
    field_simp
    linear_combination (-2 : ℚ) * hcq

/-- The rational `sigma3` returned by `do_recurence` with `flength >= 1`. -/
theorem do_recurence_sigma (delta0 : fmpq) (T1 T2 : fmpq_poly) (sigma1 sigma2 : fmpq)
    (fl : Int) (hfl : 1 ≤ fl) (hwf1 : well_formed T1) (hwf2 : well_formed T2)
    (hd1 : sigma1.den ≠ 0) (hd2 : sigma2.den ≠ 0) :
    (do_recurence delta0 0 T1 T2 sigma1 sigma2 fl).2.1.toRat
        = 2 * (get_delta T1 T2).toRat * sigma2.toRat - sigma1.toRat ∧
      0 < (do_recurence delta0 0 T1 T2 sigma1 sigma2 fl).2.1.den := by
  have hdd := get_delta_den_ne_zero T1 T2 hwf1 hwf2
  have hs3 : (do_recurence delta0 0 T1 T2 sigma1 sigma2 fl).2.1
      = fmpq_sub (fmpq_mul_2exp (fmpq_mul (get_delta T1 T2) sigma2) 1) sigma1 := by
    unfold do_recurence
    rw [if_neg (by omega)]
  have hm : (fmpq_mul (get_delta T1 T2) sigma2).den ≠ 0 :=
    canonicalise_den_ne_zero _ (mul_ne_zero hdd hd2)
  have hm2 : (fmpq_mul_2exp (fmpq_mul (get_delta T1 T2) sigma2) 1).den ≠ 0 :=
    canonicalise_den_ne_zero _ hm
  rw [hs3]
  refine ⟨?_, canonicalise_den_pos _ (mul_ne_zero hm2 hd1)⟩
  rw [toRat_sub _ _ hm2 hd1, toRat_mul_2exp_one, toRat_mul]
  ring

/-- Claim C11. In `do_recurence` with `flength >= 1`, the returned
`sigma3 = 2 * delta * sigma2 - sigma1` is the value of the returned `T3` at `x = 1`,
provided `sigma1 = T1(1)`, `sigma2 = T2(1)`, `T1` is formally symmetric of formal
length `flength + 2`, `T2` is formally symmetric of formal length `flength + 1`, and
either `T2` is not zero or the degree-0 coefficient of `T1` is zero (the
polynomials and rationals being well formed: non-zero top numerators and
denominators). -/
theorem C11_do_recurence_sigma3_is_value_at_1 (delta0 : fmpq) (T1 T2 : fmpq_poly)
    (sigma1 sigma2 : fmpq) (flength : Int) (hfl : 1 ≤ flength)
    (hwf1 : well_formed T1) (hwf2 : well_formed T2)
    (hd1 : sigma1.den ≠ 0) (hd2 : sigma2.den ≠ 0)
    (hsig1 : sigma1.toRat = eval_at_1 T1) (hsig2 : sigma2.toRat = eval_at_1 T2)
    (hs1 : formally_symmetric T1 (flength + 2)) (hs2 : formally_symmetric T2 (flength + 1))
    (hcase : fmpq_poly_is_zero T2 = false ∨ coefficient_at T1 0 = 0) :
    (do_recurence delta0 0 T1 T2 sigma1 sigma2 flength).2.1.toRat
        = 2 * (get_delta T1 T2).toRat * sigma2.toRat - sigma1.toRat ∧
    (do_recurence delta0 0 T1 T2 sigma1 sigma2 flength).2.1.toRat
        = eval_at_1 (do_recurence delta0 0 T1 T2 sigma1 sigma2 flength).1 := by
  have hsig := (do_recurence_sigma delta0 T1 T2 sigma1 sigma2 flength hfl hwf1 hwf2 hd1 hd2).1
  have hcase' : T2.coeffs ≠ [] ∨ rd T1.coeffs 0 = 0 := by
    rcases hcase with h | h
    · left
      intro h0
      rw [fmpq_poly_is_zero, h0] at h
      simp at h
    · right
      rw [coefficient_at_eq] at h
      have q1 : (T1.den : ℚ) ≠ 0 := by exact_mod_cast hwf1.2
      have := (div_eq_zero_iff.mp h).resolve_right q1
      exact_mod_cast this
  have hval := (do_recurence_spec delta0 T1 T2 sigma1 sigma2 flength hfl hwf1 hwf2 hs1 hs2).2.2
    hcase'
  refine ⟨hsig, ?_⟩
  rw [hsig, hval, hsig1, hsig2]

/-- Instance of `C11_do_recurence_sigma3_is_value_at_1` on the pair
`T1 = 5 + x + x^2 + 5x^3`, `T2 = (1 + 2x + x^2) / 3` with `flength = 2`. -/
theorem C11_do_recurence_sigma3_is_value_at_1_witness :
    (1 : Int) ≤ 2 ∧ well_formed ⟨[5, 1, 1, 5], 1⟩ ∧ well_formed ⟨[1, 2, 1], 3⟩ ∧
    (⟨12, 1⟩ : fmpq).den ≠ 0 ∧ (⟨4, 3⟩ : fmpq).den ≠ 0 ∧
    (⟨12, 1⟩ : fmpq).toRat = eval_at_1 ⟨[5, 1, 1, 5], 1⟩ ∧
    (⟨4, 3⟩ : fmpq).toRat = eval_at_1 ⟨[1, 2, 1], 3⟩ ∧
    formally_symmetric ⟨[5, 1, 1, 5], 1⟩ (2 + 2) ∧
    formally_symmetric ⟨[1, 2, 1], 3⟩ (2 + 1) ∧
    (fmpq_poly_is_zero ⟨[1, 2, 1], 3⟩ = false ∨ coefficient_at ⟨[5, 1, 1, 5], 1⟩ 0 = 0) ∧
    ((do_recurence fmpq_zero 0 ⟨[5, 1, 1, 5], 1⟩ ⟨[1, 2, 1], 3⟩ ⟨12, 1⟩ ⟨4, 3⟩ 2).2.1.toRat
        = 2 * (get_delta ⟨[5, 1, 1, 5], 1⟩ ⟨[1, 2, 1], 3⟩).toRat * (⟨4, 3⟩ : fmpq).toRat
          - (⟨12, 1⟩ : fmpq).toRat ∧
    (do_recurence fmpq_zero 0 ⟨[5, 1, 1, 5], 1⟩ ⟨[1, 2, 1], 3⟩ ⟨12, 1⟩ ⟨4, 3⟩ 2).2.1.toRat
        = eval_at_1
          (do_recurence fmpq_zero 0 ⟨[5, 1, 1, 5], 1⟩ ⟨[1, 2, 1], 3⟩ ⟨12, 1⟩ ⟨4, 3⟩ 2).1) :=
  ⟨by decide, by decide, by decide, by decide, by decide,
    by norm_num [fmpq.toRat, eval_at_1, rat_coeffs],
    by norm_num [fmpq.toRat, eval_at_1, rat_coeffs],
    formally_symmetric_of_range ⟨[5, 1, 1, 5], 1⟩ 4 (by decide) (by decide),
    formally_symmetric_of_range ⟨[1, 2, 1], 3⟩ 3 (by decide) (by decide),
    Or.inl (by decide),
    C11_do_recurence_sigma3_is_value_at_1 fmpq_zero ⟨[5, 1, 1, 5], 1⟩ ⟨[1, 2, 1], 3⟩
      ⟨12, 1⟩ ⟨4, 3⟩ 2 (by decide) (by decide) (by decide) (by decide) (by decide)
      (by norm_num [fmpq.toRat, eval_at_1, rat_coeffs])
      (by norm_num [fmpq.toRat, eval_at_1, rat_coeffs])
      (formally_symmetric_of_range ⟨[5, 1, 1, 5], 1⟩ 4 (by decide) (by decide))
      (formally_symmetric_of_range ⟨[1, 2, 1], 3⟩ 3 (by decide) (by decide))
      (Or.inl (by decide))⟩

/-! ## Steps of the loop of `Bistritz_rule` -/

theorem eval_at_1_sym_den_pos (p : fmpq_poly) (hd : p.den ≠ 0) : 0 < (eval_at_1_sym p).den := by
  unfold eval_at_1_sym
  split
  · exact canonicalise_den_pos _ hd
  · simp [fmpq_zero]

theorem coefficient_at_nil (p : fmpq_poly) (h : p.coeffs = []) (k : Int) :
    coefficient_at p k = 0 := by
  rw [coefficient_at_eq, h, rd_nil]
  simp

theorem lt_length_of_coefficient_at_ne_zero (p : fmpq_poly) (k : Int)
    (h : coefficient_at p k ≠ 0) : 0 ≤ k ∧ k < p.coeffs.length := by
  rw [coefficient_at_eq] at h
  constructor
  · by_contra hk
    rw [rd_neg _ (by omega)] at h
    simp at h
  · by_contra hk
    rw [rd_of_length_le _ (by omega)] at h
    simp at h

theorem coefficient_at_ne_zero_iff (p : fmpq_poly) (hd : p.den ≠ 0) (k : Int) :
    coefficient_at p k ≠ 0 ↔ rd p.coeffs k ≠ 0 := by
  rw [coefficient_at_eq]
  have q : (p.den : ℚ) ≠ 0 := by exact_mod_cast hd
  constructor
  · intro h h0
    rw [h0] at h
    simp at h
  · intro h
    exact div_ne_zero (by exact_mod_cast h) q

theorem length_derivative_from (k : Nat) (cs : List Int) :
    (derivative_from k cs).length = cs.length := by
  induction cs generalizing k with
  | nil => rfl
  | cons c cs ih => simp [derivative_from, ih]

theorem length_derivative_le (p : fmpq_poly) (hd : p.den ≠ 0) :
    (fmpq_poly_derivative p).coeffs.length ≤ p.coeffs.length - 1 := by
  unfold fmpq_poly_derivative
  have := length_canonicalise_le ⟨derivative_from 1 p.coeffs.tail, p.den⟩ hd
  simpa [length_derivative_from] using this

/-- The coefficients of the polynomial returned by `do_recurence`. -/
theorem do_recurence_coeff (delta0 : fmpq) (T1 T2 : fmpq_poly) (sigma1 sigma2 : fmpq)
    (fl : Int) (hfl : 1 ≤ fl) (hwf1 : well_formed T1) (hwf2 : well_formed T2)
    (hs1 : formally_symmetric T1 (fl + 2)) (hs2 : formally_symmetric T2 (fl + 1))
    (i : Int) (hi0 : 0 ≤ i) (hi1 : i < fl) :
    coefficient_at (do_recurence delta0 0 T1 T2 sigma1 sigma2 fl).1 i
      = (get_delta T1 T2).toRat
          * (coefficient_at T2 (i - get_lambda T2) + coefficient_at T2 (i + get_lambda T2 + 1))
        - coefficient_at T1 (i + 1) := by
  have hsym1 := rd_symm_of_formally_symmetric T1 _ hwf1.2 hs1
  have hsym2 := rd_symm_of_formally_symmetric T2 _ hwf2.2 hs2
  have hdd := get_delta_den_ne_zero T1 T2 hwf1 hwf2
  have hden : (get_delta T1 T2).den * T2.den * T1.den ≠ 0 :=
    mul_ne_zero (mul_ne_zero hdd hwf2.2) hwf1.2
  obtain ⟨c, hT3, _, _, hc⟩ :=
    do_recurence_numerators delta0 T1 T2 sigma1 sigma2 fl hfl hsym1 hsym2
  rw [hT3, coefficient_at_canonicalise _ hden, coefficient_at_eq]
  simp only
  rw [hc i hi0 hi1, coefficient_at_eq, coefficient_at_eq, coefficient_at_eq]
  unfold fmpq.toRat
  have h1 : (T1.den : ℚ) ≠ 0 := by exact_mod_cast hwf1.2
  have h2 : (T2.den : ℚ) ≠ 0 := by exact_mod_cast hwf2.2
  have h3 : ((get_delta T1 T2).den : ℚ) ≠ 0 := by exact_mod_cast hdd
  push_cast
  field_simp
  ring

theorem get_delta_of_nil (T1 T2 : fmpq_poly) (h : T2.coeffs = []) :
    get_delta T1 T2 = fmpq_zero := by
  unfold get_delta fmpq_poly_length
  rw [h]
  simp

theorem formally_symmetric_of_nil (p : fmpq_poly) (h : p.coeffs = []) (n : Int) (hn : 0 ≤ n) :
    formally_symmetric p n := by
  refine ⟨by unfold fmpq_poly_length; rw [h]; simpa using hn, fun k => ?_⟩
  rw [coefficient_at_nil p h, coefficient_at_nil p h]

theorem fields_regular (i : Int) (s : rule_state) :
    (rule_count_and_rotate (rule_regular 0 i s)).T_prev = s.T_curr ∧
    (rule_count_and_rotate (rule_regular 0 i s)).T_curr
      = (do_recurence s.delta 0 s.T_prev s.T_curr s.sigma_prev s.sigma_curr i).1 ∧
    (rule_count_and_rotate (rule_regular 0 i s)).sigma_prev = s.sigma_curr ∧
    (rule_count_and_rotate (rule_regular 0 i s)).sigma_curr
      = (do_recurence s.delta 0 s.T_prev s.T_curr s.sigma_prev s.sigma_curr i).2.1 :=
  ⟨rfl, rfl, rfl, rfl⟩

theorem fields_singular (i : Int) (s : rule_state) :
    (rule_count_and_rotate (rule_singular i s)).T_prev
      = (do_singular s.T_prev s.sigma_prev).2.1 ∧
    (rule_count_and_rotate (rule_singular i s)).T_curr
      = (do_singular s.T_prev s.sigma_prev).2.2.1 ∧
    (rule_count_and_rotate (rule_singular i s)).sigma_prev
      = (do_singular s.T_prev s.sigma_prev).2.2.2.2.1 ∧
    (rule_count_and_rotate (rule_singular i s)).sigma_curr
      = (do_singular s.T_prev s.sigma_prev).2.2.2.2.2 := by
  unfold rule_singular
  simp only
  split <;> exact ⟨rfl, rfl, rfl, rfl⟩

/-! ## The polynomials on entry to the loop -/

theorem isum_eq_finset_sum (f : Int → Int) (lo : Int) (n : Nat) :
    isum f lo n = ∑ k in Finset.range n, f (lo + k) := by
  induction n with
  | zero => simp [isum]
  | succ n ih => rw [isum, ih, Finset.sum_range_succ]

/-- The value at `1` is the sum of the coefficients below any bound on the length. -/
theorem eval_at_1_eq_finset_sum (p : fmpq_poly) (n : Nat) (h : p.coeffs.length ≤ n) :
    eval_at_1 p = ∑ k in Finset.range n, coefficient_at p (k : Int) := by
  rw [eval_at_1_eq, list_sum_eq_range_sum_of_le p.coeffs n (by exact_mod_cast h)]
  unfold range_sum
  rw [isum_eq_finset_sum]
  simp only [sub_zero, Int.toNat_ofNat, zero_add]
  push_cast
  rw [Finset.sum_div]
  apply Finset.sum_congr rfl
  intro k _
  rw [coefficient_at_eq]

theorem eval_at_1_rule_init (D : fmpq_poly) (hwf : well_formed D) :
    eval_at_1 (rule_init D).1 = 2 * eval_at_1 D := by
  obtain ⟨_, _, hco, _, _, hlen, _, _, _⟩ := rule_init_spec D hwf
  rw [eval_at_1_eq_finset_sum _ D.coeffs.length hlen,
    eval_at_1_eq_finset_sum D D.coeffs.length (le_refl _)]
  have h1 : ∀ k ∈ Finset.range D.coeffs.length,
      coefficient_at (rule_init D).1 (k : Int)
        = coefficient_at D (((D.coeffs.length - 1 - k : Nat)) : Int) + coefficient_at D (k : Int) := by
    intro k hk
    rw [hco]
    have hk' := Finset.mem_range.mp hk
    have : ((D.coeffs.length : Int) - 1 - (k : Int)) = ((D.coeffs.length - 1 - k : Nat) : Int) := by
      omega
    rw [this]
  rw [Finset.sum_congr rfl h1, Finset.sum_add_distrib,
    Finset.sum_range_reflect (fun j => coefficient_at D (j : Int)) D.coeffs.length]
  ring

theorem is_zero_iff (p : fmpq_poly) : fmpq_poly_is_zero p = true ↔ p.coeffs = [] := by
  unfold fmpq_poly_is_zero
  simp

theorem ne_nil_of_eval_at_1_ne_zero (p : fmpq_poly) (h : eval_at_1 p ≠ 0) : p.coeffs ≠ [] := by
  intro hnil
  apply h
  rw [eval_at_1_eq, hnil]
  simp

theorem rule_init_sigma1 (D : fmpq_poly) : (rule_init D).2.2.1 = eval_at_1_sym (rule_init D).1 :=
  rfl

theorem rule_init_sigma2 (D : fmpq_poly) :
    (rule_init D).2.2.2 = eval_at_1_sym (rule_init D).2.1 :=
  rfl

/-- The deflation of a non-zero polynomial: the loop comes to an end and leaves a
non-zero polynomial without root at `1`. -/
theorem clear_x_minus_1_nonzero (P : fmpq_poly) (hwf : well_formed P) (hne : P.coeffs ≠ []) :
    ∃ (m : Nat) (D : fmpq_poly), clear_x_minus_1 P = some ((m : Int), D) ∧ well_formed D ∧
      D.coeffs ≠ [] ∧ D.coeffs.length + m = P.coeffs.length ∧ eval_at_1 D ≠ 0 := by
  obtain ⟨m, Q, hQwf, hQne, hQlen, _, hval, _, hloop⟩ :=
    clear_loop_spec P.coeffs.length P hwf hne (le_refl _)
  have hpos : 0 < P.coeffs.length := List.length_pos.mpr hne
  refine ⟨m, Q, ?_, hQwf, hQne, hQlen, hval⟩
  unfold clear_x_minus_1 clear_x_minus_1_fuel fmpq_poly_length
  rw [if_pos (by omega), hloop _ 0 (by omega)]
  simp

/-- The state on entry to the loop satisfies the invariant at `i = deg - 1`. -/
theorem loop_invariant_start (D : fmpq_poly) (hwf : well_formed D) (hval : eval_at_1 D ≠ 0) :
    loop_invariant (fmpq_poly_degree D - 1) (rule_start D) := by
  obtain ⟨hw1, hw2, hco, _, hsym2, hlen1, hlen2, hs1, hs2⟩ := rule_init_spec D hwf
  have hne := ne_nil_of_eval_at_1_ne_zero D hval
  have hpos : 0 < D.coeffs.length := List.length_pos.mpr hne
  unfold loop_invariant rule_start fmpq_poly_degree
  simp only
  refine ⟨hw1, hw2, ⟨?_, fun k => ?_⟩, ⟨?_, fun k => ?_⟩, hs1, hs2, ?_, ?_, Or.inl ?_⟩
  · unfold fmpq_poly_length
    omega
  · rw [hco, hco]
    have : (D.coeffs.length : Int) - 1 - ((D.coeffs.length : Int) - 1 - 1 + 2 - 1 - k) = k := by
      ring
    rw [this]
    have : (D.coeffs.length : Int) - 1 - 1 + 2 - 1 - k = (D.coeffs.length : Int) - 1 - k := by
      ring
    rw [this]
    ring
  · unfold fmpq_poly_length
    omega
  · rw [hsym2 k]
    have : (D.coeffs.length : Int) - 1 - 1 + 1 - 1 - k = (D.coeffs.length : Int) - 1 - 1 - k := by
      ring
    rw [this]
  · rw [rule_init_sigma1]
    exact eval_at_1_sym_den_pos _ hw1.2
  · rw [rule_init_sigma2]
    exact eval_at_1_sym_den_pos _ hw2.2
  · apply ne_nil_of_eval_at_1_ne_zero
    rw [eval_at_1_rule_init D hwf]
    exact mul_ne_zero two_ne_zero hval

/-! ## Signs of rationals -/

theorem toRat_pos_iff (q : fmpq) (hd : 0 < q.den) : 0 < q.toRat ↔ 0 < q.num := by
  unfold fmpq.toRat
  have hq : (0 : ℚ) < (q.den : ℚ) := by exact_mod_cast hd
  rw [div_pos_iff_of_pos_right hq]
  exact_mod_cast Iff.rfl

theorem toRat_neg_iff (q : fmpq) (hd : 0 < q.den) : q.toRat < 0 ↔ q.num < 0 := by
  unfold fmpq.toRat
  have hq : (0 : ℚ) < (q.den : ℚ) := by exact_mod_cast hd
  rw [div_neg_iff]
  constructor
  · rintro (⟨_, h⟩ | ⟨h, _⟩)
    · exact absurd h (not_lt.mpr hq.le)
    · exact_mod_cast h
  · intro h
    exact Or.inr ⟨by exact_mod_cast h, hq⟩

theorem toRat_eq_zero_iff (q : fmpq) (hd : 0 < q.den) : q.toRat = 0 ↔ q.num = 0 := by
  unfold fmpq.toRat
  have hq : (q.den : ℚ) ≠ 0 := by exact_mod_cast (ne_of_gt hd)
  rw [div_eq_zero_iff]
  constructor
  · rintro (h | h)
    · exact_mod_cast h
    · exact absurd h hq
  · intro h
    exact Or.inl (by exact_mod_cast h)

theorem fmpq_sgn_of_pos (q : fmpq) (hd : 0 < q.den) (h : 0 < q.toRat) : fmpq_sgn q = 1 :=
  Int.sign_eq_one_of_pos ((toRat_pos_iff q hd).mp h)

theorem fmpq_sgn_of_neg (q : fmpq) (hd : 0 < q.den) (h : q.toRat < 0) : fmpq_sgn q = -1 :=
  Int.sign_eq_neg_one_of_neg ((toRat_neg_iff q hd).mp h)

theorem fmpq_sgn_of_zero (q : fmpq) (hd : 0 < q.den) (h : q.toRat = 0) : fmpq_sgn q = 0 := by
  unfold fmpq_sgn
  rw [(toRat_eq_zero_iff q hd).mp h]
  rfl

/-! ## The invariant of the loop is kept by every iteration -/

theorem regular_step_invariant (i : Int) (s : rule_state) (hi : 1 ≤ i)
    (hinv : loop_invariant i s)
    (hcase : s.T_curr.coeffs ≠ [] ∨ rd s.T_prev.coeffs 0 = 0) :
    loop_invariant (i - 1) (rule_count_and_rotate (rule_regular 0 i s)) := by
  obtain ⟨hwA, hwB, hsA, hsB, hσA, hσB, hdA, hdB, hne⟩ := hinv
  obtain ⟨f1, f2, f3, f4⟩ := fields_regular i s
  obtain ⟨hwC, hsC, hev⟩ := do_recurence_spec s.delta s.T_prev s.T_curr s.sigma_prev
    s.sigma_curr i hi hwA hwB hsA hsB
  obtain ⟨hσ, hdC⟩ := do_recurence_sigma s.delta s.T_prev s.T_curr s.sigma_prev
    s.sigma_curr i hi hwA hwB (ne_of_gt hdA) (ne_of_gt hdB)
  unfold loop_invariant
  rw [f1, f2, f3, f4]
  have e1 : i - 1 + 2 = i + 1 := by ring
  have e2 : i - 1 + 1 = i := by ring
  rw [e1, e2]
  refine ⟨hwB, hwC, hsB, hsC, hσB, ?_, hdB, hdC, ?_⟩
  · rw [hσ, hev hcase, hσA, hσB]
  · by_cases hB : s.T_curr.coeffs = []
    · right
      have hA0 : rd s.T_prev.coeffs 0 = 0 := by
        rcases hcase with h | h
        · exact absurd hB h
        · exact h
      have hAne : s.T_prev.coeffs ≠ [] := by
        rcases hne with h | h
        · exact h
        · exact absurd hB h
      have hsym := rd_symm_of_formally_symmetric s.T_prev _ hwA.2 hsA
      have hlenA : (s.T_prev.coeffs.length : Int) ≤ i + 2 := hsA.1
      have htop := rd_top_ne_zero s.T_prev.coeffs hwA.1 hAne
      have hpos : 0 < s.T_prev.coeffs.length := List.length_pos.mpr hAne
      have h1 : (s.T_prev.coeffs.length : Int) - 1 ≠ 0 := by
        intro h
        rw [h] at htop
        exact htop hA0
      have h2 : (s.T_prev.coeffs.length : Int) - 1 ≠ i + 1 := by
        intro h
        rw [h, hsym (i + 1)] at htop
        have : i + 2 - 1 - (i + 1) = 0 := by ring
        rw [this] at htop
        exact htop hA0
      have hco := do_recurence_coeff s.delta s.T_prev s.T_curr s.sigma_prev s.sigma_curr i hi
        hwA hwB hsA hsB ((s.T_prev.coeffs.length : Int) - 2) (by omega) (by omega)
      rw [coefficient_at_nil _ hB, coefficient_at_nil _ hB] at hco
      have e3 : (s.T_prev.coeffs.length : Int) - 2 + 1 = (s.T_prev.coeffs.length : Int) - 1 := by
        ring
      rw [e3] at hco
      have hAc : coefficient_at s.T_prev ((s.T_prev.coeffs.length : Int) - 1) ≠ 0 :=
        (coefficient_at_ne_zero_iff _ hwA.2 _).mpr htop
      intro hC
      rw [coefficient_at_nil _ hC] at hco
      apply hAc
      linarith
    · left
      exact hB

theorem regular_step_zero (s : rule_state) (hinv : loop_invariant 0 s)
    (hB : s.T_curr.coeffs ≠ []) :
    loop_invariant (0 - 1) (rule_count_and_rotate (rule_regular 0 0 s)) := by
  obtain ⟨hwA, hwB, hsA, hsB, hσA, hσB, hdA, hdB, hne⟩ := hinv
  obtain ⟨f1, f2, f3, f4⟩ := fields_regular 0 s
  have hr : do_recurence s.delta 0 s.T_prev s.T_curr s.sigma_prev s.sigma_curr 0
      = (fmpq_poly_zero, fmpq_zero, s.delta) := by
    unfold do_recurence
    rw [if_pos (le_refl _)]
  unfold loop_invariant
  rw [f1, f2, f3, f4, hr]
  simp only
  refine ⟨hwB, well_formed_zero, hsB, formally_symmetric_of_nil _ rfl _ (by norm_num), hσB, ?_,
    hdB, by simp [fmpq_zero], Or.inl hB⟩
  rw [toRat_zero, eval_at_1_zero]

theorem singular_step_invariant (i : Int) (s : rule_state) (hi : 0 ≤ i)
    (hinv : loop_invariant i s) (hA0 : rd s.T_prev.coeffs 0 ≠ 0) :
    loop_invariant (i - 1) (rule_count_and_rotate (rule_singular i s)) := by
  obtain ⟨hwA, _, hsA, _, _, _, _, _, _⟩ := hinv
  obtain ⟨f1, f2, f3, f4⟩ := fields_singular i s
  have hsym := rd_symm_of_formally_symmetric s.T_prev _ hwA.2 hsA
  have hlenA : (s.T_prev.coeffs.length : Int) ≤ i + 2 := hsA.1
  have hwD := well_formed_derivative s.T_prev hwA.2
  have hlenD := length_derivative_le s.T_prev hwA.2
  have hAtop : rd s.T_prev.coeffs (i + 1) ≠ 0 := by
    have := hsym 0
    have e : i + 2 - 1 - 0 = i + 1 := by ring
    rw [e] at this
    rw [← this]
    exact hA0
  have hDi : coefficient_at (fmpq_poly_derivative s.T_prev) i ≠ 0 := by
    rw [coefficient_at_derivative _ hwA.2, if_pos hi]
    apply mul_ne_zero
    · have : (0 : ℚ) ≤ (i : ℚ) := by exact_mod_cast hi
      linarith
    · exact (coefficient_at_ne_zero_iff _ hwA.2 _).mpr hAtop
  have hDlen : ((fmpq_poly_derivative s.T_prev).coeffs.length : Int) = i + 1 := by
    have := (lt_length_of_coefficient_at_ne_zero _ _ hDi).2
    omega
  obtain ⟨hw1, hw2, hco, hmul, hsym2, hlen1, hlen2, hs1, hs2⟩ :=
    rule_init_spec (fmpq_poly_derivative s.T_prev) hwD
  rw [hDlen] at hco hmul hsym2
  have g1 : (do_singular s.T_prev s.sigma_prev).2.1
      = fmpq_poly_neg (rule_init (fmpq_poly_derivative s.T_prev)).1 := rfl
  have g2 : (do_singular s.T_prev s.sigma_prev).2.2.1
      = (rule_init (fmpq_poly_derivative s.T_prev)).2.1 := rfl
  have g3 : (do_singular s.T_prev s.sigma_prev).2.2.2.2.1
      = fmpq_neg (rule_init (fmpq_poly_derivative s.T_prev)).2.2.1 := rfl
  have g4 : (do_singular s.T_prev s.sigma_prev).2.2.2.2.2
      = (rule_init (fmpq_poly_derivative s.T_prev)).2.2.2 := rfl
  unfold loop_invariant
  rw [f1, f2, f3, f4, g1, g2, g3, g4]
  have e1 : i - 1 + 2 = i + 1 := by ring
  have e2 : i - 1 + 1 = i := by ring
  rw [e1, e2]
  refine ⟨well_formed_neg _ hw1, hw2, ⟨?_, fun k => ?_⟩, ⟨?_, fun k => ?_⟩, ?_, hs2, ?_, ?_, ?_⟩
  · unfold fmpq_poly_length
    rw [length_neg]
    omega
  · rw [coefficient_at_neg, coefficient_at_neg, hco, hco]
    have : i + 1 - 1 - (i + 1 - 1 - k) = k := by ring
    rw [this]
    ring
  · unfold fmpq_poly_length
    omega
  · rw [hsym2 k]
    have : i + 1 - 1 - 1 - k = i - 1 - k := by ring
    rw [this]
  · rw [toRat_neg, eval_at_1_neg, hs1]
  · show 0 < (rule_init (fmpq_poly_derivative s.T_prev)).2.2.1.den
    rw [rule_init_sigma1]
    exact eval_at_1_sym_den_pos _ hw1.2
  · rw [rule_init_sigma2]
    exact eval_at_1_sym_den_pos _ hw2.2
  · by_contra hboth
    rw [not_or, not_not, not_not] at hboth
    obtain ⟨hU, hV⟩ := hboth
    have hU0 : (rule_init (fmpq_poly_derivative s.T_prev)).1.coeffs = [] := by
      have h := congrArg List.length hU
      rw [length_neg] at h
      exact List.length_eq_zero.mp h
    have a1 := hco i
    have a2 := hmul i
    unfold mul_x_minus_1 at a2
    rw [coefficient_at_nil _ hU0] at a1
    rw [coefficient_at_nil _ hV, coefficient_at_nil _ hV] at a2
    apply hDi
    linarith

/-- One iteration at a loop index `i >= 0` from a state that satisfies the invariant:
the loop is not left, and the invariant holds for the next index. -/
theorem loop_invariant_step (i : Int) (s : rule_state) (hi : 0 ≤ i)
    (hinv : loop_invariant i s) :
    ∃ s', rule_step 0 i s = some s' ∧ loop_invariant (i - 1) s' := by
  have hinv0 := hinv
  obtain ⟨hwA, hwB, hsA, hsB, _, _, _, _, hne⟩ := hinv
  unfold rule_step
  by_cases hB : s.T_curr.coeffs = []
  · have hAne : s.T_prev.coeffs ≠ [] := by
      rcases hne with h | h
      · exact h
      · exact absurd hB h
    rw [if_pos ((is_zero_iff _).mpr hB), if_neg (fun h => hAne ((is_zero_iff _).mp h))]
    by_cases hA0 : rd s.T_prev.coeffs 0 = 0
    · rw [if_pos hA0]
      refine ⟨_, rfl, ?_⟩
      have h1 : 1 ≤ i := by
        by_contra hlt
        have hi0 : i = 0 := by omega
        subst hi0
        have hsym := rd_symm_of_formally_symmetric s.T_prev _ hwA.2 hsA
        have hlenA : (s.T_prev.coeffs.length : Int) ≤ 0 + 2 := hsA.1
        have htop := rd_top_ne_zero s.T_prev.coeffs hwA.1 hAne
        have hpos : 0 < s.T_prev.coeffs.length := List.length_pos.mpr hAne
        have h1 := hsym 0
        rw [hA0] at h1
        have hcases : (s.T_prev.coeffs.length : Int) - 1 = 0
            ∨ (s.T_prev.coeffs.length : Int) - 1 = 0 + 2 - 1 - 0 := by omega
        rcases hcases with h | h
        · rw [h] at htop
          exact htop hA0
        · rw [h] at htop
          exact htop h1.symm
      exact regular_step_invariant i s h1 hinv0 (Or.inr hA0)
    · rw [if_neg hA0]
      exact ⟨_, rfl, singular_step_invariant i s hi hinv0 hA0⟩
  · rw [if_neg (fun h => hB ((is_zero_iff _).mp h))]
    refine ⟨_, rfl, ?_⟩
    by_cases h1 : 1 ≤ i
    · exact regular_step_invariant i s h1 hinv0 (Or.inl hB)
    · have hi0 : i = 0 := by omega
      subst hi0
      exact regular_step_zero s hinv0 hB

/-! ## The whole loop -/

theorem Bistritz_run_eq (P : fmpq_poly) (m : Int) (D : fmpq_poly)
    (h : clear_x_minus_1 P = some (m, D)) :
    Bistritz_run P = some ⟨m, fmpq_poly_degree D,
      (rule_loop 0 (fmpq_poly_degree D).toNat (fmpq_poly_degree D - 1) (rule_start D)).1,
      (rule_loop 0 (fmpq_poly_degree D).toNat (fmpq_poly_degree D - 1) (rule_start D)).2⟩ := by
  unfold Bistritz_run
  simp only [h]
  rfl

/-- From a state that satisfies the invariant at `i = n - 1`, the loop makes `n`
iterations, none of which leaves it, and the invariant holds at the start of each. -/
theorem loop_trace_spec (n : Nat) : ∀ (s : rule_state), loop_invariant ((n : Int) - 1) s →
    (rule_loop 0 n ((n : Int) - 1) s).1 = -1 ∧
    loop_invariant (-1) (rule_loop 0 n ((n : Int) - 1) s).2 ∧
    (rule_trace 0 n ((n : Int) - 1) s).length = n ∧
    ∀ e ∈ rule_trace 0 n ((n : Int) - 1) s, 0 ≤ e.1 ∧ loop_invariant e.1 e.2 := by
  induction n with
  | zero =>
    intro s hinv
    refine ⟨by simp [rule_loop], ?_, by simp [rule_trace], ?_⟩
    · simpa [rule_loop] using hinv
    · intro e he
      simp [rule_trace] at he
  | succ n ih =>
    intro s hinv
    have hi : (0 : Int) ≤ ((n + 1 : Nat) : Int) - 1 := by
      push_cast
      omega
    obtain ⟨s', hstep, hinv'⟩ := loop_invariant_step _ s hi hinv
    have e : ((n + 1 : Nat) : Int) - 1 - 1 = (n : Int) - 1 := by
      push_cast
      ring
    rw [e] at hinv'
    obtain ⟨h1, h2, h3, h4⟩ := ih s' hinv'
    rw [rule_loop, rule_trace]
    simp only [hstep]
    rw [e]
    refine ⟨h1, h2, by simp [h3], ?_⟩
    intro x hx
    rcases List.mem_cons.mp hx with hx | hx
    · rw [hx]
      exact ⟨hi, hinv⟩
    · exact h4 x hx

/-- The run of `Bistritz_rule` on a non-zero polynomial: the deflation returns, the
loop starts in `rule_start D` and the facts of `loop_trace_spec` hold for it. -/
theorem run_spec (P : fmpq_poly) (hwf : well_formed P) (hne : P.coeffs ≠ []) :
    ∃ (m : Nat) (D : fmpq_poly) (r : rule_run),
      clear_x_minus_1 P = some ((m : Int), D) ∧ Bistritz_run P = some r ∧
      well_formed D ∧ eval_at_1 D ≠ 0 ∧ D.coeffs.length + m = P.coeffs.length ∧
      r.on_uc = m ∧ r.deg = fmpq_poly_degree D ∧ ((r.deg.toNat : Nat) : Int) = r.deg ∧
      r.s = (rule_loop 0 r.deg.toNat (r.deg - 1) (rule_start D)).2 ∧
      r.i = -1 ∧
      loop_invariant (r.deg - 1) (rule_start D) ∧
      (rule_trace 0 r.deg.toNat (r.deg - 1) (rule_start D)).length = r.deg.toNat ∧
      ∀ e ∈ rule_trace 0 r.deg.toNat (r.deg - 1) (rule_start D),
        0 ≤ e.1 ∧ loop_invariant e.1 e.2 := by
  obtain ⟨m, D, hclear, hwD, hDne, hlen, hval⟩ := clear_x_minus_1_nonzero P hwf hne
  have hrun := Bistritz_run_eq P m D hclear
  have hpos : 0 < D.coeffs.length := List.length_pos.mpr hDne
  have hdeg : (((fmpq_poly_degree D).toNat : Nat) : Int) = fmpq_poly_degree D := by
    unfold fmpq_poly_degree
    omega
  have hstart := loop_invariant_start D hwD hval
  have hstart' := hstart
  rw [← hdeg] at hstart'
  obtain ⟨h1, _, h3, h4⟩ := loop_trace_spec (fmpq_poly_degree D).toNat (rule_start D) hstart'
  rw [hdeg] at h1 h3 h4
  exact ⟨m, D, _, hclear, hrun, hwD, hval, hlen, rfl, rfl, hdeg, rfl, h1, hstart, h3, h4⟩

/-- Claim C19. For every non-zero `P` (top numerator and denominator not zero), with
`D` the polynomial left by `clear_x_minus_1`, the loop of `Bistritz_rule` starts in
the state `rule_start D`, the `sigma1` returned by `rule_init D` is `2 * D(1)` and is
not zero, and `last_sgn` is `+1` (when `D(1) > 0`) or `-1` (when `D(1) < 0`) at that
point, never `0`. -/
theorem C19_initial_sigma_is_twice_value_and_nonzero (P : fmpq_poly) (hwf : well_formed P)
    (hne : P.coeffs ≠ []) :
    ∃ (m : Int) (D : fmpq_poly),
      clear_x_minus_1 P = some (m, D) ∧
      Bistritz_run P = some ⟨m, fmpq_poly_degree D,
        (rule_loop 0 (fmpq_poly_degree D).toNat (fmpq_poly_degree D - 1) (rule_start D)).1,
        (rule_loop 0 (fmpq_poly_degree D).toNat (fmpq_poly_degree D - 1) (rule_start D)).2⟩ ∧
      (rule_init D).2.2.1.toRat = 2 * eval_at_1 D ∧
      (rule_init D).2.2.1.toRat ≠ 0 ∧
      (rule_start D).sigma_prev = (rule_init D).2.2.1 ∧
      (rule_start D).last_sgn ≠ 0 ∧
      (((rule_start D).last_sgn = 1 ∧ 0 < eval_at_1 D)
        ∨ ((rule_start D).last_sgn = -1 ∧ eval_at_1 D < 0)) := by
  obtain ⟨m, D, hclear, hwD, hDne, hlen, hval⟩ := clear_x_minus_1_nonzero P hwf hne
  obtain ⟨hw1, _, _, _, _, _, _, hs1, _⟩ := rule_init_spec D hwD
  have hσ : (rule_init D).2.2.1.toRat = 2 * eval_at_1 D := by
    rw [hs1, eval_at_1_rule_init D hwD]
  have hden : 0 < (rule_init D).2.2.1.den := by
    rw [rule_init_sigma1]
    exact eval_at_1_sym_den_pos _ hw1.2
  have hl : (rule_start D).last_sgn = fmpq_sgn (rule_init D).2.2.1 := rfl
  have hsgn : ((rule_start D).last_sgn = 1 ∧ 0 < eval_at_1 D)
      ∨ ((rule_start D).last_sgn = -1 ∧ eval_at_1 D < 0) := by
    rcases lt_or_gt_of_ne hval with h | h
    · right
      refine ⟨?_, h⟩
      rw [hl]
      apply fmpq_sgn_of_neg _ hden
      rw [hσ]
      linarith
    · left
      refine ⟨?_, h⟩
      rw [hl]
      apply fmpq_sgn_of_pos _ hden
      rw [hσ]
      linarith
  refine ⟨m, D, hclear, Bistritz_run_eq P m D hclear, hσ, ?_, rfl, ?_, hsgn⟩
  · rw [hσ]
    exact mul_ne_zero two_ne_zero hval
  · rcases hsgn with h | h
    · rw [h.1]
      decide
    · rw [h.1]
      decide

/-- Instance of `C19_initial_sigma_is_twice_value_and_nonzero` on
`(1 - 3x + 2x^2) / 5`. -/
theorem C19_initial_sigma_is_twice_value_and_nonzero_witness :
    well_formed ⟨[1, -3, 2], 5⟩ ∧ (⟨[1, -3, 2], 5⟩ : fmpq_poly).coeffs ≠ [] ∧
    ∃ (m : Int) (D : fmpq_poly),
      clear_x_minus_1 ⟨[1, -3, 2], 5⟩ = some (m, D) ∧
      Bistritz_run ⟨[1, -3, 2], 5⟩ = some ⟨m, fmpq_poly_degree D,
        (rule_loop 0 (fmpq_poly_degree D).toNat (fmpq_poly_degree D - 1) (rule_start D)).1,
        (rule_loop 0 (fmpq_poly_degree D).toNat (fmpq_poly_degree D - 1) (rule_start D)).2⟩ ∧
      (rule_init D).2.2.1.toRat = 2 * eval_at_1 D ∧
      (rule_init D).2.2.1.toRat ≠ 0 ∧
      (rule_start D).sigma_prev = (rule_init D).2.2.1 ∧
      (rule_start D).last_sgn ≠ 0 ∧
      (((rule_start D).last_sgn = 1 ∧ 0 < eval_at_1 D)
        ∨ ((rule_start D).last_sgn = -1 ∧ eval_at_1 D < 0)) :=
  ⟨by decide, by decide,
    C19_initial_sigma_is_twice_value_and_nonzero ⟨[1, -3, 2], 5⟩ (by decide) (by decide)⟩

/-- Claim C17. For every non-zero input polynomial (top numerator and denominator
not zero) the loop of `Bistritz_rule` makes exactly `deg` iterations, `deg` being the
degree after deflation: the loop is left with `i = -1`, the list of the iterations
entered has `deg` entries, and in none of them are `T_curr` and `T_prev` both zero,
so no iteration takes the `break`. -/
theorem C17_loop_runs_deg_iterations (P : fmpq_poly) (hwf : well_formed P)
    (hne : P.coeffs ≠ []) :
    ∃ (m : Int) (D : fmpq_poly) (r : rule_run),
      clear_x_minus_1 P = some (m, D) ∧ Bistritz_run P = some r ∧
      r.deg = fmpq_poly_degree D ∧ 0 ≤ r.deg ∧
      (r.i, r.s) = rule_loop 0 r.deg.toNat (r.deg - 1) (rule_start D) ∧
      r.i = -1 ∧
      ((rule_trace 0 r.deg.toNat (r.deg - 1) (rule_start D)).length : Int) = r.deg ∧
      ∀ e ∈ rule_trace 0 r.deg.toNat (r.deg - 1) (rule_start D),
        ¬ (fmpq_poly_is_zero e.2.T_curr = true ∧ fmpq_poly_is_zero e.2.T_prev = true) ∧
        rule_step 0 e.1 e.2 ≠ none := by
  obtain ⟨m, D, r, hclear, hrun, _, _, _, _, hdeg, hnat, hs, hi, _, hlen, htr⟩ :=
    run_spec P hwf hne
  refine ⟨m, D, r, hclear, hrun, hdeg, by omega, ?_, hi, by rw [hlen, hnat], ?_⟩
  · rw [Bistritz_run_eq P m D hclear] at hrun
    have := Option.some.inj hrun
    rw [← this]
  · intro e he
    obtain ⟨h0, hinv⟩ := htr e he
    constructor
    · rintro ⟨hc, hp⟩
      rcases hinv.2.2.2.2.2.2.2.2 with h | h
      · exact h ((is_zero_iff _).mp hp)
      · exact h ((is_zero_iff _).mp hc)
    · obtain ⟨s', hstep, _⟩ := loop_invariant_step e.1 e.2 h0 hinv
      rw [hstep]
      simp

/-- Instance of `C17_loop_runs_deg_iterations` on `(1 - 3x + 2x^2) / 5`. -/
theorem C17_loop_runs_deg_iterations_witness :
    well_formed ⟨[1, -3, 2], 5⟩ ∧ (⟨[1, -3, 2], 5⟩ : fmpq_poly).coeffs ≠ [] ∧
    ∃ (m : Int) (D : fmpq_poly) (r : rule_run),
      clear_x_minus_1 ⟨[1, -3, 2], 5⟩ = some (m, D) ∧ Bistritz_run ⟨[1, -3, 2], 5⟩ = some r ∧
      r.deg = fmpq_poly_degree D ∧ 0 ≤ r.deg ∧
      (r.i, r.s) = rule_loop 0 r.deg.toNat (r.deg - 1) (rule_start D) ∧
      r.i = -1 ∧
      ((rule_trace 0 r.deg.toNat (r.deg - 1) (rule_start D)).length : Int) = r.deg ∧
      ∀ e ∈ rule_trace 0 r.deg.toNat (r.deg - 1) (rule_start D),
        ¬ (fmpq_poly_is_zero e.2.T_curr = true ∧ fmpq_poly_is_zero e.2.T_prev = true) ∧
        rule_step 0 e.1 e.2 ≠ none :=
  ⟨by decide, by decide, C17_loop_runs_deg_iterations ⟨[1, -3, 2], 5⟩ (by decide) (by decide)⟩

/-- Claim C18. Loop invariant of `Bistritz_rule`: for every non-zero input (top
numerator and denominator not zero), at the start of each of the `deg` iterations,
with loop index `i`, `T_prev` is formally symmetric of formal length `i + 2`,
`T_curr` is formally symmetric of formal length `i + 1`, `sigma_prev = T_prev(1)` and
`sigma_curr = T_curr(1)`; and the polynomial that `do_recurence` returns for
`flength = i` from these slots is formally symmetric of formal length `i`. -/
theorem C18_loop_invariant_formal_symmetry (P : fmpq_poly) (hwf : well_formed P)
    (hne : P.coeffs ≠ []) :
    ∃ (m : Int) (D : fmpq_poly) (r : rule_run),
      clear_x_minus_1 P = some (m, D) ∧ Bistritz_run P = some r ∧
      r.deg = fmpq_poly_degree D ∧
      (r.i, r.s) = rule_loop 0 r.deg.toNat (r.deg - 1) (rule_start D) ∧
      ((rule_trace 0 r.deg.toNat (r.deg - 1) (rule_start D)).length : Int) = r.deg ∧
      ∀ e ∈ rule_trace 0 r.deg.toNat (r.deg - 1) (rule_start D),
        formally_symmetric e.2.T_prev (e.1 + 2) ∧
        formally_symmetric e.2.T_curr (e.1 + 1) ∧
        e.2.sigma_prev.toRat = eval_at_1 e.2.T_prev ∧
        e.2.sigma_curr.toRat = eval_at_1 e.2.T_curr ∧
        formally_symmetric
          (do_recurence e.2.delta 0 e.2.T_prev e.2.T_curr e.2.sigma_prev e.2.sigma_curr e.1).1
          e.1 := by
  obtain ⟨m, D, r, hclear, hrun, _, _, _, _, hdeg, hnat, hs, hi, _, hlen, htr⟩ :=
    run_spec P hwf hne
  refine ⟨m, D, r, hclear, hrun, hdeg, ?_, by rw [hlen, hnat], ?_⟩
  · rw [Bistritz_run_eq P m D hclear] at hrun
    have := Option.some.inj hrun
    rw [← this]
  · intro e he
    obtain ⟨h0, hinv⟩ := htr e he
    obtain ⟨hwA, hwB, hsA, hsB, hσA, hσB, _, _, _⟩ := hinv
    refine ⟨hsA, hsB, hσA, hσB, ?_⟩
    by_cases h1 : 1 ≤ e.1
    · exact (do_recurence_spec e.2.delta e.2.T_prev e.2.T_curr e.2.sigma_prev e.2.sigma_curr
        e.1 h1 hwA hwB hsA hsB).2.1
    · have hr : (do_recurence e.2.delta 0 e.2.T_prev e.2.T_curr e.2.sigma_prev e.2.sigma_curr
          e.1).1 = fmpq_poly_zero := by
        unfold do_recurence
        rw [if_pos (by omega)]
      rw [hr]
      exact formally_symmetric_of_nil _ rfl _ h0

/-- Instance of `C18_loop_invariant_formal_symmetry` on `(1 - 3x + 2x^2) / 5`. -/
theorem C18_loop_invariant_formal_symmetry_witness :
    well_formed ⟨[1, -3, 2], 5⟩ ∧ (⟨[1, -3, 2], 5⟩ : fmpq_poly).coeffs ≠ [] ∧
    ∃ (m : Int) (D : fmpq_poly) (r : rule_run),
      clear_x_minus_1 ⟨[1, -3, 2], 5⟩ = some (m, D) ∧ Bistritz_run ⟨[1, -3, 2], 5⟩ = some r ∧
      r.deg = fmpq_poly_degree D ∧
      (r.i, r.s) = rule_loop 0 r.deg.toNat (r.deg - 1) (rule_start D) ∧
      ((rule_trace 0 r.deg.toNat (r.deg - 1) (rule_start D)).length : Int) = r.deg ∧
      ∀ e ∈ rule_trace 0 r.deg.toNat (r.deg - 1) (rule_start D),
        formally_symmetric e.2.T_prev (e.1 + 2) ∧
        formally_symmetric e.2.T_curr (e.1 + 1) ∧
        e.2.sigma_prev.toRat = eval_at_1 e.2.T_prev ∧
        e.2.sigma_curr.toRat = eval_at_1 e.2.T_curr ∧
        formally_symmetric
          (do_recurence e.2.delta 0 e.2.T_prev e.2.T_curr e.2.sigma_prev e.2.sigma_curr e.1).1
          e.1 :=
  ⟨by decide, by decide,
    C18_loop_invariant_formal_symmetry ⟨[1, -3, 2], 5⟩ (by decide) (by decide)⟩

/-! ## Sign bookkeeping -/

theorem sign_changes_head_congr (a b : ℚ) (h : 0 < a * b) (L : List ℚ) :
    sign_changes (a :: L) = sign_changes (b :: L) := by
  cases L with
  | nil => rfl
  | cons y L =>
    simp only [sign_changes]
    have : a * y < 0 ↔ b * y < 0 := by
      rcases mul_pos_iff.mp h with ⟨ha, hb⟩ | ⟨ha, hb⟩
      · rw [mul_neg_iff, mul_neg_iff]
        constructor
        · rintro (⟨_, hy⟩ | ⟨h1, _⟩)
          · exact Or.inl ⟨hb, hy⟩
          · exact absurd h1 (not_lt.mpr ha.le)
        · rintro (⟨_, hy⟩ | ⟨h1, _⟩)
          · exact Or.inl ⟨ha, hy⟩
          · exact absurd h1 (not_lt.mpr hb.le)
      · rw [mul_neg_iff, mul_neg_iff]
        constructor
        · rintro (⟨h1, _⟩ | ⟨_, hy⟩)
          · exact absurd h1 (not_lt.mpr ha.le)
          · exact Or.inr ⟨hb, hy⟩
        · rintro (⟨h1, _⟩ | ⟨_, hy⟩)
          · exact absurd h1 (not_lt.mpr hb.le)
          · exact Or.inr ⟨ha, hy⟩
    simp only [this]

theorem sign_variations_cons_zero (a : ℚ) (rest : List ℚ) :
    sign_variations (a :: 0 :: rest) = sign_variations (a :: rest) := by
  unfold sign_variations
  by_cases ha : a = 0
  · simp [List.filter_cons, ha]
  · simp [List.filter_cons, ha]

theorem sign_variations_cons_cons (a x : ℚ) (ha : a ≠ 0) (hx : x ≠ 0) (rest : List ℚ) :
    sign_variations (a :: x :: rest)
      = (if a * x < 0 then 1 else 0) + sign_variations (x :: rest) := by
  unfold sign_variations
  simp [List.filter_cons, ha, hx, sign_changes]

theorem sign_variations_head_congr (a b : ℚ) (h : 0 < a * b) (rest : List ℚ) :
    sign_variations (a :: rest) = sign_variations (b :: rest) := by
  have ha : a ≠ 0 := by
    intro h0
    rw [h0] at h
    simp at h
  have hb : b ≠ 0 := by
    intro h0
    rw [h0] at h
    simp at h
  unfold sign_variations
  simp only [List.filter_cons, ha, hb, ne_eq, not_false_eq_true, decide_True, if_true]
  exact sign_changes_head_congr a b h _

/-- One pass of the sign bookkeeping: `last_sgn` is `l`, the sign of the value `x`
read is `c`. -/
theorem sign_bookkeeping (l : Int) (hl : l = 1 ∨ l = -1) (x : ℚ) (c : Int)
    (hc : (x < 0 ∧ c = -1) ∨ (x = 0 ∧ c = 0) ∨ (0 < x ∧ c = 1)) (rest : List ℚ) :
    Int.tdiv (1 - l * c) 2
        + (sign_variations ((((if c ≠ 0 then c else l) : Int) : ℚ) :: rest) : Int)
      = (sign_variations ((l : ℚ) :: x :: rest) : Int) ∧
    ((if c ≠ 0 then c else l) = 1 ∨ (if c ≠ 0 then c else l) = -1) ∧
    (Int.tdiv (1 - l * c) 2 = 0 ∨ Int.tdiv (1 - l * c) 2 = 1) := by
  rcases hc with ⟨hx, rfl⟩ | ⟨rfl, rfl⟩ | ⟨hx, rfl⟩
  · -- the value read is negative
    have e : sign_variations (((-1 : Int) : ℚ) :: rest) = sign_variations (x :: rest) :=
      sign_variations_head_congr _ _ (by push_cast; linarith) rest
    rcases hl with rfl | rfl
    · refine ⟨?_, by decide, by decide⟩
      rw [sign_variations_cons_cons _ _ (by norm_num) (ne_of_lt hx)]
      have h1 : ((1 : Int) : ℚ) * x < 0 := by push_cast; linarith
      rw [if_pos h1]
      simp only [ne_eq, show ¬ ((-1 : Int) = 0) by decide, not_false_eq_true, if_true]
      rw [e]
      have : Int.tdiv (1 - 1 * -1) 2 = 1 := by decide
      rw [this]
      push_cast
      ring
    · refine ⟨?_, by decide, by decide⟩
      rw [sign_variations_cons_cons _ _ (by norm_num) (ne_of_lt hx)]
      have h1 : ¬ (((-1 : Int) : ℚ) * x < 0) := by push_cast; linarith
      rw [if_neg h1]
      simp only [ne_eq, show ¬ ((-1 : Int) = 0) by decide, not_false_eq_true, if_true]
      rw [e]
      have : Int.tdiv (1 - -1 * -1) 2 = 0 := by decide
      rw [this]
      push_cast
      ring
  · -- the value read is zero
    simp only [ne_eq, not_true_eq_false, if_false, mul_zero, sub_zero]
    refine ⟨?_, hl, Or.inl (by decide)⟩
    rw [sign_variations_cons_zero]
    have : Int.tdiv 1 2 = 0 := by decide
    rw [this]
    ring
  · -- the value read is positive
    have e : sign_variations (((1 : Int) : ℚ) :: rest) = sign_variations (x :: rest) :=
      sign_variations_head_congr _ _ (by push_cast; linarith) rest
    rcases hl with rfl | rfl
    · refine ⟨?_, by decide, by decide⟩
      rw [sign_variations_cons_cons _ _ (by norm_num) (ne_of_gt hx)]
      have h1 : ¬ (((1 : Int) : ℚ) * x < 0) := by push_cast; linarith
      rw [if_neg h1]
      simp only [ne_eq, show ¬ ((1 : Int) = 0) by decide, not_false_eq_true, if_true]
      rw [e]
      have : Int.tdiv (1 - 1 * 1) 2 = 0 := by decide
      rw [this]
      push_cast
      ring
    · refine ⟨?_, by decide, by decide⟩
      rw [sign_variations_cons_cons _ _ (by norm_num) (ne_of_gt hx)]
      have h1 : ((-1 : Int) : ℚ) * x < 0 := by push_cast; linarith
      rw [if_pos h1]
      simp only [ne_eq, show ¬ ((1 : Int) = 0) by decide, not_false_eq_true, if_true]
      rw [e]
      have : Int.tdiv (1 - -1 * 1) 2 = 1 := by decide
      rw [this]
      push_cast
      ring

/-- The sign that `fmpq_sgn` returns for a rational with positive denominator. -/
theorem fmpq_sgn_cases (q : fmpq) (hd : 0 < q.den) :
    (q.toRat < 0 ∧ fmpq_sgn q = -1) ∨ (q.toRat = 0 ∧ fmpq_sgn q = 0)
      ∨ (0 < q.toRat ∧ fmpq_sgn q = 1) := by
  rcases lt_trichotomy q.toRat 0 with h | h | h
  · exact Or.inl ⟨h, fmpq_sgn_of_neg q hd h⟩
  · exact Or.inr (Or.inl ⟨h, fmpq_sgn_of_zero q hd h⟩)
  · exact Or.inr (Or.inr ⟨h, fmpq_sgn_of_pos q hd h⟩)

theorem rule_step_eq_branch (c i : Int) (s : rule_state) :
    rule_step c i s = (rule_branch c i s).map rule_count_and_rotate := by
  unfold rule_step rule_branch
  split_ifs <;> rfl

theorem rule_branch_keeps_counters (c i : Int) (s t : rule_state)
    (h : rule_branch c i s = some t) : t.last_sgn = s.last_sgn ∧ t.vars = s.vars := by
  have hr : (rule_regular c i s).last_sgn = s.last_sgn ∧ (rule_regular c i s).vars = s.vars :=
    ⟨rfl, rfl⟩
  have hs : (rule_singular i s).last_sgn = s.last_sgn ∧ (rule_singular i s).vars = s.vars := by
    unfold rule_singular
    simp only
    split <;> exact ⟨rfl, rfl⟩
  unfold rule_branch at h
  split_ifs at h
  · rw [← Option.some.inj h]
    exact hr
  · rw [← Option.some.inj h]
    exact hs
  · rw [← Option.some.inj h]
    exact hr

theorem rotate_counters (t : rule_state) :
    (rule_count_and_rotate t).vars
        = t.vars + Int.tdiv (1 - t.last_sgn * fmpq_sgn t.sigma_curr) 2 ∧
    (rule_count_and_rotate t).last_sgn
        = (if fmpq_sgn t.sigma_curr ≠ 0 then fmpq_sgn t.sigma_curr else t.last_sgn) ∧
    (rule_count_and_rotate t).sigma_prev = t.sigma_curr :=
  ⟨rfl, rfl, rfl⟩

theorem sign_variations_singleton (a : ℚ) : sign_variations [a] = 0 := by
  unfold sign_variations
  by_cases ha : a = 0
  · simp [List.filter_cons, ha, sign_changes]
  · simp [List.filter_cons, ha, sign_changes]

/-- One iteration seen by the sign bookkeeping: `vars` grows by `0` or `1`, and a
zero `sigma_curr` leaves `vars` and `last_sgn` as they were. -/
theorem iteration_counters (i : Int) (s : rule_state) (hi : 0 ≤ i)
    (hinv : loop_invariant i s) (hl : s.last_sgn = 1 ∨ s.last_sgn = -1)
    (t : rule_state) (hbr : rule_branch 0 i s = some t) :
    rule_step 0 i s = some (rule_count_and_rotate t) ∧
    0 < t.sigma_curr.den ∧
    ((rule_count_and_rotate t).vars = s.vars ∨ (rule_count_and_rotate t).vars = s.vars + 1) ∧
    (t.sigma_curr.toRat = 0 →
      (rule_count_and_rotate t).vars = s.vars ∧
      (rule_count_and_rotate t).last_sgn = s.last_sgn) := by
  obtain ⟨s', hstep, hinv'⟩ := loop_invariant_step i s hi hinv
  have hstep' : rule_step 0 i s = some (rule_count_and_rotate t) := by
    rw [rule_step_eq_branch, hbr]
    rfl
  have hs' : s' = rule_count_and_rotate t := by
    rw [hstep] at hstep'
    exact Option.some.inj hstep'
  obtain ⟨hkl, hkv⟩ := rule_branch_keeps_counters 0 i s t hbr
  obtain ⟨rv, rl, rs⟩ := rotate_counters t
  have hden : 0 < t.sigma_curr.den := by
    rw [← rs, ← hs']
    exact hinv'.2.2.2.2.2.2.1
  obtain ⟨_, _, b3⟩ := sign_bookkeeping s.last_sgn hl t.sigma_curr.toRat
    (fmpq_sgn t.sigma_curr) (fmpq_sgn_cases t.sigma_curr hden) []
  rw [hkl, hkv] at rv
  rw [hkl] at rl
  refine ⟨hstep', hden, ?_, ?_⟩
  · rcases b3 with h | h
    · left
      rw [rv, h]
      ring
    · right
      rw [rv, h]
  · intro h0
    have hz := fmpq_sgn_of_zero t.sigma_curr hden h0
    rw [rv, rl, hz]
    refine ⟨?_, by simp⟩
    have : Int.tdiv (1 - s.last_sgn * 0) 2 = 0 := by
      rw [mul_zero]
      decide
    rw [this]
    ring

/-- The variation count at the end of the loop, from a state that satisfies the
invariant at `i = n - 1` and whose `last_sgn` is not zero. -/
theorem vars_spec (n : Nat) : ∀ (s : rule_state), loop_invariant ((n : Int) - 1) s →
    (s.last_sgn = 1 ∨ s.last_sgn = -1) →
    (observed_sigmas 0 n ((n : Int) - 1) s).length = n ∧
    (rule_loop 0 n ((n : Int) - 1) s).2.vars
      = s.vars + (sign_variations ((s.last_sgn : ℚ) ::
          (observed_sigmas 0 n ((n : Int) - 1) s).map fmpq.toRat) : Int) ∧
    ∀ e ∈ rule_trace 0 n ((n : Int) - 1) s, e.2.last_sgn = 1 ∨ e.2.last_sgn = -1 := by
  induction n with
  | zero =>
    intro s _ _
    refine ⟨by simp [observed_sigmas], ?_, ?_⟩
    · simp [rule_loop, observed_sigmas, sign_variations_singleton]
    · intro e he
      simp [rule_trace] at he
  | succ n ih =>
    intro s hinv hl
    have hi : (0 : Int) ≤ ((n + 1 : Nat) : Int) - 1 := by
      push_cast
      omega
    obtain ⟨s', hstep, hinv'⟩ := loop_invariant_step _ s hi hinv
    have hstep' := hstep
    rw [rule_step_eq_branch] at hstep'
    obtain ⟨t, hbr, hrot⟩ := Option.map_eq_some'.mp hstep'
    obtain ⟨hkl, hkv⟩ := rule_branch_keeps_counters 0 _ s t hbr
    obtain ⟨rv, rl, rs⟩ := rotate_counters t
    rw [hrot] at rv rl rs
    have hden : 0 < t.sigma_curr.den := by
      rw [← rs]
      exact hinv'.2.2.2.2.2.2.1
    have e : ((n + 1 : Nat) : Int) - 1 - 1 = (n : Int) - 1 := by
      push_cast
      ring
    rw [e] at hinv'
    obtain ⟨b1, b2, _⟩ := sign_bookkeeping s.last_sgn hl t.sigma_curr.toRat
      (fmpq_sgn t.sigma_curr) (fmpq_sgn_cases t.sigma_curr hden)
      ((observed_sigmas 0 n ((n : Int) - 1) s').map fmpq.toRat)
    rw [hkl] at rl rv
    rw [hkv] at rv
    have hl' : s'.last_sgn = 1 ∨ s'.last_sgn = -1 := by
      rw [rl]
      exact b2
    obtain ⟨h1, h2, h3⟩ := ih s' hinv' hl'
    rw [rule_loop, rule_trace, observed_sigmas]
    simp only [hstep, hbr, hrot]
    rw [e]
    refine ⟨by simp [h1], ?_, ?_⟩
    · rw [h2, rv, rl, List.map_cons, ← b1]
      ring
    · intro x hx
      rcases List.mem_cons.mp hx with hx | hx
      · rw [hx]
        exact hl
      · exact h3 x hx

/-- Claim C16. For every non-zero input (top numerator and denominator not zero), at
the end of the loop of `Bistritz_rule` `vars` is the number of sign variations of the
sequence made of the initial `sigma_prev` followed by the `sigma_curr` read by the
sign bookkeeping of each of the `deg` iterations (changes of sign between consecutive
non-zero terms, zeros skipped); every iteration adds `0` or `1` to `vars`, and an
iteration that reads a zero `sigma_curr` adds `0` and leaves `last_sgn` unchanged. -/
theorem C16_vars_counts_sign_variations (P : fmpq_poly) (hwf : well_formed P)
    (hne : P.coeffs ≠ []) :
    ∃ (m : Int) (D : fmpq_poly) (r : rule_run),
      clear_x_minus_1 P = some (m, D) ∧ Bistritz_run P = some r ∧
      r.deg = fmpq_poly_degree D ∧
      (r.i, r.s) = rule_loop 0 r.deg.toNat (r.deg - 1) (rule_start D) ∧
      ((observed_sigmas 0 r.deg.toNat (r.deg - 1) (rule_start D)).length : Int) = r.deg ∧
      r.s.vars = (sign_variations ((rule_start D).sigma_prev.toRat ::
        (observed_sigmas 0 r.deg.toNat (r.deg - 1) (rule_start D)).map fmpq.toRat) : Int) ∧
      ∀ e ∈ rule_trace 0 r.deg.toNat (r.deg - 1) (rule_start D),
        ∀ t, rule_branch 0 e.1 e.2 = some t →
          rule_step 0 e.1 e.2 = some (rule_count_and_rotate t) ∧
          ((rule_count_and_rotate t).vars = e.2.vars
            ∨ (rule_count_and_rotate t).vars = e.2.vars + 1) ∧
          (t.sigma_curr.toRat = 0 →
            (rule_count_and_rotate t).vars = e.2.vars ∧
            (rule_count_and_rotate t).last_sgn = e.2.last_sgn) := by
  obtain ⟨m, D, r, hclear, hrun, hwD, hval, _, _, hdeg, hnat, hs, hi, hstart, hlen, htr⟩ :=
    run_spec P hwf hne
  have hstart' := hstart
  rw [← hnat] at hstart'
  -- the sign on entry
  have hσ : (rule_start D).sigma_prev.toRat = 2 * eval_at_1 D := by
    rw [hstart.2.2.2.2.1]
    exact eval_at_1_rule_init D hwD
  have hden : 0 < (rule_start D).sigma_prev.den := hstart.2.2.2.2.2.2.1
  have hl0 : (rule_start D).last_sgn = fmpq_sgn (rule_start D).sigma_prev := rfl
  have hsgn : ((rule_start D).last_sgn = 1 ∨ (rule_start D).last_sgn = -1) ∧
      0 < ((rule_start D).last_sgn : ℚ) * (rule_start D).sigma_prev.toRat := by
    rcases fmpq_sgn_cases (rule_start D).sigma_prev hden with ⟨h, hc⟩ | ⟨h, _⟩ | ⟨h, hc⟩
    · rw [hl0, hc]
      refine ⟨Or.inr rfl, ?_⟩
      push_cast
      linarith
    · rw [hσ] at h
      exact absurd h (mul_ne_zero two_ne_zero hval)
    · rw [hl0, hc]
      refine ⟨Or.inl rfl, ?_⟩
      push_cast
      linarith
  obtain ⟨v1, v2, v3⟩ := vars_spec r.deg.toNat (rule_start D) hstart' hsgn.1
  rw [hnat] at v1 v2 v3
  refine ⟨m, D, r, hclear, hrun, hdeg, ?_, by rw [v1, hnat], ?_, ?_⟩
  · rw [Bistritz_run_eq P m D hclear] at hrun
    have := Option.some.inj hrun
    rw [← this]
  · rw [hs, v2, sign_variations_head_congr _ _ hsgn.2]
    have : (rule_start D).vars = 0 := rfl
    rw [this]
    ring
  · intro e he t hbr
    obtain ⟨h0, hinv⟩ := htr e he
    obtain ⟨c1, _, c3, c4⟩ := iteration_counters e.1 e.2 h0 hinv (v3 e he) t hbr
    exact ⟨c1, c3, c4⟩

/-- Instance of `C16_vars_counts_sign_variations` on `(1 - 3x + 2x^2) / 5`. -/
theorem C16_vars_counts_sign_variations_witness :
    well_formed ⟨[1, -3, 2], 5⟩ ∧ (⟨[1, -3, 2], 5⟩ : fmpq_poly).coeffs ≠ [] ∧
    ∃ (m : Int) (D : fmpq_poly) (r : rule_run),
      clear_x_minus_1 ⟨[1, -3, 2], 5⟩ = some (m, D) ∧ Bistritz_run ⟨[1, -3, 2], 5⟩ = some r ∧
      r.deg = fmpq_poly_degree D ∧
      (r.i, r.s) = rule_loop 0 r.deg.toNat (r.deg - 1) (rule_start D) ∧
      ((observed_sigmas 0 r.deg.toNat (r.deg - 1) (rule_start D)).length : Int) = r.deg ∧
      r.s.vars = (sign_variations ((rule_start D).sigma_prev.toRat ::
        (observed_sigmas 0 r.deg.toNat (r.deg - 1) (rule_start D)).map fmpq.toRat) : Int) ∧
      ∀ e ∈ rule_trace 0 r.deg.toNat (r.deg - 1) (rule_start D),
        ∀ t, rule_branch 0 e.1 e.2 = some t →
          rule_step 0 e.1 e.2 = some (rule_count_and_rotate t) ∧
          ((rule_count_and_rotate t).vars = e.2.vars
            ∨ (rule_count_and_rotate t).vars = e.2.vars + 1) ∧
          (t.sigma_curr.toRat = 0 →
            (rule_count_and_rotate t).vars = e.2.vars ∧
            (rule_count_and_rotate t).last_sgn = e.2.last_sgn) :=
  ⟨by decide, by decide,
    C16_vars_counts_sign_variations ⟨[1, -3, 2], 5⟩ (by decide) (by decide)⟩

/-! ## The record of the first singular step -/

theorem rule_step_of_singular (c i : Int) (s : rule_state)
    (h : takes_singular_branch s = true) :
    rule_step c i s = some (rule_count_and_rotate (rule_singular i s)) := by
  unfold takes_singular_branch at h
  simp only [Bool.and_eq_true, Bool.not_eq_true', decide_eq_false_iff_not] at h
  obtain ⟨⟨h1, h2⟩, h3⟩ := h
  unfold rule_step
  rw [if_pos h1, if_neg (by rw [h2]; simp), if_neg h3]

theorem rule_step_of_not_singular (c i : Int) (s s' : rule_state)
    (h : takes_singular_branch s = false) (hs : rule_step c i s = some s') :
    s' = rule_count_and_rotate (rule_regular c i s) := by
  unfold takes_singular_branch at h
  unfold rule_step at hs
  split_ifs at hs with h1 h2 h3
  · exact (Option.some.inj hs).symm
  · exfalso
    simp [h1, h2, h3] at h
  · exact (Option.some.inj hs).symm

theorem rule_step_none_not_singular (c i : Int) (s : rule_state)
    (hs : rule_step c i s = none) : takes_singular_branch s = false := by
  unfold rule_step at hs
  split_ifs at hs with h1 h2
  unfold takes_singular_branch
  simp [h1, h2]

theorem singular_record_regular (c i : Int) (s : rule_state) :
    (rule_count_and_rotate (rule_regular c i s)).singular = s.singular ∧
    (rule_count_and_rotate (rule_regular c i s)).vars_reg = s.vars_reg :=
  ⟨rfl, rfl⟩

theorem singular_record_first (i : Int) (s : rule_state) (h : s.singular = -1) :
    (rule_count_and_rotate (rule_singular i s)).singular = i ∧
    (rule_count_and_rotate (rule_singular i s)).vars_reg = s.vars := by
  unfold rule_singular
  simp only
  rw [if_pos h]
  exact ⟨rfl, rfl⟩

theorem singular_record_later (i : Int) (s : rule_state) (h : s.singular ≠ -1) :
    (rule_count_and_rotate (rule_singular i s)).singular = s.singular ∧
    (rule_count_and_rotate (rule_singular i s)).vars_reg = s.vars_reg := by
  unfold rule_singular
  simp only
  rw [if_neg h]
  exact ⟨rfl, rfl⟩

/-- Once `singular` is set, no later iteration changes `singular` or `vars_reg`. -/
theorem singular_record_frozen (c : Int) (n : Nat) : ∀ (i : Int) (s : rule_state),
    s.singular ≠ -1 →
    (rule_loop c n i s).2.singular = s.singular ∧
    (rule_loop c n i s).2.vars_reg = s.vars_reg := by
  induction n with
  | zero =>
    intro i s _
    exact ⟨rfl, rfl⟩
  | succ n ih =>
    intro i s h
    rw [rule_loop]
    cases hstep : rule_step c i s with
    | none => exact ⟨rfl, rfl⟩
    | some s' =>
      simp only
      have hrec : s'.singular = s.singular ∧ s'.vars_reg = s.vars_reg := by
        cases hb : takes_singular_branch s with
        | true =>
          rw [rule_step_of_singular c i s hb] at hstep
          rw [← Option.some.inj hstep]
          exact singular_record_later i s h
        | false =>
          rw [rule_step_of_not_singular c i s s' hb hstep]
          exact singular_record_regular c i s
      obtain ⟨a1, a2⟩ := ih (i - 1) s' (by rw [hrec.1]; exact h)
      rw [a1, a2]
      exact hrec

/-- The values of `singular` and `vars_reg` at the end of the loop: those recorded at
the first iteration that takes the singular branch, if there is one. -/
theorem singular_record_spec (c : Int) (n : Nat) : ∀ (i : Int) (s : rule_state),
    s.singular = -1 → (n : Int) ≤ i + 1 →
    ((rule_trace c n i s).find? (fun e => takes_singular_branch e.2) = none →
      (rule_loop c n i s).2.singular = -1 ∧ (rule_loop c n i s).2.vars_reg = s.vars_reg) ∧
    (∀ e, (rule_trace c n i s).find? (fun e => takes_singular_branch e.2) = some e →
      0 ≤ e.1 ∧ (rule_loop c n i s).2.singular = e.1 ∧
      (rule_loop c n i s).2.vars_reg = e.2.vars) := by
  induction n with
  | zero =>
    intro i s h _
    refine ⟨fun _ => ⟨h, rfl⟩, ?_⟩
    intro e he
    simp [rule_trace] at he
  | succ n ih =>
    intro i s h hn
    have hi : 0 ≤ i := by
      push_cast at hn
      omega
    rw [rule_loop, rule_trace]
    cases hstep : rule_step c i s with
    | none =>
      simp only
      have hb := rule_step_none_not_singular c i s hstep
      refine ⟨fun _ => ⟨h, trivial⟩, ?_⟩
      intro e he
      simp [List.find?, hb] at he
    | some s' =>
      simp only
      cases hb : takes_singular_branch s with
      | true =>
        have hs' : s' = rule_count_and_rotate (rule_singular i s) := by
          rw [rule_step_of_singular c i s hb] at hstep
          exact (Option.some.inj hstep).symm
        obtain ⟨r1, r2⟩ := singular_record_first i s h
        rw [← hs'] at r1 r2
        obtain ⟨a1, a2⟩ := singular_record_frozen c n (i - 1) s' (by rw [r1]; omega)
        constructor
        · intro hnone
          simp [List.find?, hb] at hnone
        · intro e he
          simp only [List.find?, hb] at he
          have he' := Option.some.inj he
          rw [← he']
          simp only
          rw [a1, a2]
          exact ⟨hi, r1, r2⟩
      | false =>
        have hs' := rule_step_of_not_singular c i s s' hb hstep
        obtain ⟨r1, r2⟩ := singular_record_regular c i s
        rw [← hs'] at r1 r2
        obtain ⟨a1, a2⟩ := ih (i - 1) s' (by rw [r1]; exact h) (by push_cast at hn; omega)
        simp only [List.find?, hb]
        constructor
        · intro hnone
          rw [← r2]
          exact a1 hnone
        · intro e he
          exact a2 e he

/-- Claim C15. For every non-zero `P` (top numerator and denominator not zero), with
`m` the multiplicity returned by the deflation, `deg` the degree after deflation and
`vars` the final variation count, `Bistritz_rule` returns
`inside_count = deg - vars`; when no iteration takes the singular branch,
`on_count = m`; otherwise `on_count = m + 2 * (vars - vars_reg) - singular - 1` where
`singular` is the loop index of the first iteration that takes the singular branch
and `vars_reg` the value of `vars` when that iteration is entered, whatever later
singular steps there are. -/
theorem C15_counts_returned_by_Bistritz_rule (P : fmpq_poly) (hwf : well_formed P)
    (hne : P.coeffs ≠ []) :
    ∃ (m : Int) (D : fmpq_poly) (r : rule_run),
      clear_x_minus_1 P = some (m, D) ∧ Bistritz_run P = some r ∧
      r.deg = fmpq_poly_degree D ∧
      (r.i, r.s) = rule_loop 0 r.deg.toNat (r.deg - 1) (rule_start D) ∧
      ((rule_trace 0 r.deg.toNat (r.deg - 1) (rule_start D)).find?
          (fun e => takes_singular_branch e.2) = none →
        r.s.singular = -1 ∧ Bistritz_rule P = some (r.deg - r.s.vars, m)) ∧
      (∀ e, (rule_trace 0 r.deg.toNat (r.deg - 1) (rule_start D)).find?
          (fun e => takes_singular_branch e.2) = some e →
        r.s.singular = e.1 ∧ r.s.vars_reg = e.2.vars ∧
        Bistritz_rule P
          = some (r.deg - r.s.vars, m + (2 * (r.s.vars - e.2.vars) - e.1 - 1))) := by
  obtain ⟨m, D, r, hclear, hrun, _, _, _, hon, hdeg, hnat, hs, _, _, _, _⟩ :=
    run_spec P hwf hne
  obtain ⟨a1, a2⟩ := singular_record_spec 0 r.deg.toNat (r.deg - 1) (rule_start D) rfl
    (by omega)
  rw [← hs] at a1 a2
  have hrule : Bistritz_rule P = some (rule_finish r) := by
    unfold Bistritz_rule
    rw [hrun]
    rfl
  refine ⟨m, D, r, hclear, hrun, hdeg, ?_, ?_, ?_⟩
  · rw [Bistritz_run_eq P m D hclear] at hrun
    have := Option.some.inj hrun
    rw [← this]
  · intro hnone
    obtain ⟨b1, _⟩ := a1 hnone
    refine ⟨b1, ?_⟩
    rw [hrule]
    unfold rule_finish
    simp only
    rw [if_pos b1, b1, hon]
    congr 2
    ring
  · intro e he
    obtain ⟨b0, b1, b2⟩ := a2 e he
    refine ⟨b1, b2, ?_⟩
    rw [hrule]
    unfold rule_finish
    simp only
    rw [if_neg (by rw [b1]; omega), b1, b2, hon]

/-- Instance of `C15_counts_returned_by_Bistritz_rule` on `(1 - 3x + 2x^2) / 5`. -/
theorem C15_counts_returned_by_Bistritz_rule_witness :
    well_formed ⟨[1, -3, 2], 5⟩ ∧ (⟨[1, -3, 2], 5⟩ : fmpq_poly).coeffs ≠ [] ∧
    ∃ (m : Int) (D : fmpq_poly) (r : rule_run),
      clear_x_minus_1 ⟨[1, -3, 2], 5⟩ = some (m, D) ∧ Bistritz_run ⟨[1, -3, 2], 5⟩ = some r ∧
      r.deg = fmpq_poly_degree D ∧
      (r.i, r.s) = rule_loop 0 r.deg.toNat (r.deg - 1) (rule_start D) ∧
      ((rule_trace 0 r.deg.toNat (r.deg - 1) (rule_start D)).find?
          (fun e => takes_singular_branch e.2) = none →
        r.s.singular = -1 ∧
        Bistritz_rule ⟨[1, -3, 2], 5⟩ = some (r.deg - r.s.vars, m)) ∧
      (∀ e, (rule_trace 0 r.deg.toNat (r.deg - 1) (rule_start D)).find?
          (fun e => takes_singular_branch e.2) = some e →
        r.s.singular = e.1 ∧ r.s.vars_reg = e.2.vars ∧
        Bistritz_rule ⟨[1, -3, 2], 5⟩
          = some (r.deg - r.s.vars, m + (2 * (r.s.vars - e.2.vars) - e.1 - 1))) :=
  ⟨by decide, by decide,
    C15_counts_returned_by_Bistritz_rule ⟨[1, -3, 2], 5⟩ (by decide) (by decide)⟩

/-! ## Multiplication of the input by a constant -/

theorem coefficient_at_of_neg (p : fmpq_poly) (k : Int) (hk : k < 0) : coefficient_at p k = 0 := by
  rw [coefficient_at_eq, rd_neg _ hk]
  simp

theorem rd_zero_iff_of_scaled (c : ℚ) (hc : c ≠ 0) (p q : fmpq_poly) (hp : p.den ≠ 0)
    (hq : q.den ≠ 0) (h : scaled_by c p q) (k : Int) :
    rd q.coeffs k = 0 ↔ rd p.coeffs k = 0 := by
  have h1 := coefficient_at_ne_zero_iff p hp k
  have h2 := coefficient_at_ne_zero_iff q hq k
  rw [h k] at h2
  constructor
  · intro h0
    by_contra hne
    exact (h2.mp (mul_ne_zero hc (h1.mpr hne))) h0
  · intro h0
    by_contra hne
    have := h2.mpr hne
    apply this
    have hz : coefficient_at p k = 0 := by
      by_contra hcz
      exact (h1.mp hcz) h0
    rw [hz, mul_zero]

theorem length_le_of_rd_zero (p : fmpq_poly) (hwf : well_formed p) (n : Nat)
    (h : ∀ k : Int, (n : Int) ≤ k → rd p.coeffs k = 0) : p.coeffs.length ≤ n := by
  by_contra hlt
  have hne : p.coeffs ≠ [] := by
    intro h0
    rw [h0] at hlt
    simp at hlt
  have htop := rd_top_ne_zero p.coeffs hwf.1 hne
  exact htop (h _ (by omega))

theorem length_eq_of_scaled (c : ℚ) (hc : c ≠ 0) (p q : fmpq_poly) (hp : well_formed p)
    (hq : well_formed q) (h : scaled_by c p q) : q.coeffs.length = p.coeffs.length := by
  apply le_antisymm
  · apply length_le_of_rd_zero q hq
    intro k hk
    rw [rd_zero_iff_of_scaled c hc p q hp.2 hq.2 h]
    exact rd_of_length_le _ hk
  · apply length_le_of_rd_zero p hp
    intro k hk
    rw [← rd_zero_iff_of_scaled c hc p q hp.2 hq.2 h]
    exact rd_of_length_le _ hk

theorem nil_iff_of_scaled (c : ℚ) (hc : c ≠ 0) (p q : fmpq_poly) (hp : well_formed p)
    (hq : well_formed q) (h : scaled_by c p q) : q.coeffs = [] ↔ p.coeffs = [] := by
  have hlen := length_eq_of_scaled c hc p q hp hq h
  rw [← List.length_eq_zero, ← List.length_eq_zero (l := p.coeffs), hlen]

theorem eval_at_1_scaled (c : ℚ) (hc : c ≠ 0) (p q : fmpq_poly) (hp : well_formed p)
    (hq : well_formed q) (h : scaled_by c p q) : eval_at_1 q = c * eval_at_1 p := by
  have hlen := length_eq_of_scaled c hc p q hp hq h
  rw [eval_at_1_eq_finset_sum q p.coeffs.length (le_of_eq hlen),
    eval_at_1_eq_finset_sum p p.coeffs.length (le_refl _), Finset.mul_sum]
  apply Finset.sum_congr rfl
  intro k _
  exact h k

/-- A sequence that vanishes at negative indices is determined by its product with
`x - 1`. -/
theorem scaled_of_mul_x_minus_1 (c : ℚ) (p q : fmpq_poly)
    (h : ∀ k, mul_x_minus_1 (coefficient_at q) k = c * mul_x_minus_1 (coefficient_at p) k) :
    scaled_by c p q := by
  have key : ∀ n : Nat, ∀ k : Int, k < n → coefficient_at q k = c * coefficient_at p k := by
    intro n
    induction n with
    | zero =>
      intro k hk
      rw [coefficient_at_of_neg q k (by simpa using hk),
        coefficient_at_of_neg p k (by simpa using hk), mul_zero]
    | succ n ih =>
      intro k hk
      by_cases hlt : k < n
      · exact ih k hlt
      · have hkn : k = n := by
          push_cast at hk
          omega
        have h1 := h k
        unfold mul_x_minus_1 at h1
        have h2 := ih (k - 1) (by omega)
        linarith
  intro k
  exact key (k.toNat + 1) k (by push_cast; omega)

theorem get_lambda_scaled (c : ℚ) (hc : c ≠ 0) (p q : fmpq_poly) (hp : well_formed p)
    (hq : well_formed q) (h : scaled_by c p q) : get_lambda q = get_lambda p := by
  obtain ⟨p0, p1, p2, p3⟩ := get_lambda_low p hp.1
  obtain ⟨q0, q1, q2, q3⟩ := get_lambda_low q hq.1
  have hlen := length_eq_of_scaled c hc p q hp hq h
  by_cases hne : p.coeffs = []
  · have hqn := (nil_iff_of_scaled c hc p q hp hq h).mpr hne
    rw [hne] at p1
    rw [hqn] at q1
    simp only [List.length_nil, Nat.cast_zero] at p1 q1
    omega
  · have hqne : q.coeffs ≠ [] := fun h0 => hne ((nil_iff_of_scaled c hc p q hp hq h).mp h0)
    obtain ⟨_, p4⟩ := p3 hne
    obtain ⟨_, q4⟩ := q3 hqne
    have iff1 := rd_zero_iff_of_scaled c hc p q hp.2 hq.2 h
    by_contra hneq
    rcases lt_or_gt_of_ne hneq with hlt | hgt
    · exact q4 ((iff1 _).mpr (p2 _ hlt))
    · exact p4 ((iff1 _).mp (q2 _ hgt))

theorem get_delta_toRat (T1 T2 : fmpq_poly) (hwf1 : well_formed T1) (hwf2 : well_formed T2)
    (hne : T2.coeffs ≠ []) :
    (get_delta T1 T2).toRat * coefficient_at T2 (get_lambda T2) = coefficient_at T1 0 := by
  have hx := get_delta_cross T1 T2 hwf1 hwf2 (Or.inl hne)
  have hdd := get_delta_den_ne_zero T1 T2 hwf1 hwf2
  rw [coefficient_at_eq, coefficient_at_eq]
  unfold fmpq.toRat
  have h1 : (T1.den : ℚ) ≠ 0 := by exact_mod_cast hwf1.2
  have h2 : (T2.den : ℚ) ≠ 0 := by exact_mod_cast hwf2.2
  have h3 : ((get_delta T1 T2).den : ℚ) ≠ 0 := by exact_mod_cast hdd
  have hxq : ((get_delta T1 T2).num : ℚ) * (T1.den : ℚ) * (rd T2.coeffs (get_lambda T2) : ℚ)
      = ((get_delta T1 T2).den : ℚ) * (T2.den : ℚ) * (rd T1.coeffs 0 : ℚ) := by
    exact_mod_cast hx
  field_simp
  linear_combination hxq

theorem get_delta_scaled (c : ℚ) (hc : c ≠ 0) (T1 T2 T1' T2' : fmpq_poly)
    (hwf1 : well_formed T1) (hwf2 : well_formed T2) (hwf1' : well_formed T1')
    (hwf2' : well_formed T2') (h1 : scaled_by c T1 T1') (h2 : scaled_by c T2 T2') :
    (get_delta T1' T2').toRat = (get_delta T1 T2).toRat := by
  by_cases hne : T2.coeffs = []
  · have hne' := (nil_iff_of_scaled c hc T2 T2' hwf2 hwf2' h2).mpr hne
    rw [get_delta_of_nil _ _ hne, get_delta_of_nil _ _ hne']
  · have hne' : T2'.coeffs ≠ [] :=
      fun h0 => hne ((nil_iff_of_scaled c hc T2 T2' hwf2 hwf2' h2).mp h0)
    have e := get_delta_toRat T1 T2 hwf1 hwf2 hne
    have e' := get_delta_toRat T1' T2' hwf1' hwf2' hne'
    rw [get_lambda_scaled c hc T2 T2' hwf2 hwf2' h2, h1 0, h2 (get_lambda T2)] at e'
    have hnz : coefficient_at T2 (get_lambda T2) ≠ 0 :=
      (coefficient_at_ne_zero_iff _ hwf2.2 _).mpr ((get_lambda_low T2 hwf2.1).2.2.2 hne).2
    have : ((get_delta T1' T2').toRat - (get_delta T1 T2).toRat)
        * (c * coefficient_at T2 (get_lambda T2)) = 0 := by
      rw [← e] at e'
      linear_combination e'
    rcases mul_eq_zero.mp this with h0 | h0
    · linarith
    · exact absurd h0 (mul_ne_zero hc hnz)

theorem ne_zero_sum_iff_of_scaled (c : ℚ) (hc : c ≠ 0) (p q : fmpq_poly) (hp : well_formed p)
    (hq : well_formed q) (h : scaled_by c p q) : q.coeffs.sum = 0 ↔ p.coeffs.sum = 0 := by
  have he := eval_at_1_scaled c hc p q hp hq h
  rw [eval_at_1_eq, eval_at_1_eq] at he
  have h1 : (p.den : ℚ) ≠ 0 := by exact_mod_cast hp.2
  have h2 : (q.den : ℚ) ≠ 0 := by exact_mod_cast hq.2
  constructor
  · intro h0
    rw [h0] at he
    simp only [Int.cast_zero, zero_div] at he
    have := mul_eq_zero.mp he.symm
    rcases this with h3 | h3
    · exact absurd h3 hc
    · rcases div_eq_zero_iff.mp h3 with h4 | h4
      · exact_mod_cast h4
      · exact absurd h4 h1
  · intro h0
    rw [h0] at he
    simp only [Int.cast_zero, zero_div, mul_zero] at he
    rcases div_eq_zero_iff.mp he with h4 | h4
    · exact_mod_cast h4
    · exact absurd h4 h2

/-- The loop of `clear_x_minus_1` on `P` and on `c * P` makes the same number of
passes and leaves `Q` and `c * Q`. -/
theorem clear_loop_scaled (c : ℚ) (hc : c ≠ 0) (n : Nat) : ∀ (P P' : fmpq_poly),
    well_formed P → well_formed P' → P.coeffs ≠ [] → scaled_by c P P' →
    P.coeffs.length ≤ n →
    ∃ (m : Nat) (Q Q' : fmpq_poly), well_formed Q ∧ well_formed Q' ∧
      eval_at_1 Q ≠ 0 ∧ scaled_by c Q Q' ∧
      ∀ (fuel : Nat) (count : Int), P.coeffs.length ≤ fuel →
        clear_loop fuel count P P = some (count + m, Q) ∧
        clear_loop fuel count P' P' = some (count + m, Q') := by
  induction n with
  | zero =>
    intro P _ _ _ hne _ hlen
    exact absurd (List.length_eq_zero.mp (by omega)) hne
  | succ n ih =>
    intro P P' hwf hwf' hne hsc hlen
    have hlen' := length_eq_of_scaled c hc P P' hwf hwf' hsc
    have hne' : P'.coeffs ≠ [] := fun h0 => hne ((nil_iff_of_scaled c hc P P' hwf hwf' hsc).mp h0)
    have hsum := ne_zero_sum_iff_of_scaled c hc P P' hwf hwf' hsc
    obtain ⟨cs, d⟩ := P
    obtain ⟨cs', d'⟩ := P'
    obtain ⟨hl, hd⟩ := hwf
    obtain ⟨hl', hd'⟩ := hwf'
    simp only at hl hd hne hlen hl' hd' hne' hlen' hsum
    have hpos : 0 < cs.length := List.length_pos.mpr hne
    obtain ⟨h1a, h1b, _⟩ := horner_down cs 0 (le_refl _)
    obtain ⟨h1a', h1b', _⟩ := horner_down cs' 0 (le_refl _)
    have hr : rd (for_down ((cs.length : Int) - 1 - 1) 0
        (fun i c => wr c i (rd c i + rd c (i + 1))) cs) 0 = cs.sum := by
      rw [h1b 0 (le_refl _), list_sum_eq_range_sum]
    have hr' : rd (for_down ((cs'.length : Int) - 1 - 1) 0
        (fun i c => wr c i (rd c i + rd c (i + 1))) cs') 0 = cs'.sum := by
      rw [h1b' 0 (le_refl _), list_sum_eq_range_sum]
    by_cases h0 : cs.sum = 0
    · have h0' : cs'.sum = 0 := hsum.mpr h0
      obtain ⟨hwfn, hlenn, hnen, hmul⟩ := clear_pass cs d hl hne hd _ h1a h1b (by rw [hr]; exact h0)
      obtain ⟨hwfn', hlenn', hnen', hmul'⟩ :=
        clear_pass cs' d' hl' hne' hd' _ h1a' h1b' (by rw [hr']; exact h0')
      have hscn : scaled_by c
          (fmpq_poly_canonicalise (fmpq_poly_shift_right
            ⟨for_down ((cs.length : Int) - 1 - 1) 0
              (fun i c => wr c i (rd c i + rd c (i + 1))) cs, d⟩ 1))
          (fmpq_poly_canonicalise (fmpq_poly_shift_right
            ⟨for_down ((cs'.length : Int) - 1 - 1) 0
              (fun i c => wr c i (rd c i + rd c (i + 1))) cs', d'⟩ 1)) := by
        apply scaled_of_mul_x_minus_1
        intro k
        rw [hmul k, hmul' k]
        exact hsc k
      obtain ⟨m, Q, Q', hQ, hQ', hval, hQsc, hloop⟩ := ih _ _ hwfn hwfn' hnen hscn (by omega)
      refine ⟨m + 1, Q, Q', hQ, hQ', hval, hQsc, ?_⟩
      intro fuel count hfuel
      obtain ⟨f, rfl⟩ : ∃ f, fuel = f + 1 := ⟨fuel - 1, by simp only at hfuel; omega⟩
      obtain ⟨l1, l2⟩ := hloop f (count + 1) (by simp only at hfuel; omega)
      constructor
      · rw [clear_loop]
        simp only [fmpq_poly_degree]
        rw [if_pos (by rw [hr]; exact h0), l1]
        congr 2
        push_cast
        ring
      · rw [clear_loop]
        simp only [fmpq_poly_degree]
        rw [if_pos (by rw [hr']; exact h0'), l2]
        congr 2
        push_cast
        ring
    · have h0' : ¬ cs'.sum = 0 := fun h => h0 (hsum.mp h)
      refine ⟨0, ⟨cs, d⟩, ⟨cs', d'⟩, ⟨hl, hd⟩, ⟨hl', hd'⟩, ?_, hsc, ?_⟩
      · rw [eval_at_1_eq]
        have hdq : (d : ℚ) ≠ 0 := by exact_mod_cast hd
        simp only [ne_eq, div_eq_zero_iff, not_or]
        exact ⟨by exact_mod_cast h0, hdq⟩
      · intro fuel count hfuel
        obtain ⟨f, rfl⟩ : ∃ f, fuel = f + 1 := ⟨fuel - 1, by simp only at hfuel; omega⟩
        constructor
        · rw [clear_loop]
          simp only [fmpq_poly_degree]
          rw [if_neg (by rw [hr]; exact h0)]
          simp
        · rw [clear_loop]
          simp only [fmpq_poly_degree]
          rw [if_neg (by rw [hr']; exact h0')]
          simp

theorem clear_x_minus_1_scaled (c : ℚ) (hc : c ≠ 0) (P P' : fmpq_poly) (hwf : well_formed P)
    (hwf' : well_formed P') (hne : P.coeffs ≠ []) (hsc : scaled_by c P P') :
    ∃ (m : Nat) (D D' : fmpq_poly), clear_x_minus_1 P = some ((m : Int), D) ∧
      clear_x_minus_1 P' = some ((m : Int), D') ∧ well_formed D ∧ well_formed D' ∧
      eval_at_1 D ≠ 0 ∧ scaled_by c D D' := by
  have hlen' := length_eq_of_scaled c hc P P' hwf hwf' hsc
  obtain ⟨m, Q, Q', hQ, hQ', hval, hQsc, hloop⟩ :=
    clear_loop_scaled c hc P.coeffs.length P P' hwf hwf' hne hsc (le_refl _)
  have hpos : 0 < P.coeffs.length := List.length_pos.mpr hne
  obtain ⟨l1, l2⟩ := hloop (P.coeffs.length + 1) 0 (by omega)
  refine ⟨m, Q, Q', ?_, ?_, hQ, hQ', hval, hQsc⟩
  · unfold clear_x_minus_1 clear_x_minus_1_fuel fmpq_poly_length
    rw [if_pos (by omega), l1]
    simp
  · unfold clear_x_minus_1 clear_x_minus_1_fuel fmpq_poly_length
    rw [if_pos (by omega), hlen', l2]
    simp

theorem rule_init_scaled (c : ℚ) (hc : c ≠ 0) (D D' : fmpq_poly) (hwf : well_formed D)
    (hwf' : well_formed D') (hsc : scaled_by c D D') :
    scaled_by c (rule_init D).1 (rule_init D').1 ∧
    scaled_by c (rule_init D).2.1 (rule_init D').2.1 ∧
    (rule_init D').2.2.1.toRat = c * (rule_init D).2.2.1.toRat ∧
    (rule_init D').2.2.2.toRat = c * (rule_init D).2.2.2.toRat := by
  have hlen := length_eq_of_scaled c hc D D' hwf hwf' hsc
  obtain ⟨hw1, hw2, hco, hmul, _, _, _, hs1, hs2⟩ := rule_init_spec D hwf
  obtain ⟨hw1', hw2', hco', hmul', _, _, _, hs1', hs2'⟩ := rule_init_spec D' hwf'
  have a1 : scaled_by c (rule_init D).1 (rule_init D').1 := by
    intro k
    rw [hco, hco', hlen, hsc, hsc]
    ring
  have a2 : scaled_by c (rule_init D).2.1 (rule_init D').2.1 := by
    apply scaled_of_mul_x_minus_1
    intro k
    rw [hmul, hmul', hlen, hsc, hsc]
    ring
  refine ⟨a1, a2, ?_, ?_⟩
  · rw [hs1, hs1']
    exact eval_at_1_scaled c hc _ _ hw1 hw1' a1
  · rw [hs2, hs2']
    exact eval_at_1_scaled c hc _ _ hw2 hw2' a2

theorem derivative_scaled (c : ℚ) (p q : fmpq_poly) (hp : p.den ≠ 0) (hq : q.den ≠ 0)
    (hsc : scaled_by c p q) : scaled_by c (fmpq_poly_derivative p) (fmpq_poly_derivative q) := by
  intro k
  rw [coefficient_at_derivative p hp, coefficient_at_derivative q hq]
  split
  · rw [hsc]
    ring
  · rw [mul_zero]

theorem neg_scaled (c : ℚ) (p q : fmpq_poly) (hsc : scaled_by c p q) :
    scaled_by c (fmpq_poly_neg p) (fmpq_poly_neg q) := by
  intro k
  rw [coefficient_at_neg, coefficient_at_neg, hsc]
  ring

theorem coefficient_at_of_length_le (p : fmpq_poly) (k : Int) (h : (p.coeffs.length : Int) ≤ k) :
    coefficient_at p k = 0 := by
  rw [coefficient_at_eq, rd_of_length_le _ h]
  simp

/-- The outputs of `do_recurence` on `c` times the inputs are `c` times the outputs. -/
theorem do_recurence_scaled (c : ℚ) (hc : c ≠ 0) (d0 d0' : fmpq) (T1 T2 T1' T2' : fmpq_poly)
    (s1 s2 s1' s2' : fmpq) (fl : Int)
    (hwf1 : well_formed T1) (hwf2 : well_formed T2) (hwf1' : well_formed T1')
    (hwf2' : well_formed T2')
    (hs1 : formally_symmetric T1 (fl + 2)) (hs2 : formally_symmetric T2 (fl + 1))
    (hs1' : formally_symmetric T1' (fl + 2)) (hs2' : formally_symmetric T2' (fl + 1))
    (hd1 : s1.den ≠ 0) (hd2 : s2.den ≠ 0) (hd1' : s1'.den ≠ 0) (hd2' : s2'.den ≠ 0)
    (h1 : scaled_by c T1 T1') (h2 : scaled_by c T2 T2')
    (hσ1 : s1'.toRat = c * s1.toRat) (hσ2 : s2'.toRat = c * s2.toRat) :
    scaled_by c (do_recurence d0 0 T1 T2 s1 s2 fl).1 (do_recurence d0' 0 T1' T2' s1' s2' fl).1 ∧
    (do_recurence d0' 0 T1' T2' s1' s2' fl).2.1.toRat
      = c * (do_recurence d0 0 T1 T2 s1 s2 fl).2.1.toRat := by
  by_cases hfl : 1 ≤ fl
  · have hδ := get_delta_scaled c hc T1 T2 T1' T2' hwf1 hwf2 hwf1' hwf2' h1 h2
    have hlam := get_lambda_scaled c hc T2 T2' hwf2 hwf2' h2
    obtain ⟨_, hsym3, _⟩ := do_recurence_spec d0 T1 T2 s1 s2 fl hfl hwf1 hwf2 hs1 hs2
    obtain ⟨_, hsym3', _⟩ := do_recurence_spec d0' T1' T2' s1' s2' fl hfl hwf1' hwf2' hs1' hs2'
    obtain ⟨e, _⟩ := do_recurence_sigma d0 T1 T2 s1 s2 fl hfl hwf1 hwf2 hd1 hd2
    obtain ⟨e', _⟩ := do_recurence_sigma d0' T1' T2' s1' s2' fl hfl hwf1' hwf2' hd1' hd2'
    constructor
    · intro k
      by_cases hk : 0 ≤ k ∧ k < fl
      · rw [do_recurence_coeff d0 T1 T2 s1 s2 fl hfl hwf1 hwf2 hs1 hs2 k hk.1 hk.2,
          do_recurence_coeff d0' T1' T2' s1' s2' fl hfl hwf1' hwf2' hs1' hs2' k hk.1 hk.2,
          hδ, hlam, h1, h2, h2]
        ring
      · by_cases hk0 : k < 0
        · rw [coefficient_at_of_neg _ k hk0, coefficient_at_of_neg _ k hk0, mul_zero]
        · have l3 : ((do_recurence d0 0 T1 T2 s1 s2 fl).1.coeffs.length : Int) ≤ fl := hsym3.1
          have l3' : ((do_recurence d0' 0 T1' T2' s1' s2' fl).1.coeffs.length : Int) ≤ fl :=
            hsym3'.1
          rw [coefficient_at_of_length_le _ k (by omega),
            coefficient_at_of_length_le _ k (by omega), mul_zero]
    · rw [e, e', hδ, hσ1, hσ2]
      ring
  · have hr : do_recurence d0 0 T1 T2 s1 s2 fl = (fmpq_poly_zero, fmpq_zero, d0) := by
      unfold do_recurence
      rw [if_pos (by omega)]
    have hr' : do_recurence d0' 0 T1' T2' s1' s2' fl = (fmpq_poly_zero, fmpq_zero, d0') := by
      unfold do_recurence
      rw [if_pos (by omega)]
    rw [hr, hr']
    simp only
    constructor
    · intro k
      rw [coefficient_at_nil _ rfl, mul_zero]
    · rw [toRat_zero, mul_zero]

theorem fmpq_sgn_scaled (c : ℚ) (q q' : fmpq) (hd : 0 < q.den) (hd' : 0 < q'.den)
    (h : q'.toRat = c * q.toRat) :
    (0 < c → fmpq_sgn q' = fmpq_sgn q) ∧ (c < 0 → fmpq_sgn q' = -fmpq_sgn q) := by
  rcases fmpq_sgn_cases q hd with ⟨hx, hs⟩ | ⟨hx, hs⟩ | ⟨hx, hs⟩
  · constructor
    · intro hc
      rw [hs]
      apply fmpq_sgn_of_neg q' hd'
      rw [h]
      exact mul_neg_of_pos_of_neg hc hx
    · intro hc
      rw [hs]
      apply fmpq_sgn_of_pos q' hd'
      rw [h]
      exact mul_pos_of_neg_of_neg hc hx
  · have h0 : q'.toRat = 0 := by rw [h, hx, mul_zero]
    constructor
    · intro _
      rw [hs]
      exact fmpq_sgn_of_zero q' hd' h0
    · intro _
      rw [hs]
      exact fmpq_sgn_of_zero q' hd' h0
  · constructor
    · intro hc
      rw [hs]
      apply fmpq_sgn_of_pos q' hd'
      rw [h]
      exact mul_pos hc hx
    · intro hc
      rw [hs]
      apply fmpq_sgn_of_neg q' hd'
      rw [h]
      exact mul_neg_of_neg_of_pos hc hx

/-- The sign bookkeeping and the rotation of the slots on two states of which the
second holds `c` times the polynomials and rationals of the first. -/
theorem rotate_scaled (c : ℚ) (t t' : rule_state)
    (hT : scaled_by c t.T_curr t'.T_curr) (hN : scaled_by c t.T_next t'.T_next)
    (hσc : t'.sigma_curr.toRat = c * t.sigma_curr.toRat)
    (hσn : t'.sigma_next.toRat = c * t.sigma_next.toRat)
    (hd : 0 < t.sigma_curr.den) (hd' : 0 < t'.sigma_curr.den)
    (hl : (0 < c ∧ t'.last_sgn = t.last_sgn) ∨ (c < 0 ∧ t'.last_sgn = -t.last_sgn))
    (hv : t'.vars = t.vars) (hsing : t'.singular = t.singular)
    (hvr : t'.vars_reg = t.vars_reg) :
    scaled_state c (rule_count_and_rotate t) (rule_count_and_rotate t') := by
  obtain ⟨rv, rl, _⟩ := rotate_counters t
  obtain ⟨rv', rl', _⟩ := rotate_counters t'
  obtain ⟨sp, sn⟩ := fmpq_sgn_scaled c t.sigma_curr t'.sigma_curr hd hd' hσc
  refine ⟨hT, hN, hσc, hσn, ?_, ?_, hsing, hvr⟩
  · rcases hl with ⟨hc, hl⟩ | ⟨hc, hl⟩
    · left
      refine ⟨hc, ?_⟩
      rw [rl, rl', sp hc, hl]
    · right
      refine ⟨hc, ?_⟩
      rw [rl, rl', sn hc, hl]
      by_cases h0 : fmpq_sgn t.sigma_curr = 0
      · simp [h0]
      · simp [h0]
  · rw [rv, rv', hv]
    rcases hl with ⟨hc, hl⟩ | ⟨hc, hl⟩
    · rw [sp hc, hl]
    · rw [sn hc, hl, neg_mul_neg]

theorem fields_rule_singular (i : Int) (s : rule_state) :
    (rule_singular i s).T_curr = (do_singular s.T_prev s.sigma_prev).2.1 ∧
    (rule_singular i s).T_next = (do_singular s.T_prev s.sigma_prev).2.2.1 ∧
    (rule_singular i s).sigma_curr = (do_singular s.T_prev s.sigma_prev).2.2.2.2.1 ∧
    (rule_singular i s).sigma_next = (do_singular s.T_prev s.sigma_prev).2.2.2.2.2 ∧
    (rule_singular i s).last_sgn = s.last_sgn ∧ (rule_singular i s).vars = s.vars ∧
    (rule_singular i s).singular = (if s.singular = -1 then i else s.singular) ∧
    (rule_singular i s).vars_reg = (if s.singular = -1 then s.vars else s.vars_reg) := by
  unfold rule_singular
  simp only
  by_cases h : s.singular = -1
  · rw [if_pos h, if_pos h, if_pos h]
    exact ⟨rfl, rfl, rfl, rfl, rfl, rfl, rfl, rfl⟩
  · rw [if_neg h, if_neg h, if_neg h]
    exact ⟨rfl, rfl, rfl, rfl, rfl, rfl, rfl, rfl⟩

theorem takes_singular_branch_iff (s : rule_state) :
    takes_singular_branch s = true
      ↔ (s.T_curr.coeffs = [] ∧ s.T_prev.coeffs ≠ [] ∧ rd s.T_prev.coeffs 0 ≠ 0) := by
  unfold takes_singular_branch fmpq_poly_is_zero
  simp [and_assoc]

theorem takes_singular_branch_scaled (c : ℚ) (hc : c ≠ 0) (i : Int) (s s' : rule_state)
    (hinv : loop_invariant i s) (hinv' : loop_invariant i s') (hsc : scaled_state c s s') :
    takes_singular_branch s' = takes_singular_branch s := by
  obtain ⟨hwA, hwB, _⟩ := hinv
  obtain ⟨hwA', hwB', _⟩ := hinv'
  obtain ⟨hA, hB, _⟩ := hsc
  have e1 := nil_iff_of_scaled c hc _ _ hwB hwB' hB
  have e2 := nil_iff_of_scaled c hc _ _ hwA hwA' hA
  have e3 := rd_zero_iff_of_scaled c hc _ _ hwA.2 hwA'.2 hA 0
  rw [Bool.eq_iff_iff, takes_singular_branch_iff, takes_singular_branch_iff]
  simp only [ne_eq, e1, e2, e3]

/-- One iteration on two states that satisfy the invariant, the second holding `c`
times the first: both go on, and the same holds for the two next states. -/
theorem scaled_step (c : ℚ) (hc : c ≠ 0) (i : Int) (hi : 0 ≤ i) (s s' : rule_state)
    (hinv : loop_invariant i s) (hinv' : loop_invariant i s') (hsc : scaled_state c s s') :
    ∃ t t', rule_step 0 i s = some t ∧ rule_step 0 i s' = some t' ∧
      loop_invariant (i - 1) t ∧ loop_invariant (i - 1) t' ∧ scaled_state c t t' := by
  obtain ⟨t, hstep, hinvt⟩ := loop_invariant_step i s hi hinv
  obtain ⟨t', hstep', hinvt'⟩ := loop_invariant_step i s' hi hinv'
  refine ⟨t, t', hstep, hstep', hinvt, hinvt', ?_⟩
  have hb := takes_singular_branch_scaled c hc i s s' hinv hinv' hsc
  obtain ⟨hwA, hwB, hsA, hsB, _, _, hdA, hdB, _⟩ := hinv
  obtain ⟨hwA', hwB', hsA', hsB', _, _, hdA', hdB', _⟩ := hinv'
  obtain ⟨hA, hB, hσA, hσB, hl, hv, hsing, hvr⟩ := hsc
  cases hbs : takes_singular_branch s with
  | true =>
    rw [hbs] at hb
    have ht : t = rule_count_and_rotate (rule_singular i s) := by
      rw [rule_step_of_singular 0 i s hbs] at hstep
      exact (Option.some.inj hstep).symm
    have ht' : t' = rule_count_and_rotate (rule_singular i s') := by
      rw [rule_step_of_singular 0 i s' hb] at hstep'
      exact (Option.some.inj hstep').symm
    obtain ⟨f1, f2, f3, f4, f5, f6, f7, f8⟩ := fields_rule_singular i s
    obtain ⟨g1, g2, g3, g4, g5, g6, g7, g8⟩ := fields_rule_singular i s'
    have hwD := well_formed_derivative s.T_prev hwA.2
    have hwD' := well_formed_derivative s'.T_prev hwA'.2
    have hD := derivative_scaled c _ _ hwA.2 hwA'.2 hA
    obtain ⟨i1, i2, i3, i4⟩ := rule_init_scaled c hc _ _ hwD hwD' hD
    obtain ⟨hw1, _, _, _, _, _, _, _, _⟩ := rule_init_spec (fmpq_poly_derivative s.T_prev) hwD
    obtain ⟨hw1', _, _, _, _, _, _, _, _⟩ :=
      rule_init_spec (fmpq_poly_derivative s'.T_prev) hwD'
    have d1 : (do_singular s.T_prev s.sigma_prev).2.1
        = fmpq_poly_neg (rule_init (fmpq_poly_derivative s.T_prev)).1 := rfl
    have d2 : (do_singular s.T_prev s.sigma_prev).2.2.1
        = (rule_init (fmpq_poly_derivative s.T_prev)).2.1 := rfl
    have d3 : (do_singular s.T_prev s.sigma_prev).2.2.2.2.1
        = fmpq_neg (rule_init (fmpq_poly_derivative s.T_prev)).2.2.1 := rfl
    have d4 : (do_singular s.T_prev s.sigma_prev).2.2.2.2.2
        = (rule_init (fmpq_poly_derivative s.T_prev)).2.2.2 := rfl
    have d1' : (do_singular s'.T_prev s'.sigma_prev).2.1
        = fmpq_poly_neg (rule_init (fmpq_poly_derivative s'.T_prev)).1 := rfl
    have d2' : (do_singular s'.T_prev s'.sigma_prev).2.2.1
        = (rule_init (fmpq_poly_derivative s'.T_prev)).2.1 := rfl
    have d3' : (do_singular s'.T_prev s'.sigma_prev).2.2.2.2.1
        = fmpq_neg (rule_init (fmpq_poly_derivative s'.T_prev)).2.2.1 := rfl
    have d4' : (do_singular s'.T_prev s'.sigma_prev).2.2.2.2.2
        = (rule_init (fmpq_poly_derivative s'.T_prev)).2.2.2 := rfl
    rw [ht, ht']
    apply rotate_scaled c
    · rw [f1, g1, d1, d1']
      exact neg_scaled c _ _ i1
    · rw [f2, g2, d2, d2']
      exact i2
    · rw [f3, g3, d3, d3', toRat_neg, toRat_neg, i3]
      ring
    · rw [f4, g4, d4, d4']
      exact i4
    · rw [f3, d3]
      show 0 < (rule_init (fmpq_poly_derivative s.T_prev)).2.2.1.den
      rw [rule_init_sigma1]
      exact eval_at_1_sym_den_pos _ hw1.2
    · rw [g3, d3']
      show 0 < (rule_init (fmpq_poly_derivative s'.T_prev)).2.2.1.den
      rw [rule_init_sigma1]
      exact eval_at_1_sym_den_pos _ hw1'.2
    · rw [f5, g5]
      exact hl
    · rw [f6, g6]
      exact hv
    · rw [f7, g7, hsing]
    · rw [f8, g8, hsing, hv, hvr]
  | false =>
    rw [hbs] at hb
    have ht := rule_step_of_not_singular 0 i s t hbs hstep
    have ht' := rule_step_of_not_singular 0 i s' t' hb hstep'
    obtain ⟨r1, r2⟩ := do_recurence_scaled c hc s.delta s'.delta s.T_prev s.T_curr s'.T_prev
      s'.T_curr s.sigma_prev s.sigma_curr s'.sigma_prev s'.sigma_curr i hwA hwB hwA' hwB'
      hsA hsB hsA' hsB' (ne_of_gt hdA) (ne_of_gt hdB) (ne_of_gt hdA') (ne_of_gt hdB')
      hA hB hσA hσB
    rw [ht, ht']
    exact rotate_scaled c (rule_regular 0 i s) (rule_regular 0 i s') hB r1 hσB r2 hdB hdB' hl hv
      hsing hvr

/-- The whole loop on two states that satisfy the invariant, the second holding `c`
times the first: the same holds when the loop is left. -/
theorem scaled_loop (c : ℚ) (hc : c ≠ 0) (n : Nat) : ∀ (s s' : rule_state),
    loop_invariant ((n : Int) - 1) s → loop_invariant ((n : Int) - 1) s' →
    scaled_state c s s' →
    scaled_state c (rule_loop 0 n ((n : Int) - 1) s).2 (rule_loop 0 n ((n : Int) - 1) s').2 := by
  induction n with
  | zero =>
    intro s s' _ _ hsc
    simpa [rule_loop] using hsc
  | succ n ih =>
    intro s s' hinv hinv' hsc
    have hi : (0 : Int) ≤ ((n + 1 : Nat) : Int) - 1 := by
      push_cast
      omega
    obtain ⟨t, t', hstep, hstep', hinvt, hinvt', hsct⟩ :=
      scaled_step c hc _ hi s s' hinv hinv' hsc
    have e : ((n + 1 : Nat) : Int) - 1 - 1 = (n : Int) - 1 := by
      push_cast
      ring
    rw [e] at hinvt hinvt'
    rw [rule_loop, rule_loop]
    simp only [hstep, hstep']
    rw [e]
    exact ih t t' hinvt hinvt' hsct

theorem scaled_start (c : ℚ) (hc : c ≠ 0) (D D' : fmpq_poly) (hwf : well_formed D)
    (hwf' : well_formed D') (hsc : scaled_by c D D') :
    scaled_state c (rule_start D) (rule_start D') := by
  obtain ⟨i1, i2, i3, i4⟩ := rule_init_scaled c hc D D' hwf hwf' hsc
  obtain ⟨hw1, _, _, _, _, _, _, _, _⟩ := rule_init_spec D hwf
  obtain ⟨hw1', _, _, _, _, _, _, _, _⟩ := rule_init_spec D' hwf'
  have hd : 0 < (rule_init D).2.2.1.den := by
    rw [rule_init_sigma1]
    exact eval_at_1_sym_den_pos _ hw1.2
  have hd' : 0 < (rule_init D').2.2.1.den := by
    rw [rule_init_sigma1]
    exact eval_at_1_sym_den_pos _ hw1'.2
  obtain ⟨sp, sn⟩ := fmpq_sgn_scaled c _ _ hd hd' i3
  refine ⟨i1, i2, i3, i4, ?_, rfl, rfl, rfl⟩
  rcases lt_or_gt_of_ne hc with h | h
  · exact Or.inr ⟨h, sn h⟩
  · exact Or.inl ⟨h, sp h⟩

/-- A way to check `scaled_by` on given lists of numerators. -/
theorem scaled_by_of_range (a b : Int) (hb : b ≠ 0) (p q : fmpq_poly) (hp : p.den ≠ 0)
    (hq : q.den ≠ 0) (n : Nat) (hlp : p.coeffs.length ≤ n) (hlq : q.coeffs.length ≤ n)
    (h : ∀ k ∈ List.range n,
      rd q.coeffs (k : Int) * (b * p.den) = a * rd p.coeffs (k : Int) * q.den) :
    scaled_by ((a : ℚ) / (b : ℚ)) p q := by
  intro k
  by_cases hk : 0 ≤ k ∧ k < n
  · obtain ⟨j, rfl⟩ : ∃ j : Nat, k = j := ⟨k.toNat, by omega⟩
    have hj := h j (List.mem_range.mpr (by omega))
    rw [coefficient_at_eq, coefficient_at_eq]
    have h1 : (p.den : ℚ) ≠ 0 := by exact_mod_cast hp
    have h2 : (q.den : ℚ) ≠ 0 := by exact_mod_cast hq
    have h3 : (b : ℚ) ≠ 0 := by exact_mod_cast hb
    have hjq : (rd q.coeffs (j : Int) : ℚ) * ((b : ℚ) * (p.den : ℚ))
        = (a : ℚ) * (rd p.coeffs (j : Int) : ℚ) * (q.den : ℚ) := by
      exact_mod_cast hj
    field_simp
    linear_combination hjq
  · by_cases hk0 : k < 0
    · rw [coefficient_at_of_neg _ k hk0, coefficient_at_of_neg _ k hk0, mul_zero]
    · rw [coefficient_at_of_length_le _ k (by omega),
        coefficient_at_of_length_le _ k (by omega), mul_zero]

/-- Claim C21. `Bistritz_rule` is invariant under scaling: for every polynomial `P`
and every non-zero rational `c`, negative `c` included, `Bistritz_rule` returns a
pair on `P`, and on every representation `Q` of `c * P` (top numerator and
denominator not zero, as for `P`) it returns the same pair `(in_uc, on_uc)`. -/
theorem C21_Bistritz_rule_invariant_under_scaling (c : ℚ) (P Q : fmpq_poly) (hc : c ≠ 0)
    (hwf : well_formed P) (hwfQ : well_formed Q) (hsc : scaled_by c P Q) :
    ∃ r : Int × Int, Bistritz_rule P = some r ∧ Bistritz_rule Q = some r := by
  by_cases hne : P.coeffs = []
  · have hne' := (nil_iff_of_scaled c hc P Q hwf hwfQ hsc).mpr hne
    obtain ⟨cs, d⟩ := P
    obtain ⟨cs', d'⟩ := Q
    simp only at hne hne'
    subst hne
    subst hne'
    exact ⟨(-1, 0), Bistritz_rule_nil d, Bistritz_rule_nil d'⟩
  · obtain ⟨m, D, D', hcl, hcl', hwD, hwD', hval, hD⟩ :=
      clear_x_minus_1_scaled c hc P Q hwf hwfQ hne hsc
    have hval' : eval_at_1 D' ≠ 0 := by
      rw [eval_at_1_scaled c hc D D' hwD hwD' hD]
      exact mul_ne_zero hc hval
    have hlen := length_eq_of_scaled c hc D D' hwD hwD' hD
    have hdeg : fmpq_poly_degree D' = fmpq_poly_degree D := by
      unfold fmpq_poly_degree
      rw [hlen]
    have hDne := ne_nil_of_eval_at_1_ne_zero D hval
    have hpos : 0 < D.coeffs.length := List.length_pos.mpr hDne
    have hnat : (((fmpq_poly_degree D).toNat : Nat) : Int) = fmpq_poly_degree D := by
      unfold fmpq_poly_degree
      omega
    have hst := loop_invariant_start D hwD hval
    have hst' := loop_invariant_start D' hwD' hval'
    rw [hdeg] at hst'
    have hfin : scaled_state c
        (rule_loop 0 (fmpq_poly_degree D).toNat (fmpq_poly_degree D - 1) (rule_start D)).2
        (rule_loop 0 (fmpq_poly_degree D).toNat (fmpq_poly_degree D - 1) (rule_start D')).2 := by
      have h := scaled_loop c hc (fmpq_poly_degree D).toNat (rule_start D) (rule_start D')
        (by rw [hnat]; exact hst) (by rw [hnat]; exact hst')
        (scaled_start c hc D D' hwD hwD' hD)
      rw [hnat] at h
      exact h
    obtain ⟨_, _, _, _, _, hv, hs, hvr⟩ := hfin
    have hrun := Bistritz_run_eq P m D hcl
    have hrun' := Bistritz_run_eq Q m D' hcl'
    rw [hdeg] at hrun'
    refine ⟨rule_finish ⟨m, fmpq_poly_degree D,
      (rule_loop 0 (fmpq_poly_degree D).toNat (fmpq_poly_degree D - 1) (rule_start D)).1,
      (rule_loop 0 (fmpq_poly_degree D).toNat (fmpq_poly_degree D - 1) (rule_start D)).2⟩,
      ?_, ?_⟩
    · unfold Bistritz_rule
      rw [hrun]
      rfl
    · unfold Bistritz_rule
      rw [hrun']
      simp only [Option.map_some', Option.some.injEq]
      unfold rule_finish
      simp only
      rw [hv, hs, hvr]

/-- Instance of `C21_Bistritz_rule_invariant_under_scaling` on
`P = (1 - 3x + 2x^2) / 5` and `c = -3/2`, with `c * P = (-3 + 9x - 6x^2) / 10`. -/
theorem C21_Bistritz_rule_invariant_under_scaling_witness :
    (((-3 : Int) : ℚ) / ((2 : Int) : ℚ)) ≠ 0 ∧
    well_formed ⟨[1, -3, 2], 5⟩ ∧ well_formed ⟨[-3, 9, -6], 10⟩ ∧
    scaled_by (((-3 : Int) : ℚ) / ((2 : Int) : ℚ)) ⟨[1, -3, 2], 5⟩ ⟨[-3, 9, -6], 10⟩ ∧
    ∃ r : Int × Int, Bistritz_rule ⟨[1, -3, 2], 5⟩ = some r ∧
      Bistritz_rule ⟨[-3, 9, -6], 10⟩ = some r :=
  ⟨by norm_num, by decide, by decide,
    scaled_by_of_range (-3) 2 (by decide) ⟨[1, -3, 2], 5⟩ ⟨[-3, 9, -6], 10⟩ (by decide)
      (by decide) 3 (by decide) (by decide) (by decide),
    C21_Bistritz_rule_invariant_under_scaling (((-3 : Int) : ℚ) / ((2 : Int) : ℚ))
      ⟨[1, -3, 2], 5⟩ ⟨[-3, 9, -6], 10⟩ (by norm_num) (by decide) (by decide)
      (scaled_by_of_range (-3) 2 (by decide) ⟨[1, -3, 2], 5⟩ ⟨[-3, 9, -6], 10⟩ (by decide)
        (by decide) 3 (by decide) (by decide) (by decide))⟩

end Bistritz
